import Mathlib

/-!
Shallow embedding of the core of the `Matching_Engine` repository
(`src/core/order_book.cpp`, `src/core/matching_engine.cpp`,
`include/matching_engine/order.hpp`, `include/matching_engine/order_book.hpp`,
`include/matching_engine/matching_engine.hpp`, `include/types.hpp`),
together with theorems settling the frozen claims about it.

Modelling conventions:
* `Price` (C++ `double`) is modelled as `ℚ`: the matching kernel only ever
  compares prices (`>=`, `<=`, `==`) and copies them; no arithmetic that could
  round is performed on the matching path, so the ordered-field comparisons of
  non-NaN doubles are captured faithfully by rationals.
* `ℕ`, `ℕ`, `ℕ` (C++ `uint64_t`) are modelled as `ℕ`.
  The only arithmetic on them is guarded subtraction (`Order::fill`, whose
  call sites always pass `min` of the two remainders), `+ 1` on the trade-id
  counter and statistics counters; 64-bit wrap-around is not reachable within
  any bounded trace considered here and is not modelled.
* `std::map<Price, std::queue<Order>, greater>` / `less` are modelled as
  association lists sorted descending / ascending by key, a queue being a
  `List Order` whose head is the queue front.
* The C++ `while` loops of `matchLimitOrder` / `executeMarketOrder` are
  modelled with an explicit fuel parameter; every iteration except the last
  removes an order or a price level, so `levelSize side + 1` iterations always
  suffice, and that is the fuel the wrappers pass.
* Timestamps (`std::chrono` clocks) are not modelled: the book never reads
  them (FIFO order is structural queue order) and the statistics uptime is
  passed to the model as an explicit argument.
-/

namespace MatchingEngine

abbrev Price := ℚ
abbrev Symbol := String

inductive OrderSide where
  | BUY
  | SELL
deriving DecidableEq, Repr

inductive OrderType where
  | MARKET
  | LIMIT
deriving DecidableEq, Repr

/-- `matching_engine::Order` (order.hpp): identity plus mutable residual
quantity.  The `timestamp_` field is omitted (never read by the book; FIFO is
structural). -/
structure Order where
  id : ℕ
  symbol : Symbol
  side : OrderSide
  type : OrderType
  price : Price
  quantity : ℕ
  remaining_quantity : ℕ
deriving DecidableEq, Repr

def Order.isMarketOrder (o : Order) : Bool := o.type = OrderType.MARKET

def Order.isLimitOrder (o : Order) : Bool := o.type = OrderType.LIMIT

def Order.isBuyOrder (o : Order) : Bool := o.side = OrderSide.BUY

def Order.isSellOrder (o : Order) : Bool := o.side = OrderSide.SELL

def Order.isFullyFilled (o : Order) : Bool := o.remaining_quantity = 0

/-- `Order::fill`: decrement the residual.  The source throws when
`fill_quantity > remaining_quantity_`; every call site in the book passes
`min(incoming.remaining, resting.remaining)`, so the exception path is dead
and plain truncated subtraction coincides with the source on all reachable
calls. -/
def Order.fill (o : Order) (fill_quantity : ℕ) : Order :=
  { o with remaining_quantity := o.remaining_quantity - fill_quantity }

/-- `Order::canMatchWith` (order.hpp / order.cpp). -/
def Order.canMatchWith (o other : Order) : Bool :=
  if o.symbol ≠ other.symbol then false
  else if o.side = other.side then false
  else if o.isMarketOrder || other.isMarketOrder then true
  else if o.isBuyOrder then decide (o.price ≥ other.price)
  else decide (o.price ≤ other.price)

/-- The `Trade` struct of order_book.hpp (the record the book emits).
Its clock timestamp is omitted. -/
structure Trade where
  trade_id : ℕ
  buy_order_id : ℕ
  sell_order_id : ℕ
  execution_price : Price
  quantity : ℕ
deriving DecidableEq, Repr

/-- A price level: `std::queue<Order>`, head of the list = front of the queue. -/
abbrev Level := List Order

/-- `std::unordered_map<ℕ, std::pair<Price, OrderSide>>` as an
association list. -/
abbrev LocMap := List (ℕ × Price × OrderSide)

def locErase (i : ℕ) (l : LocMap) : LocMap :=
  l.filter (fun e => !(decide (e.1 = i)))

def locInsert (i : ℕ) (v : Price × OrderSide) (l : LocMap) : LocMap :=
  (i, v) :: locErase i l

def locFind (i : ℕ) (l : LocMap) : Option (Price × OrderSide) :=
  (l.find? (fun e => decide (e.1 = i))).map (fun e => e.2)

/-- `OrderBook` state (order_book.hpp): the two level maps, the cancellation
index, and the trade-id counter. -/
structure OrderBook where
  bids : List (Price × Level)
  asks : List (Price × Level)
  order_locations : LocMap
  next_trade_id : ℕ
deriving DecidableEq, Repr

/-- `OrderBook()` constructor: empty maps, `next_trade_id_(0)`. -/
def emptyBook : OrderBook := { bids := [], asks := [], order_locations := [], next_trade_id := 0 }

/-- Insertion into `bids_` (`std::map` with `std::greater`): keys descending;
`bids_[p].push(o)` appends to the queue of an existing key or inserts a fresh
level at the sorted position. -/
def bidsInsert (p : Price) (o : Order) : List (Price × Level) → List (Price × Level)
  | [] => [(p, [o])]
  | (q, lvl) :: rest =>
    if p = q then (q, lvl ++ [o]) :: rest
    else if p > q then (p, [o]) :: (q, lvl) :: rest
    else (q, lvl) :: bidsInsert p o rest

/-- Insertion into `asks_` (`std::map` with `std::less`): keys ascending. -/
def asksInsert (p : Price) (o : Order) : List (Price × Level) → List (Price × Level)
  | [] => [(p, [o])]
  | (q, lvl) :: rest =>
    if p = q then (q, lvl ++ [o]) :: rest
    else if p < q then (p, [o]) :: (q, lvl) :: rest
    else (q, lvl) :: asksInsert p o rest

/-- `OrderBook::determineExecutionPrice`: the passive (resting) order gets
price priority. -/
def determineExecutionPrice (_aggressive_order passive_order : Order) : Price :=
  passive_order.price

/-- `OrderBook::createTrade` combined with `generateTradeId`
(`return ++next_trade_id_`): the caller passes the already pre-incremented
counter value as the id of the new trade. -/
def createTrade (buy_order sell_order : Order) (execution_price : Price)
    (quantity : ℕ) (new_trade_id : ℕ) : Trade :=
  { trade_id := new_trade_id
    buy_order_id := buy_order.id
    sell_order_id := sell_order.id
    execution_price := execution_price
    quantity := quantity }

/-- Result of one matching loop: the trades emitted, the (possibly filled)
incoming order, the updated opposite side, the updated location index, and the
updated trade-id counter. -/
structure MatchResult where
  trades : List Trade
  order : Order
  opposite : List (Price × Level)
  locations : LocMap
  next_tid : ℕ
deriving DecidableEq, Repr

/-- Fuel bound for the matching loops: number of price levels plus number of
resting orders. -/
def levelSize (ls : List (Price × Level)) : ℕ :=
  (ls.map (fun pl => pl.2.length + 1)).sum

/-- The BUY branch of `OrderBook::matchLimitOrder` (order_book.cpp, the
`while (limit_order.getRemainingQuantity() > 0 && !asks_.empty())` loop),
with an explicit fuel parameter.  Each iteration erases an empty best level,
breaks when the best resting ask no longer matches, or trades against the
front of the best level, popping it when fully filled. -/
def matchLimitBuyLoop (fuel : ℕ) (o : Order) (asks : List (Price × Level))
    (locs : LocMap) (tid : ℕ) : MatchResult :=
  match fuel with
  | 0 => ⟨[], o, asks, locs, tid⟩
  | fuel + 1 =>
    if o.remaining_quantity = 0 then ⟨[], o, asks, locs, tid⟩
    else match asks with
    | [] => ⟨[], o, [], locs, tid⟩
    | (p, lvl) :: restLevels =>
      match lvl with
      | [] => matchLimitBuyLoop fuel o restLevels locs tid
      | best :: lvlRest =>
        if !(o.canMatchWith best) then ⟨[], o, (p, best :: lvlRest) :: restLevels, locs, tid⟩
        else
          let execution_price := determineExecutionPrice o best
          let trade_qty := min o.remaining_quantity best.remaining_quantity
          let trade := createTrade o best execution_price trade_qty (tid + 1)
          let o2 := o.fill trade_qty
          let best2 := best.fill trade_qty
          if best2.isFullyFilled then
            let asks2 := if lvlRest.isEmpty then restLevels else (p, lvlRest) :: restLevels
            let r := matchLimitBuyLoop fuel o2 asks2 (locErase best.id locs) (tid + 1)
            ⟨trade :: r.trades, r.order, r.opposite, r.locations, r.next_tid⟩
          else
            let r := matchLimitBuyLoop fuel o2 ((p, best2 :: lvlRest) :: restLevels) locs (tid + 1)
            ⟨trade :: r.trades, r.order, r.opposite, r.locations, r.next_tid⟩

/-- The SELL branch of `OrderBook::matchLimitOrder` (matching against `bids_`,
highest price first). -/
def matchLimitSellLoop (fuel : ℕ) (o : Order) (bids : List (Price × Level))
    (locs : LocMap) (tid : ℕ) : MatchResult :=
  match fuel with
  | 0 => ⟨[], o, bids, locs, tid⟩
  | fuel + 1 =>
    if o.remaining_quantity = 0 then ⟨[], o, bids, locs, tid⟩
    else match bids with
    | [] => ⟨[], o, [], locs, tid⟩
    | (p, lvl) :: restLevels =>
      match lvl with
      | [] => matchLimitSellLoop fuel o restLevels locs tid
      | best :: lvlRest =>
        if !(o.canMatchWith best) then ⟨[], o, (p, best :: lvlRest) :: restLevels, locs, tid⟩
        else
          let execution_price := determineExecutionPrice o best
          let trade_qty := min o.remaining_quantity best.remaining_quantity
          let trade := createTrade best o execution_price trade_qty (tid + 1)
          let o2 := o.fill trade_qty
          let best2 := best.fill trade_qty
          if best2.isFullyFilled then
            let bids2 := if lvlRest.isEmpty then restLevels else (p, lvlRest) :: restLevels
            let r := matchLimitSellLoop fuel o2 bids2 (locErase best.id locs) (tid + 1)
            ⟨trade :: r.trades, r.order, r.opposite, r.locations, r.next_tid⟩
          else
            let r := matchLimitSellLoop fuel o2 ((p, best2 :: lvlRest) :: restLevels) locs (tid + 1)
            ⟨trade :: r.trades, r.order, r.opposite, r.locations, r.next_tid⟩

/-- The BUY branch of `OrderBook::executeMarketOrder`: identical to the limit
loop except that there is no `canMatchWith` break (market orders always
match). -/
def executeMarketBuyLoop (fuel : ℕ) (o : Order) (asks : List (Price × Level))
    (locs : LocMap) (tid : ℕ) : MatchResult :=
  match fuel with
  | 0 => ⟨[], o, asks, locs, tid⟩
  | fuel + 1 =>
    if o.remaining_quantity = 0 then ⟨[], o, asks, locs, tid⟩
    else match asks with
    | [] => ⟨[], o, [], locs, tid⟩
    | (p, lvl) :: restLevels =>
      match lvl with
      | [] => executeMarketBuyLoop fuel o restLevels locs tid
      | best :: lvlRest =>
        let execution_price := determineExecutionPrice o best
        let trade_qty := min o.remaining_quantity best.remaining_quantity
        let trade := createTrade o best execution_price trade_qty (tid + 1)
        let o2 := o.fill trade_qty
        let best2 := best.fill trade_qty
        if best2.isFullyFilled then
          let asks2 := if lvlRest.isEmpty then restLevels else (p, lvlRest) :: restLevels
          let r := executeMarketBuyLoop fuel o2 asks2 (locErase best.id locs) (tid + 1)
          ⟨trade :: r.trades, r.order, r.opposite, r.locations, r.next_tid⟩
        else
          let r := executeMarketBuyLoop fuel o2 ((p, best2 :: lvlRest) :: restLevels) locs (tid + 1)
          ⟨trade :: r.trades, r.order, r.opposite, r.locations, r.next_tid⟩

/-- The SELL branch of `OrderBook::executeMarketOrder` (matching against
`bids_`). -/
def executeMarketSellLoop (fuel : ℕ) (o : Order) (bids : List (Price × Level))
    (locs : LocMap) (tid : ℕ) : MatchResult :=
  match fuel with
  | 0 => ⟨[], o, bids, locs, tid⟩
  | fuel + 1 =>
    if o.remaining_quantity = 0 then ⟨[], o, bids, locs, tid⟩
    else match bids with
    | [] => ⟨[], o, [], locs, tid⟩
    | (p, lvl) :: restLevels =>
      match lvl with
      | [] => executeMarketSellLoop fuel o restLevels locs tid
      | best :: lvlRest =>
        let execution_price := determineExecutionPrice o best
        let trade_qty := min o.remaining_quantity best.remaining_quantity
        let trade := createTrade best o execution_price trade_qty (tid + 1)
        let o2 := o.fill trade_qty
        let best2 := best.fill trade_qty
        if best2.isFullyFilled then
          let bids2 := if lvlRest.isEmpty then restLevels else (p, lvlRest) :: restLevels
          let r := executeMarketSellLoop fuel o2 bids2 (locErase best.id locs) (tid + 1)
          ⟨trade :: r.trades, r.order, r.opposite, r.locations, r.next_tid⟩
        else
          let r := executeMarketSellLoop fuel o2 ((p, best2 :: lvlRest) :: restLevels) locs (tid + 1)
          ⟨trade :: r.trades, r.order, r.opposite, r.locations, r.next_tid⟩

/-- `OrderBook::matchLimitOrder`: dispatch on side, thread the book state
through the loop.  The loops are run with fuel `levelSize side + 1`, which is
always sufficient (each iteration but the last removes an order or a level). -/
def OrderBook.matchLimitOrder (b : OrderBook) (limit_order : Order) :
    List Trade × Order × OrderBook :=
  if limit_order.isBuyOrder then
    let r := matchLimitBuyLoop (levelSize b.asks + 1) limit_order b.asks
      b.order_locations b.next_trade_id
    (r.trades, r.order,
      { b with asks := r.opposite, order_locations := r.locations, next_trade_id := r.next_tid })
  else
    let r := matchLimitSellLoop (levelSize b.bids + 1) limit_order b.bids
      b.order_locations b.next_trade_id
    (r.trades, r.order,
      { b with bids := r.opposite, order_locations := r.locations, next_trade_id := r.next_tid })

/-- `OrderBook::executeMarketOrder`: dispatch on side. -/
def OrderBook.executeMarketOrder (b : OrderBook) (market_order : Order) :
    List Trade × Order × OrderBook :=
  if market_order.isBuyOrder then
    let r := executeMarketBuyLoop (levelSize b.asks + 1) market_order b.asks
      b.order_locations b.next_trade_id
    (r.trades, r.order,
      { b with asks := r.opposite, order_locations := r.locations, next_trade_id := r.next_tid })
  else
    let r := executeMarketSellLoop (levelSize b.bids + 1) market_order b.bids
      b.order_locations b.next_trade_id
    (r.trades, r.order,
      { b with bids := r.opposite, order_locations := r.locations, next_trade_id := r.next_tid })

/-- `OrderBook::addToBook`: push the order at the back of the queue at its
price on its side, and record it in `order_locations_`. -/
def OrderBook.addToBook (b : OrderBook) (o : Order) : OrderBook :=
  if o.isBuyOrder then
    { b with bids := bidsInsert o.price o b.bids
             order_locations := locInsert o.id (o.price, o.side) b.order_locations }
  else
    { b with asks := asksInsert o.price o b.asks
             order_locations := locInsert o.id (o.price, o.side) b.order_locations }

/-- `OrderBook::addOrder`: market orders execute immediately and never rest;
limit orders match and any unfilled remainder is added to the book.  (An order
whose type is neither falls through with no trades, as in the source.) -/
def OrderBook.addOrder (b : OrderBook) (order : Order) : List Trade × OrderBook :=
  if order.isMarketOrder then
    let r := b.executeMarketOrder order
    (r.1, r.2.2)
  else if order.isLimitOrder then
    let r := b.matchLimitOrder order
    if !(r.2.1.isFullyFilled) then (r.1, r.2.2.addToBook r.2.1) else (r.1, r.2.2)
  else ([], b)

/-- Queue rebuild of `OrderBook::removeFromPriceLevel` on one side's level
list: locate the level with the given key, keep every order whose id differs
(the source pops the whole queue and pushes back the others, preserving their
order, i.e. a filter), and erase the level if it ends up empty.  `none` means
the price level was not found. -/
def levelRemove (price : Price) (order_id : ℕ) :
    List (Price × Level) → Option (Bool × List (Price × Level))
  | [] => none
  | (p, lvl) :: rest =>
    if p = price then
      let kept := lvl.filter (fun o => !(decide (o.id = order_id)))
      let found := lvl.any (fun o => decide (o.id = order_id))
      some (found, if kept.isEmpty then rest else (p, kept) :: rest)
    else
      (levelRemove price order_id rest).map (fun fr => (fr.1, (p, lvl) :: fr.2))

/-- `OrderBook::removeFromPriceLevel`. -/
def OrderBook.removeFromPriceLevel (b : OrderBook) (price : Price)
    (side : OrderSide) (order_id : ℕ) : Bool × OrderBook :=
  match side with
  | OrderSide.BUY =>
    match levelRemove price order_id b.bids with
    | none => (false, b)
    | some fr => (fr.1, { b with bids := fr.2 })
  | OrderSide.SELL =>
    match levelRemove price order_id b.asks with
    | none => (false, b)
    | some fr => (fr.1, { b with asks := fr.2 })

/-- `OrderBook::cancelOrder`: look the id up in `order_locations_`; if found,
remove it from its price level and from the index and return true. -/
def OrderBook.cancelOrder (b : OrderBook) (order_id : ℕ) : Bool × OrderBook :=
  match locFind order_id b.order_locations with
  | none => (false, b)
  | some ps =>
    let r := b.removeFromPriceLevel ps.1 ps.2 order_id
    (true, { r.2 with order_locations := locErase order_id r.2.order_locations })

/-- `OrderBook::getBestBid`: `bids_` is sorted descending, so `begin()` is the
highest bid. -/
def OrderBook.getBestBid (b : OrderBook) : Option Price :=
  b.bids.head?.map (fun pl => pl.1)

/-- `OrderBook::getBestAsk`: `asks_` is sorted ascending, so `begin()` is the
lowest ask. -/
def OrderBook.getBestAsk (b : OrderBook) : Option Price :=
  b.asks.head?.map (fun pl => pl.1)

/-- `OrderBook::getOrderCount`: total queue sizes across both sides. -/
def OrderBook.getOrderCount (b : OrderBook) : ℕ :=
  (b.bids.map (fun pl => pl.2.length)).sum + (b.asks.map (fun pl => pl.2.length)).sum

/-- `OrderBook::clear`: empty both sides and the index, reset
`next_trade_id_` to 0. -/
def OrderBook.clear (_b : OrderBook) : OrderBook := emptyBook

/-- A public operation on one order book, for trace-level claims. -/
inductive BookOp where
  | add (o : Order)
  | cancel (i : ℕ)
  | clear
deriving DecidableEq, Repr

def OrderBook.applyOp (b : OrderBook) : BookOp → List Trade × OrderBook
  | BookOp.add o => b.addOrder o
  | BookOp.cancel i => ([], (b.cancelOrder i).2)
  | BookOp.clear => ([], b.clear)

/-- Run a sequence of book operations, collecting every emitted trade in
emission order. -/
def OrderBook.runOps (b : OrderBook) : List BookOp → List Trade × OrderBook
  | [] => ([], b)
  | op :: ops =>
    let r := b.applyOp op
    let r2 := r.2.runOps ops
    (r.1 ++ r2.1, r2.2)

/-! ### Engine coordinator (matching_engine.hpp / matching_engine.cpp)

The engine owns one book per symbol, the risk configuration, the aggregate
counters and the running flag.  Mutex, callbacks and the wall clock are not
modelled: locking serialises the operations modelled here as pure state
transitions, callbacks do not affect engine state, and the clock enters
`getStatistics` as an explicit uptime argument. -/

/-- Constants of types.hpp used by the `Order` constructor.
(`MIN_PRICE` is 0.01; written with `mkRat` so that it reduces in the
kernel.) -/
def MIN_PRICE : Price := mkRat 1 100

def MAX_PRICE : Price := 1000000000

def MIN_QUANTITY : ℕ := 1

def MAX_QUANTITY : ℕ := 1000000000

def isValidPrice (price : Price) : Bool :=
  decide (MIN_PRICE ≤ price) && decide (price ≤ MAX_PRICE)

def isValidQuantity (quantity : ℕ) : Bool :=
  decide (MIN_QUANTITY ≤ quantity) && decide (quantity ≤ MAX_QUANTITY)

/-- Validation performed by the `Order` constructor (order.cpp): it throws on
id 0, empty symbol, out-of-range quantity, a MARKET price other than 0, or an
out-of-range LIMIT price.  `true` means the constructor succeeds. -/
def orderCtorValid (id : ℕ) (symbol : Symbol) (type : OrderType)
    (price : Price) (quantity : ℕ) : Bool :=
  if id = 0 then false
  else if symbol.isEmpty then false
  else if !(isValidQuantity quantity) then false
  else match type with
    | OrderType.MARKET => price = 0
    | OrderType.LIMIT => isValidPrice price

/-- `EngineConfig` (matching_engine.hpp) with its default member values.
`order_timeout` is advisory metadata never read by the engine and is
omitted. -/
structure EngineConfig where
  max_order_price : Price := 1000000
  max_order_quantity : ℕ := 1000000
  max_orders_per_symbol : ℕ := 10000
  enable_threading : Bool := true
  max_symbols : ℕ := 1000
  strict_validation : Bool := true
  enable_logging : Bool := true
deriving DecidableEq, Repr

/-- The mutable state of `MatchingEngine`: the symbol table, configuration,
aggregate counters, and the running flag. -/
structure EngineState where
  order_books : List (Symbol × OrderBook)
  config : EngineConfig
  total_orders_processed : ℕ
  total_trades_executed : ℕ
  is_running : Bool
deriving DecidableEq, Repr

/-- Lookup in the `order_books_` hash map. -/
def booksFind (books : List (Symbol × OrderBook)) (symbol : Symbol) : Option OrderBook :=
  (books.find? (fun e => decide (e.1 = symbol))).map (fun e => e.2)

/-- In-place mutation of the book stored under a symbol. -/
def booksUpdate (books : List (Symbol × OrderBook)) (symbol : Symbol)
    (b : OrderBook) : List (Symbol × OrderBook) :=
  books.map (fun e => if e.1 = symbol then (e.1, b) else e)

/-- `MatchingEngine::validateSymbol`: non-empty, at most 8 characters, all
alphanumeric. -/
def validateSymbol (symbol : Symbol) : Bool :=
  if symbol.isEmpty || symbol.length > 8 then false
  else symbol.toList.all (fun c => c.isAlphanum)

/-- `MatchingEngine::validateOrder`: symbol shape plus the price and quantity
caps of the configuration. -/
def EngineState.validateOrder (s : EngineState) (order : Order) : Bool :=
  if !(validateSymbol order.symbol) then false
  else if order.price > s.config.max_order_price then false
  else if order.quantity > s.config.max_order_quantity then false
  else true

/-- `MatchingEngine::checkRiskLimits` (matching_engine.cpp lines 247-271).
Note: this helper is declared and defined in the source but is never called
by `submitOrder` or anything else. -/
def EngineState.checkRiskLimits (s : EngineState) (order : Order) : Bool :=
  if order.price > s.config.max_order_price then false
  else if order.quantity > s.config.max_order_quantity then false
  else if (match booksFind s.order_books order.symbol with
           | some b => decide (b.getOrderCount ≥ s.config.max_orders_per_symbol)
           | none => false) then false
  else if s.order_books.length > s.config.max_symbols then false
  else true

/-- The exceptions `MatchingEngine::submitOrder` can throw. -/
inductive SubmitError where
  /-- `std::runtime_error("Engine is not running")` -/
  | engineNotRunning
  /-- `std::invalid_argument("Order validation failed")` -/
  | orderValidationFailed
  /-- `std::runtime_error("Symbol not found: ...")` -/
  | symbolNotFound
deriving DecidableEq, Repr

/-- `MatchingEngine::submitOrder`: running check, `validateOrder`, book
lookup, `addOrder`, counter updates.  (No call to `checkRiskLimits` appears
anywhere on this path in the source.) -/
def EngineState.submitOrder (s : EngineState) (order : Order) :
    Except SubmitError (List Trade × EngineState) :=
  if !(s.is_running) then Except.error SubmitError.engineNotRunning
  else if !(s.validateOrder order) then Except.error SubmitError.orderValidationFailed
  else match booksFind s.order_books order.symbol with
    | none => Except.error SubmitError.symbolNotFound
    | some book =>
      Except.ok ((book.addOrder order).1,
        { s with order_books := booksUpdate s.order_books order.symbol (book.addOrder order).2
                 total_orders_processed := s.total_orders_processed + 1
                 total_trades_executed := s.total_trades_executed + (book.addOrder order).1.length })

/-- `MatchingEngine::cancelOrder`: book lookup by symbol, delegate to the
book.  The running flag is not consulted. -/
def EngineState.cancelOrder (s : EngineState) (order_id : ℕ)
    (symbol : Symbol) : Bool × EngineState :=
  match booksFind s.order_books symbol with
  | none => (false, s)
  | some book =>
    ((book.cancelOrder order_id).1,
      { s with order_books := booksUpdate s.order_books symbol (book.cancelOrder order_id).2 })

/-- `MatchingEngine::modifyOrder`: cancel, then rebuild the order as
BUY/LIMIT with the new price and quantity and re-add it.  The `Order`
constructor throws when the rebuilt order is invalid; that exception is
modelled as `none`.  The running flag is not consulted, and the aggregate
counters are not touched on any path. -/
def EngineState.modifyOrder (s : EngineState) (order_id : ℕ)
    (symbol : Symbol) (new_price : Price) (new_quantity : ℕ) :
    Option (Bool × EngineState) :=
  match booksFind s.order_books symbol with
  | none => some (false, s)
  | some book =>
    if !((book.cancelOrder order_id).1) then some (false, s)
    else if !(orderCtorValid order_id symbol OrderType.LIMIT new_price new_quantity) then
      none
    else
      some (true,
        { s with order_books := booksUpdate s.order_books symbol ((book.cancelOrder order_id).2.addOrder (Order.mk order_id symbol OrderSide.BUY OrderType.LIMIT new_price new_quantity new_quantity)).2 })

/-- `EngineStatistics` snapshot (the latency field, a pure clock reading, is
omitted).  The rates are `uint64_t` integer divisions in the source (the
unsigned quotient is then converted to `double`). -/
structure EngineStatistics where
  total_orders_processed : ℕ
  total_trades_executed : ℕ
  total_symbols_active : ℕ
  uptime : ℕ
  orders_per_second : ℕ
  trades_per_second : ℕ
deriving DecidableEq, Repr

/-- `MatchingEngine::getStatistics`, with the elapsed time passed in as
`uptime_ms` (milliseconds since `start_time_`).  The source computes
`total_orders_processed_ / stats.uptime.count()` and the analogous trade rate
with no guard whatsoever: when the uptime is 0 milliseconds this is integer
division by zero, which is undefined behavior in C++ and is modelled here as
`none`.  No branch of the source returns zero rates for zero uptime. -/
def EngineState.getStatistics (s : EngineState) (uptime_ms : ℕ) :
    Option EngineStatistics :=
  if uptime_ms = 0 then none
  else some
    { total_orders_processed := s.total_orders_processed
      total_trades_executed := s.total_trades_executed
      total_symbols_active := s.order_books.length
      uptime := uptime_ms
      orders_per_second := s.total_orders_processed / uptime_ms
      trades_per_second := s.total_trades_executed / uptime_ms }

/-! ### Concrete states used by claim theorems and witnesses -/

/-- Concrete engine state for C1: limit `max_orders_per_symbol = 1`, one
symbol `A` whose book already holds one resting order (built by an actual
`submitOrder` call). -/
def engineC1start : EngineState :=
  ⟨[("A", emptyBook)], { max_orders_per_symbol := 1 }, 0, 0, true⟩

def orderC1a : Order := ⟨1, "A", OrderSide.BUY, OrderType.LIMIT, 10, 5, 5⟩

def orderC1b : Order := ⟨2, "A", OrderSide.BUY, OrderType.LIMIT, 9, 5, 5⟩

/-- The state after the first (accepted) submission. -/
def engineC1 : EngineState :=
  match engineC1start.submitOrder orderC1a with
  | Except.ok r => r.2
  | Except.error _ => engineC1start

/-- Order count of the book under a symbol, observed through the engine. -/
def engineOrderCount (s : EngineState) (sym : Symbol) : Option ℕ :=
  (booksFind s.order_books sym).map OrderBook.getOrderCount

/-- Concrete engine state for C8: 5 orders processed, 3 trades executed, one
active symbol. -/
def engineC8 : EngineState := ⟨[("A", emptyBook)], {}, 5, 3, true⟩

/-- Concrete stopped engine for the C9 witness: symbol `B`, one resting bid
(id 3 at price 90), flag off. -/
def bookC9 : OrderBook :=
  (emptyBook.addOrder ⟨3, "B", OrderSide.BUY, OrderType.LIMIT, 90, 5, 5⟩).2

def engineC9 : EngineState := ⟨[("B", bookC9)], {}, 0, 0, false⟩

/-- Engine state for the C10 witness: symbol `B` with a resting ask
(id 7 at 100) and a resting bid (id 3 at 90); modifying order 3 to price 100
crosses and generates a trade. -/
def bookC10 : OrderBook :=
  ((emptyBook.addOrder ⟨7, "B", OrderSide.SELL, OrderType.LIMIT, 100, 5, 5⟩).2.addOrder
    ⟨3, "B", OrderSide.BUY, OrderType.LIMIT, 90, 5, 5⟩).2

def engineC10 : EngineState := ⟨[("B", bookC10)], {}, 2, 0, true⟩

def modResC10 : Bool × EngineState :=
  (engineC10.modifyOrder 3 "B" 100 5).getD (false, engineC10)

def subResC10 : Except SubmitError (List Trade × EngineState) :=
  engineC10.submitOrder ⟨8, "B", OrderSide.BUY, OrderType.LIMIT, 100, 5, 5⟩

def subTrC10 : List Trade := (subResC10.toOption.map (fun r => r.1)).getD []

def subStC10 : EngineState := (subResC10.toOption.map (fun r => r.2)).getD engineC10

/-- Book for the C5 witness: one resting ask (id 21 at 100, quantity 5) on
symbol `C`. -/
def bookC5 : OrderBook :=
  (emptyBook.addOrder ⟨21, "C", OrderSide.SELL, OrderType.LIMIT, 100, 5, 5⟩).2

/-- Market buy for 10 against `bookC5` (sweeps the ask, remainder
discarded). -/
def orderC5buy : Order := ⟨22, "C", OrderSide.BUY, OrderType.MARKET, 0, 10, 10⟩

/-- Market sell against `bookC5`, whose bid side is empty. -/
def orderC5sell : Order := ⟨23, "C", OrderSide.SELL, OrderType.MARKET, 0, 4, 4⟩

/-- Book for the C2 witness: one resting ask (id 10 at 100) on symbol `X`. -/
def bookC2 : OrderBook :=
  (emptyBook.addOrder ⟨10, "X", OrderSide.SELL, OrderType.LIMIT, 100, 50, 50⟩).2

/-- Aggressive limit buy at 101 for the C2 witness. -/
def orderC2 : Order := ⟨11, "X", OrderSide.BUY, OrderType.LIMIT, 101, 50, 50⟩

/-- The trade the C2 witness submission produces (at the passive price 100,
not the aggressive 101). -/
def tradeC2 : Trade := ⟨1, 11, 10, 100, 50⟩

/-- Operation sequence for the C7 counterexample: a crossing pair, `clear`,
then another crossing pair — the second trade is emitted with `trade_id` 1
again because `clear` resets `next_trade_id_` to 0. -/
def opsC7bad : List BookOp :=
  [BookOp.add ⟨1, "D", OrderSide.SELL, OrderType.LIMIT, 100, 1, 1⟩,
   BookOp.add ⟨2, "D", OrderSide.BUY, OrderType.LIMIT, 100, 1, 1⟩,
   BookOp.clear,
   BookOp.add ⟨3, "D", OrderSide.SELL, OrderType.LIMIT, 100, 1, 1⟩,
   BookOp.add ⟨4, "D", OrderSide.BUY, OrderType.LIMIT, 100, 1, 1⟩]

/-- Operation sequence for the C7 witness: two resting asks swept by one buy,
emitting trades with ids 1 then 2. -/
def opsC7good : List BookOp :=
  [BookOp.add ⟨1, "D", OrderSide.SELL, OrderType.LIMIT, 100, 1, 1⟩,
   BookOp.add ⟨2, "D", OrderSide.SELL, OrderType.LIMIT, 100, 1, 1⟩,
   BookOp.add ⟨3, "D", OrderSide.BUY, OrderType.LIMIT, 100, 2, 2⟩]

/-- Book for the C4 witness: one ask (id 7 at 100, qty 5) and one bid
(id 3 at 90, qty 4) on symbol `E`. -/
def bookC4 : OrderBook :=
  ((emptyBook.addOrder ⟨7, "E", OrderSide.SELL, OrderType.LIMIT, 100, 5, 5⟩).2.addOrder
    ⟨3, "E", OrderSide.BUY, OrderType.LIMIT, 90, 4, 4⟩).2

def orderC4buy : Order := ⟨8, "E", OrderSide.BUY, OrderType.LIMIT, 101, 2, 2⟩

def orderC4sell : Order := ⟨9, "E", OrderSide.SELL, OrderType.LIMIT, 90, 6, 6⟩

def restingC4ask : Order := ⟨7, "E", OrderSide.SELL, OrderType.LIMIT, 100, 5, 5⟩

def restingC4bid : Order := ⟨3, "E", OrderSide.BUY, OrderType.LIMIT, 90, 4, 4⟩

/-- First resting ask of the C6 witness book (earlier arrival at level 100). -/
def restingC6a : Order := ⟨1, "F", OrderSide.SELL, OrderType.LIMIT, 100, 5, 5⟩

/-- Second resting ask of the C6 witness book (later arrival, same level). -/
def restingC6b : Order := ⟨2, "F", OrderSide.SELL, OrderType.LIMIT, 100, 5, 5⟩

/-- Book for the C6 witness: two asks queued FIFO at 100 (ids 1 then 2) and
one bid at 90, on symbol `F`. -/
def bookC6 : OrderBook :=
  (((emptyBook.addOrder restingC6a).2.addOrder restingC6b).2.addOrder
    ⟨3, "F", OrderSide.BUY, OrderType.LIMIT, 90, 4, 4⟩).2

/-- Crossing limit buy for the C6 witness: consumes the head of the 100
level (id 1), not the later arrival (id 2). -/
def orderC6buy : Order := ⟨4, "F", OrderSide.BUY, OrderType.LIMIT, 100, 3, 3⟩

/-- Non-crossing limit buy for the C6 witness: rests at the tail of the
existing 90 bid queue. -/
def orderC6rest : Order := ⟨5, "F", OrderSide.BUY, OrderType.LIMIT, 90, 3, 3⟩

/-! ### Observation helpers used in claim statements -/

/-- All resting orders on one side, best level first, queue order within a
level. -/
def sideOrders (ls : List (Price × Level)) : List Order :=
  (ls.map Prod.snd).flatten

/-- The resting orders of the side an incoming order with the given side
matches against (BUY matches asks, SELL matches bids). -/
def OrderBook.oppositeOrders (b : OrderBook) (aggressor : OrderSide) : List Order :=
  match aggressor with
  | OrderSide.BUY => sideOrders b.asks
  | OrderSide.SELL => sideOrders b.bids

/-- The id a trade records for the passive (resting) party, given the side of
the aggressive order: an aggressive BUY trades against resting sells. -/
def Trade.passiveOrderId (t : Trade) (aggressor : OrderSide) : ℕ :=
  match aggressor with
  | OrderSide.BUY => t.sell_order_id
  | OrderSide.SELL => t.buy_order_id

/-- The id a trade records for the aggressive party. -/
def Trade.aggressorOrderId (t : Trade) (aggressor : OrderSide) : ℕ :=
  match aggressor with
  | OrderSide.BUY => t.buy_order_id
  | OrderSide.SELL => t.sell_order_id

/-- Total quantity of a trade list. -/
def tradesQty (ts : List Trade) : ℕ := (ts.map Trade.quantity).sum

/-- Total quantity of the trades whose `sell_order_id` is `i`. -/
def sellFills (i : ℕ) (ts : List Trade) : ℕ :=
  ((ts.filter (fun t => decide (t.sell_order_id = i))).map Trade.quantity).sum

/-- Total quantity of the trades whose `buy_order_id` is `i`. -/
def buyFills (i : ℕ) (ts : List Trade) : ℕ :=
  ((ts.filter (fun t => decide (t.buy_order_id = i))).map Trade.quantity).sum

/-- Total remaining quantity of the orders with id `i` in one queue. -/
def idLvl (i : ℕ) (lvl : Level) : ℕ :=
  ((lvl.filter (fun o => decide (o.id = i))).map Order.remaining_quantity).sum

/-- Total remaining quantity of the orders with id `i` on one side. -/
def idRemaining (i : ℕ) (ls : List (Price × Level)) : ℕ :=
  (ls.map (fun pl => idLvl i pl.2)).sum

/-- The price keys of one side. -/
def keysOf (ls : List (Price × Level)) : List Price := ls.map Prod.fst

/-- The queue stored under a price key (empty if the key is absent). -/
def levelOf (p : Price) (ls : List (Price × Level)) : Level :=
  ((ls.find? (fun pl => decide (pl.1 = p))).map Prod.snd).getD []

/-- The book is not crossed: every bid price key is strictly below every ask
price key (vacuously true when either side is empty). -/
def noCross (b : OrderBook) : Prop :=
  ∀ pb ∈ keysOf b.bids, ∀ pa ∈ keysOf b.asks, pb < pa

instance noCrossDecidable (b : OrderBook) : Decidable (noCross b) :=
  inferInstanceAs (Decidable (∀ pb ∈ keysOf b.bids, ∀ pa ∈ keysOf b.asks, pb < pa))

/-- The order-book states reachable from a fresh book through the public
`addOrder` / `cancelOrder` interface when every added order bears the one
symbol `sym` the book serves — the discipline `MatchingEngine` enforces by
routing each order to the book registered under the order's own symbol. -/
inductive Reaches (sym : Symbol) : OrderBook → Prop where
  | empty : Reaches sym emptyBook
  | add (b : OrderBook) (o : Order) : Reaches sym b → o.symbol = sym →
      Reaches sym (b.addOrder o).2
  | cancel (b : OrderBook) (i : ℕ) : Reaches sym b →
      Reaches sym (b.cancelOrder i).2

/-- The well-formedness `addOrder` and `cancelOrder` maintain on a book
serving symbol `sym`: bid keys strictly descending and ask keys strictly
ascending (the two `std::map` orders), every resting order a LIMIT order
carrying its level's price, its side's direction and the book's symbol, and
the book not crossed. -/
structure BookWF (sym : Symbol) (b : OrderBook) : Prop where
  sortedBids : List.Pairwise (· > ·) (keysOf b.bids)
  sortedAsks : List.Pairwise (· < ·) (keysOf b.asks)
  bidOrders : ∀ pl ∈ b.bids, ∀ x ∈ pl.2, x.side = OrderSide.BUY ∧
    x.type = OrderType.LIMIT ∧ x.symbol = sym ∧ x.price = pl.1
  askOrders : ∀ pl ∈ b.asks, ∀ x ∈ pl.2, x.side = OrderSide.SELL ∧
    x.type = OrderType.LIMIT ∧ x.symbol = sym ∧ x.price = pl.1
  cross : noCross b

/-- Counterexample book for C3: `OrderBook::addOrder` never compares the
order's symbol with the book's, and `Order::canMatchWith` fails on a symbol
mismatch, so a buy on symbol `Y` at 150 rests above the ask on symbol `X`
at 100 already in the same book without matching it. -/
def bookC3bad : OrderBook :=
  ((emptyBook.addOrder ⟨1, "X", OrderSide.SELL, OrderType.LIMIT, 100, 1, 1⟩).2.addOrder
    ⟨2, "Y", OrderSide.BUY, OrderType.LIMIT, 150, 1, 1⟩).2

/-- Resting sell of the C3 witness (symbol `X` at 100). -/
def orderC3a : Order := ⟨1, "X", OrderSide.SELL, OrderType.LIMIT, 100, 1, 1⟩

/-- Crossing buy of the C3 witness (symbol `X` at 150, quantity 2): one unit
lifts the ask, the remainder rests as the only bid. -/
def orderC3b : Order := ⟨2, "X", OrderSide.BUY, OrderType.LIMIT, 150, 2, 2⟩

/-- Witness book for C3: the two same-symbol orders above added in order. -/
def bookC3w : OrderBook := ((emptyBook.addOrder orderC3a).2.addOrder orderC3b).2

/-! ### Supporting lemmas: location index and symbol table -/

theorem locFind_cons (k : ℕ) (v : Price × OrderSide) (rest : LocMap)
    (i : ℕ) :
    locFind i ((k, v) :: rest) = if k = i then some v else locFind i rest := by
  by_cases h : k = i
  · simp [locFind, List.find?_cons_of_pos, h]
  · simp [locFind, List.find?_cons_of_neg, h]

theorem locFind_locErase_self (i : ℕ) (l : LocMap) :
    locFind i (locErase i l) = none := by
  induction l with
  | nil => rfl
  | cons e rest ih =>
    obtain ⟨k, v⟩ := e
    by_cases h : k = i
    · simpa [locErase, h] using ih
    · simpa [locErase, h, locFind_cons, List.filter_cons] using ih

theorem booksFind_cons (k : Symbol) (bk : OrderBook)
    (rest : List (Symbol × OrderBook)) (sym : Symbol) :
    booksFind ((k, bk) :: rest) sym = if k = sym then some bk else booksFind rest sym := by
  by_cases h : k = sym
  · simp [booksFind, List.find?_cons_of_pos, h]
  · simp [booksFind, List.find?_cons_of_neg, h]

theorem booksFind_booksUpdate_self (books : List (Symbol × OrderBook))
    (sym : Symbol) (b b2 : OrderBook) (h : booksFind books sym = some b) :
    booksFind (booksUpdate books sym b2) sym = some b2 := by
  induction books with
  | nil => simp [booksFind] at h
  | cons e rest ih =>
    obtain ⟨k, bk⟩ := e
    by_cases he : k = sym
    · simp [booksUpdate, booksFind_cons, he]
    · rw [booksFind_cons, if_neg he] at h
      simpa [booksUpdate, booksFind_cons, he] using ih h

theorem cancelOrder_found (b : OrderBook) (oid : ℕ)
    (ps : Price × OrderSide) (h : locFind oid b.order_locations = some ps) :
    (b.cancelOrder oid).1 = true ∧
      locFind oid (b.cancelOrder oid).2.order_locations = none := by
  unfold OrderBook.cancelOrder
  rw [h]
  exact ⟨rfl, locFind_locErase_self _ _⟩

/-! ### Claims C1, C8, C9, C10 (engine coordinator) -/

/-- C1: the claim says a submission that would push a book's order count over
`max_orders_per_symbol` fails with `RiskLimitExceeded` and leaves the book
unchanged.  The code defines `checkRiskLimits` — which would indeed reject —
but `submitOrder` never calls it (nor does anything else), so the submission
is accepted and the book grows past the limit: with
`max_orders_per_symbol = 1` and one order already resting, `checkRiskLimits`
evaluates to `false`, yet `submitOrder` returns success and the book's order
count reaches 2. -/
theorem C1_max_orders_per_symbol_not_enforced :
    engineC1.config.max_orders_per_symbol = 1 ∧
    engineOrderCount engineC1 "A" = some 1 ∧
    engineC1.checkRiskLimits orderC1b = false ∧
    (engineC1.submitOrder orderC1b).isOk = true ∧
    (match engineC1.submitOrder orderC1b with
     | Except.ok r => engineOrderCount r.2 "A"
     | Except.error _ => none) = some 2 := by
  refine ⟨rfl, by decide, by decide, by decide, by decide⟩

/-- C8: the claim says the per-second rates are computed from uptime with a
guard that returns zero rates at zero uptime, never dividing by zero.  The
source has no such guard: `getStatistics` divides both counters by
`uptime.count()` unconditionally, so at 0 ms of uptime (calling `statistics()`
within the same millisecond as `start()`) it performs integer division by
zero — undefined behavior, modelled as `none`.  At positive uptime the rates
are the plain integer quotients, not guarded values. -/
theorem C8_statistics_division_unguarded :
    engineC8.getStatistics 0 = none ∧
    engineC8.getStatistics 1 = some ⟨5, 3, 1, 1, 5, 3⟩ ∧
    engineC8.getStatistics 1000 = some ⟨5, 3, 1, 1000, 0, 0⟩ := by
  refine ⟨rfl, by decide, by decide⟩

/-- C9: neither `cancelOrder` nor `modifyOrder` consults `is_running_`.
First two conjuncts: both functions are invariant under changing the flag
(apart from carrying it through to the output state).  Third: on a stopped
engine a resting order is still cancelled, with the id removed from the
book's location index.  Fourth: `submitOrder` on the same stopped state
fails with the `Engine is not running` error. -/
theorem C9_cancel_modify_ignore_running_flag :
    (∀ (s : EngineState) (r : Bool) (oid : ℕ) (sym : Symbol),
      EngineState.cancelOrder { s with is_running := r } oid sym =
        ((s.cancelOrder oid sym).1,
          { (s.cancelOrder oid sym).2 with is_running := r })) ∧
    (∀ (s : EngineState) (r : Bool) (oid : ℕ) (sym : Symbol)
        (p : Price) (q : ℕ),
      EngineState.modifyOrder { s with is_running := r } oid sym p q =
        (s.modifyOrder oid sym p q).map
          (fun x => (x.1, { x.2 with is_running := r }))) ∧
    (∀ (s : EngineState) (oid : ℕ) (sym : Symbol) (b : OrderBook)
        (ps : Price × OrderSide),
      s.is_running = false →
      booksFind s.order_books sym = some b →
      locFind oid b.order_locations = some ps →
      (s.cancelOrder oid sym).1 = true ∧
        ∃ b2, booksFind (s.cancelOrder oid sym).2.order_books sym = some b2 ∧
          locFind oid b2.order_locations = none) ∧
    (∀ (s : EngineState) (o : Order), s.is_running = false →
      s.submitOrder o = Except.error SubmitError.engineNotRunning) := by
  refine ⟨?_, ?_, ?_, ?_⟩
  · intro s r oid sym
    unfold EngineState.cancelOrder
    cases h : booksFind s.order_books sym <;> simp [h]
  · intro s r oid sym p q
    unfold EngineState.modifyOrder
    cases h : booksFind s.order_books sym with
    | none => simp [h]
    | some b =>
      simp only [h]
      by_cases hc : (b.cancelOrder oid).1 <;>
        by_cases hv : orderCtorValid oid sym OrderType.LIMIT p q <;>
          simp [hc, hv]
  · intro s oid sym b ps _hstop hfind hloc
    have hc := cancelOrder_found b oid ps hloc
    unfold EngineState.cancelOrder
    rw [hfind]
    refine ⟨hc.1, (b.cancelOrder oid).2, ?_, hc.2⟩
    exact booksFind_booksUpdate_self _ _ _ _ hfind
  · intro s o hstop
    unfold EngineState.submitOrder
    rw [hstop]
    rfl

/-- Witness for C9 at a concrete stopped engine. -/
theorem C9_witness :
    (EngineState.cancelOrder { engineC9 with is_running := true } 3 "B" =
      ((engineC9.cancelOrder 3 "B").1,
        { (engineC9.cancelOrder 3 "B").2 with is_running := true })) ∧
    (EngineState.modifyOrder { engineC9 with is_running := true } 3 "B" 95 5 =
      (engineC9.modifyOrder 3 "B" 95 5).map
        (fun x => (x.1, { x.2 with is_running := true }))) ∧
    ((engineC9.cancelOrder 3 "B").1 = true ∧
      ∃ b2, booksFind (engineC9.cancelOrder 3 "B").2.order_books "B" = some b2 ∧
        locFind 3 b2.order_locations = none) ∧
    engineC9.submitOrder ⟨4, "B", OrderSide.BUY, OrderType.LIMIT, 90, 5, 5⟩ =
      Except.error SubmitError.engineNotRunning := by
  refine ⟨C9_cancel_modify_ignore_running_flag.1 engineC9 true 3 "B",
    C9_cancel_modify_ignore_running_flag.2.1 engineC9 true 3 "B" 95 5,
    C9_cancel_modify_ignore_running_flag.2.2.1 engineC9 3 "B" bookC9 (90, OrderSide.BUY)
      rfl (by rfl) (by rfl),
    C9_cancel_modify_ignore_running_flag.2.2.2 engineC9 _ rfl⟩

/-- C10: `modifyOrder` never touches the aggregate counters on any path
(even though its internal re-submission can generate trades), while
`submitOrder` on success increments `total_orders_processed` by one and
`total_trades_executed` by the number of returned trades — so trades produced
via modify are invisible to `statistics()`. -/
theorem C10_modify_does_not_update_counters :
    (∀ (s : EngineState) (oid : ℕ) (sym : Symbol) (p : Price)
        (q : ℕ) (res : Bool × EngineState),
      s.modifyOrder oid sym p q = some res →
      res.2.total_orders_processed = s.total_orders_processed ∧
        res.2.total_trades_executed = s.total_trades_executed) ∧
    (∀ (s : EngineState) (o : Order) (tr : List Trade) (s2 : EngineState),
      s.submitOrder o = Except.ok (tr, s2) →
      s2.total_orders_processed = s.total_orders_processed + 1 ∧
        s2.total_trades_executed = s.total_trades_executed + tr.length) := by
  constructor
  · intro s oid sym p q res h
    unfold EngineState.modifyOrder at h
    cases hf : booksFind s.order_books sym with
    | none =>
      simp only [hf] at h
      injection h with h2
      rw [← h2]
      exact ⟨rfl, rfl⟩
    | some b =>
      simp only [hf] at h
      by_cases hc : (b.cancelOrder oid).1
      case pos =>
        rw [if_neg (by simp [hc])] at h
        by_cases hv : orderCtorValid oid sym OrderType.LIMIT p q
        · rw [if_neg (by simp [hv])] at h
          injection h with h2
          rw [← h2]
          exact ⟨rfl, rfl⟩
        · rw [if_pos (by simp [hv])] at h
          exact Option.noConfusion h
      case neg =>
        rw [if_pos (by simp [hc])] at h
        injection h with h2
        rw [← h2]
        exact ⟨rfl, rfl⟩
  · intro s o tr s2 h
    unfold EngineState.submitOrder at h
    by_cases hr : s.is_running
    case neg => rw [if_pos (by simp [hr])] at h; exact Except.noConfusion h
    case pos =>
      rw [if_neg (by simp [hr])] at h
      by_cases hv : s.validateOrder o
      case neg => rw [if_pos (by simp [hv])] at h; exact Except.noConfusion h
      case pos =>
        rw [if_neg (by simp [hv])] at h
        cases hf : booksFind s.order_books o.symbol with
        | none =>
          simp only [hf] at h
          exact Except.noConfusion h
        | some b =>
          simp only [hf] at h
          injection h with h2
          rw [Prod.mk.injEq] at h2
          rw [← h2.1, ← h2.2]
          exact ⟨rfl, rfl⟩

/-- Witness for C10: the concrete modify succeeds, produces a trade (the ask
side empties), yet leaves both counters at their old values; the concrete
submit produces one trade and bumps the counters. -/
theorem C10_witness :
    engineC10.modifyOrder 3 "B" 100 5 = some modResC10 ∧
    modResC10.1 = true ∧
    (booksFind modResC10.2.order_books "B").map OrderBook.asks = some [] ∧
    modResC10.2.total_orders_processed = engineC10.total_orders_processed ∧
    modResC10.2.total_trades_executed = engineC10.total_trades_executed ∧
    subResC10 = Except.ok (subTrC10, subStC10) ∧
    subTrC10.length = 1 ∧
    subStC10.total_orders_processed = engineC10.total_orders_processed + 1 ∧
    subStC10.total_trades_executed = engineC10.total_trades_executed + subTrC10.length := by
  have hmod := C10_modify_does_not_update_counters.1 engineC10 3 "B" 100 5 modResC10
    (by rfl)
  have hsub := C10_modify_does_not_update_counters.2 engineC10
    ⟨8, "B", OrderSide.BUY, OrderType.LIMIT, 100, 5, 5⟩ subTrC10 subStC10 (by rfl)
  exact ⟨by rfl, by rfl, by rfl, hmod.1, hmod.2, by rfl, by rfl,
    hsub.1, hsub.2⟩

/-! ### Step equations for the four matching loops -/

theorem matchLimitBuyLoop_zero_rem (fuel : ℕ) (o : Order)
    (asks : List (Price × Level)) (locs : LocMap) (tid : ℕ)
    (h : o.remaining_quantity = 0) :
    matchLimitBuyLoop fuel o asks locs tid = ⟨[], o, asks, locs, tid⟩ := by
  cases fuel <;> simp [matchLimitBuyLoop, h]

theorem matchLimitSellLoop_zero_rem (fuel : ℕ) (o : Order)
    (bids : List (Price × Level)) (locs : LocMap) (tid : ℕ)
    (h : o.remaining_quantity = 0) :
    matchLimitSellLoop fuel o bids locs tid = ⟨[], o, bids, locs, tid⟩ := by
  cases fuel <;> simp [matchLimitSellLoop, h]

theorem matchLimitBuyLoop_nil (fuel : ℕ) (o : Order) (locs : LocMap)
    (tid : ℕ) :
    matchLimitBuyLoop fuel o [] locs tid = ⟨[], o, [], locs, tid⟩ := by
  cases fuel with
  | zero => rfl
  | succ n => by_cases h : o.remaining_quantity = 0 <;> simp [matchLimitBuyLoop, h]

theorem matchLimitSellLoop_nil (fuel : ℕ) (o : Order) (locs : LocMap)
    (tid : ℕ) :
    matchLimitSellLoop fuel o [] locs tid = ⟨[], o, [], locs, tid⟩ := by
  cases fuel with
  | zero => rfl
  | succ n => by_cases h : o.remaining_quantity = 0 <;> simp [matchLimitSellLoop, h]

theorem matchLimitBuyLoop_empty_level (n : ℕ) (o : Order) (p : Price)
    (rest : List (Price × Level)) (locs : LocMap) (tid : ℕ)
    (h0 : ¬ o.remaining_quantity = 0) :
    matchLimitBuyLoop (n + 1) o ((p, []) :: rest) locs tid =
      matchLimitBuyLoop n o rest locs tid := by
  simp [matchLimitBuyLoop, h0]

theorem matchLimitSellLoop_empty_level (n : ℕ) (o : Order) (p : Price)
    (rest : List (Price × Level)) (locs : LocMap) (tid : ℕ)
    (h0 : ¬ o.remaining_quantity = 0) :
    matchLimitSellLoop (n + 1) o ((p, []) :: rest) locs tid =
      matchLimitSellLoop n o rest locs tid := by
  simp [matchLimitSellLoop, h0]

theorem executeMarketBuyLoop_empty_level (n : ℕ) (o : Order) (p : Price)
    (rest : List (Price × Level)) (locs : LocMap) (tid : ℕ)
    (h0 : ¬ o.remaining_quantity = 0) :
    executeMarketBuyLoop (n + 1) o ((p, []) :: rest) locs tid =
      executeMarketBuyLoop n o rest locs tid := by
  simp [executeMarketBuyLoop, h0]

theorem executeMarketSellLoop_empty_level (n : ℕ) (o : Order) (p : Price)
    (rest : List (Price × Level)) (locs : LocMap) (tid : ℕ)
    (h0 : ¬ o.remaining_quantity = 0) :
    executeMarketSellLoop (n + 1) o ((p, []) :: rest) locs tid =
      executeMarketSellLoop n o rest locs tid := by
  simp [executeMarketSellLoop, h0]

theorem matchLimitBuyLoop_break (n : ℕ) (o best : Order) (p : Price)
    (lvlRest : Level) (rest : List (Price × Level)) (locs : LocMap)
    (tid : ℕ) (h0 : ¬ o.remaining_quantity = 0)
    (hcm : o.canMatchWith best = false) :
    matchLimitBuyLoop (n + 1) o ((p, best :: lvlRest) :: rest) locs tid =
      ⟨[], o, (p, best :: lvlRest) :: rest, locs, tid⟩ := by
  simp [matchLimitBuyLoop, h0, hcm]

theorem matchLimitSellLoop_break (n : ℕ) (o best : Order) (p : Price)
    (lvlRest : Level) (rest : List (Price × Level)) (locs : LocMap)
    (tid : ℕ) (h0 : ¬ o.remaining_quantity = 0)
    (hcm : o.canMatchWith best = false) :
    matchLimitSellLoop (n + 1) o ((p, best :: lvlRest) :: rest) locs tid =
      ⟨[], o, (p, best :: lvlRest) :: rest, locs, tid⟩ := by
  simp [matchLimitSellLoop, h0, hcm]

theorem matchLimitBuyLoop_step_full (n : ℕ) (o best : Order) (p : Price)
    (lvlRest : Level) (rest : List (Price × Level)) (locs : LocMap)
    (tid : ℕ) (h0 : ¬ o.remaining_quantity = 0)
    (hcm : o.canMatchWith best = true)
    (hfull : (best.fill (min o.remaining_quantity best.remaining_quantity)).isFullyFilled = true) :
    matchLimitBuyLoop (n + 1) o ((p, best :: lvlRest) :: rest) locs tid =
      { matchLimitBuyLoop n (o.fill (min o.remaining_quantity best.remaining_quantity))
          (if lvlRest.isEmpty then rest else (p, lvlRest) :: rest)
          (locErase best.id locs) (tid + 1) with
        trades := createTrade o best (determineExecutionPrice o best)
            (min o.remaining_quantity best.remaining_quantity) (tid + 1) ::
          (matchLimitBuyLoop n (o.fill (min o.remaining_quantity best.remaining_quantity))
            (if lvlRest.isEmpty then rest else (p, lvlRest) :: rest)
            (locErase best.id locs) (tid + 1)).trades } := by
  simp [matchLimitBuyLoop, h0, hcm, hfull]

theorem matchLimitBuyLoop_step_part (n : ℕ) (o best : Order) (p : Price)
    (lvlRest : Level) (rest : List (Price × Level)) (locs : LocMap)
    (tid : ℕ) (h0 : ¬ o.remaining_quantity = 0)
    (hcm : o.canMatchWith best = true)
    (hfull : ¬ (best.fill (min o.remaining_quantity best.remaining_quantity)).isFullyFilled = true) :
    matchLimitBuyLoop (n + 1) o ((p, best :: lvlRest) :: rest) locs tid =
      { matchLimitBuyLoop n (o.fill (min o.remaining_quantity best.remaining_quantity))
          ((p, best.fill (min o.remaining_quantity best.remaining_quantity) :: lvlRest) :: rest)
          locs (tid + 1) with
        trades := createTrade o best (determineExecutionPrice o best)
            (min o.remaining_quantity best.remaining_quantity) (tid + 1) ::
          (matchLimitBuyLoop n (o.fill (min o.remaining_quantity best.remaining_quantity))
            ((p, best.fill (min o.remaining_quantity best.remaining_quantity) :: lvlRest) :: rest)
            locs (tid + 1)).trades } := by
  simp [matchLimitBuyLoop, h0, hcm, hfull]

theorem matchLimitSellLoop_step_full (n : ℕ) (o best : Order) (p : Price)
    (lvlRest : Level) (rest : List (Price × Level)) (locs : LocMap)
    (tid : ℕ) (h0 : ¬ o.remaining_quantity = 0)
    (hcm : o.canMatchWith best = true)
    (hfull : (best.fill (min o.remaining_quantity best.remaining_quantity)).isFullyFilled = true) :
    matchLimitSellLoop (n + 1) o ((p, best :: lvlRest) :: rest) locs tid =
      { matchLimitSellLoop n (o.fill (min o.remaining_quantity best.remaining_quantity))
          (if lvlRest.isEmpty then rest else (p, lvlRest) :: rest)
          (locErase best.id locs) (tid + 1) with
        trades := createTrade best o (determineExecutionPrice o best)
            (min o.remaining_quantity best.remaining_quantity) (tid + 1) ::
          (matchLimitSellLoop n (o.fill (min o.remaining_quantity best.remaining_quantity))
            (if lvlRest.isEmpty then rest else (p, lvlRest) :: rest)
            (locErase best.id locs) (tid + 1)).trades } := by
  simp [matchLimitSellLoop, h0, hcm, hfull]

theorem matchLimitSellLoop_step_part (n : ℕ) (o best : Order) (p : Price)
    (lvlRest : Level) (rest : List (Price × Level)) (locs : LocMap)
    (tid : ℕ) (h0 : ¬ o.remaining_quantity = 0)
    (hcm : o.canMatchWith best = true)
    (hfull : ¬ (best.fill (min o.remaining_quantity best.remaining_quantity)).isFullyFilled = true) :
    matchLimitSellLoop (n + 1) o ((p, best :: lvlRest) :: rest) locs tid =
      { matchLimitSellLoop n (o.fill (min o.remaining_quantity best.remaining_quantity))
          ((p, best.fill (min o.remaining_quantity best.remaining_quantity) :: lvlRest) :: rest)
          locs (tid + 1) with
        trades := createTrade best o (determineExecutionPrice o best)
            (min o.remaining_quantity best.remaining_quantity) (tid + 1) ::
          (matchLimitSellLoop n (o.fill (min o.remaining_quantity best.remaining_quantity))
            ((p, best.fill (min o.remaining_quantity best.remaining_quantity) :: lvlRest) :: rest)
            locs (tid + 1)).trades } := by
  simp [matchLimitSellLoop, h0, hcm, hfull]

theorem executeMarketBuyLoop_step_full (n : ℕ) (o best : Order) (p : Price)
    (lvlRest : Level) (rest : List (Price × Level)) (locs : LocMap)
    (tid : ℕ) (h0 : ¬ o.remaining_quantity = 0)
    (hfull : (best.fill (min o.remaining_quantity best.remaining_quantity)).isFullyFilled = true) :
    executeMarketBuyLoop (n + 1) o ((p, best :: lvlRest) :: rest) locs tid =
      { executeMarketBuyLoop n (o.fill (min o.remaining_quantity best.remaining_quantity))
          (if lvlRest.isEmpty then rest else (p, lvlRest) :: rest)
          (locErase best.id locs) (tid + 1) with
        trades := createTrade o best (determineExecutionPrice o best)
            (min o.remaining_quantity best.remaining_quantity) (tid + 1) ::
          (executeMarketBuyLoop n (o.fill (min o.remaining_quantity best.remaining_quantity))
            (if lvlRest.isEmpty then rest else (p, lvlRest) :: rest)
            (locErase best.id locs) (tid + 1)).trades } := by
  simp [executeMarketBuyLoop, h0, hfull]

theorem executeMarketBuyLoop_step_part (n : ℕ) (o best : Order) (p : Price)
    (lvlRest : Level) (rest : List (Price × Level)) (locs : LocMap)
    (tid : ℕ) (h0 : ¬ o.remaining_quantity = 0)
    (hfull : ¬ (best.fill (min o.remaining_quantity best.remaining_quantity)).isFullyFilled = true) :
    executeMarketBuyLoop (n + 1) o ((p, best :: lvlRest) :: rest) locs tid =
      { executeMarketBuyLoop n (o.fill (min o.remaining_quantity best.remaining_quantity))
          ((p, best.fill (min o.remaining_quantity best.remaining_quantity) :: lvlRest) :: rest)
          locs (tid + 1) with
        trades := createTrade o best (determineExecutionPrice o best)
            (min o.remaining_quantity best.remaining_quantity) (tid + 1) ::
          (executeMarketBuyLoop n (o.fill (min o.remaining_quantity best.remaining_quantity))
            ((p, best.fill (min o.remaining_quantity best.remaining_quantity) :: lvlRest) :: rest)
            locs (tid + 1)).trades } := by
  simp [executeMarketBuyLoop, h0, hfull]

theorem executeMarketSellLoop_step_full (n : ℕ) (o best : Order) (p : Price)
    (lvlRest : Level) (rest : List (Price × Level)) (locs : LocMap)
    (tid : ℕ) (h0 : ¬ o.remaining_quantity = 0)
    (hfull : (best.fill (min o.remaining_quantity best.remaining_quantity)).isFullyFilled = true) :
    executeMarketSellLoop (n + 1) o ((p, best :: lvlRest) :: rest) locs tid =
      { executeMarketSellLoop n (o.fill (min o.remaining_quantity best.remaining_quantity))
          (if lvlRest.isEmpty then rest else (p, lvlRest) :: rest)
          (locErase best.id locs) (tid + 1) with
        trades := createTrade best o (determineExecutionPrice o best)
            (min o.remaining_quantity best.remaining_quantity) (tid + 1) ::
          (executeMarketSellLoop n (o.fill (min o.remaining_quantity best.remaining_quantity))
            (if lvlRest.isEmpty then rest else (p, lvlRest) :: rest)
            (locErase best.id locs) (tid + 1)).trades } := by
  simp [executeMarketSellLoop, h0, hfull]

theorem executeMarketSellLoop_step_part (n : ℕ) (o best : Order) (p : Price)
    (lvlRest : Level) (rest : List (Price × Level)) (locs : LocMap)
    (tid : ℕ) (h0 : ¬ o.remaining_quantity = 0)
    (hfull : ¬ (best.fill (min o.remaining_quantity best.remaining_quantity)).isFullyFilled = true) :
    executeMarketSellLoop (n + 1) o ((p, best :: lvlRest) :: rest) locs tid =
      { executeMarketSellLoop n (o.fill (min o.remaining_quantity best.remaining_quantity))
          ((p, best.fill (min o.remaining_quantity best.remaining_quantity) :: lvlRest) :: rest)
          locs (tid + 1) with
        trades := createTrade best o (determineExecutionPrice o best)
            (min o.remaining_quantity best.remaining_quantity) (tid + 1) ::
          (executeMarketSellLoop n (o.fill (min o.remaining_quantity best.remaining_quantity))
            ((p, best.fill (min o.remaining_quantity best.remaining_quantity) :: lvlRest) :: rest)
            locs (tid + 1)).trades } := by
  simp [executeMarketSellLoop, h0, hfull]

/-! ### Market-order loop lemmas -/

theorem executeMarketBuyLoop_zero_rem (fuel : ℕ) (o : Order)
    (asks : List (Price × Level)) (locs : LocMap) (tid : ℕ)
    (h : o.remaining_quantity = 0) :
    executeMarketBuyLoop fuel o asks locs tid = ⟨[], o, asks, locs, tid⟩ := by
  cases fuel <;> simp [executeMarketBuyLoop, h]

theorem executeMarketSellLoop_zero_rem (fuel : ℕ) (o : Order)
    (bids : List (Price × Level)) (locs : LocMap) (tid : ℕ)
    (h : o.remaining_quantity = 0) :
    executeMarketSellLoop fuel o bids locs tid = ⟨[], o, bids, locs, tid⟩ := by
  cases fuel <;> simp [executeMarketSellLoop, h]

theorem executeMarketBuyLoop_nil (fuel : ℕ) (o : Order) (locs : LocMap)
    (tid : ℕ) :
    executeMarketBuyLoop fuel o [] locs tid = ⟨[], o, [], locs, tid⟩ := by
  cases fuel with
  | zero => rfl
  | succ n => by_cases h : o.remaining_quantity = 0 <;> simp [executeMarketBuyLoop, h]

theorem executeMarketSellLoop_nil (fuel : ℕ) (o : Order) (locs : LocMap)
    (tid : ℕ) :
    executeMarketSellLoop fuel o [] locs tid = ⟨[], o, [], locs, tid⟩ := by
  cases fuel with
  | zero => rfl
  | succ n => by_cases h : o.remaining_quantity = 0 <;> simp [executeMarketSellLoop, h]

theorem executeMarketBuyLoop_post (fuel : ℕ) :
    ∀ (o : Order) (asks : List (Price × Level)) (locs : LocMap) (tid : ℕ),
    levelSize asks < fuel →
    (executeMarketBuyLoop fuel o asks locs tid).order.remaining_quantity = 0 ∨
      (executeMarketBuyLoop fuel o asks locs tid).opposite = [] := by
  induction fuel with
  | zero => intro o asks locs tid h; exact absurd h (Nat.not_lt_zero _)
  | succ n ih =>
    intro o asks locs tid h
    by_cases h0 : o.remaining_quantity = 0
    · left; simp [executeMarketBuyLoop, h0]
    · cases asks with
      | nil => right; simp [executeMarketBuyLoop, h0]
      | cons pl rest =>
        obtain ⟨p, lvl⟩ := pl
        cases lvl with
        | nil =>
          have hs : levelSize rest < n := by
            simp [levelSize] at h ⊢
            omega
          simpa [executeMarketBuyLoop, h0] using ih o rest locs tid hs
        | cons best lvlRest =>
          by_cases hfull : (best.fill (min o.remaining_quantity best.remaining_quantity)).isFullyFilled
          · have hs : levelSize (if lvlRest.isEmpty then rest else (p, lvlRest) :: rest) < n := by
              cases lvlRest <;> simp [levelSize] at h ⊢ <;> omega
            have hrec := ih (o.fill (min o.remaining_quantity best.remaining_quantity))
              (if lvlRest.isEmpty then rest else (p, lvlRest) :: rest)
              (locErase best.id locs) (tid + 1) hs
            simpa [executeMarketBuyLoop, h0, hfull] using hrec
          · left
            have hf2 : ¬(best.remaining_quantity -
                min o.remaining_quantity best.remaining_quantity = 0) := by
              simpa [Order.isFullyFilled, Order.fill] using hfull
            have hq : min o.remaining_quantity best.remaining_quantity = o.remaining_quantity := by
              rcases min_cases o.remaining_quantity best.remaining_quantity with h1 | h1
              · exact h1.1
              · exact absurd (by rw [h1.1]; exact Nat.sub_self _) hf2
            have hz : (o.fill (min o.remaining_quantity best.remaining_quantity)).remaining_quantity = 0 := by
              simp [Order.fill, hq]
            simp [executeMarketBuyLoop, h0, hfull,
              executeMarketBuyLoop_zero_rem n _ _ _ _ hz, hz]

theorem executeMarketSellLoop_post (fuel : ℕ) :
    ∀ (o : Order) (bids : List (Price × Level)) (locs : LocMap) (tid : ℕ),
    levelSize bids < fuel →
    (executeMarketSellLoop fuel o bids locs tid).order.remaining_quantity = 0 ∨
      (executeMarketSellLoop fuel o bids locs tid).opposite = [] := by
  induction fuel with
  | zero => intro o bids locs tid h; exact absurd h (Nat.not_lt_zero _)
  | succ n ih =>
    intro o bids locs tid h
    by_cases h0 : o.remaining_quantity = 0
    · left; simp [executeMarketSellLoop, h0]
    · cases bids with
      | nil => right; simp [executeMarketSellLoop, h0]
      | cons pl rest =>
        obtain ⟨p, lvl⟩ := pl
        cases lvl with
        | nil =>
          have hs : levelSize rest < n := by
            simp [levelSize] at h ⊢
            omega
          simpa [executeMarketSellLoop, h0] using ih o rest locs tid hs
        | cons best lvlRest =>
          by_cases hfull : (best.fill (min o.remaining_quantity best.remaining_quantity)).isFullyFilled
          · have hs : levelSize (if lvlRest.isEmpty then rest else (p, lvlRest) :: rest) < n := by
              cases lvlRest <;> simp [levelSize] at h ⊢ <;> omega
            have hrec := ih (o.fill (min o.remaining_quantity best.remaining_quantity))
              (if lvlRest.isEmpty then rest else (p, lvlRest) :: rest)
              (locErase best.id locs) (tid + 1) hs
            simpa [executeMarketSellLoop, h0, hfull] using hrec
          · left
            have hf2 : ¬(best.remaining_quantity -
                min o.remaining_quantity best.remaining_quantity = 0) := by
              simpa [Order.isFullyFilled, Order.fill] using hfull
            have hq : min o.remaining_quantity best.remaining_quantity = o.remaining_quantity := by
              rcases min_cases o.remaining_quantity best.remaining_quantity with h1 | h1
              · exact h1.1
              · exact absurd (by rw [h1.1]; exact Nat.sub_self _) hf2
            have hz : (o.fill (min o.remaining_quantity best.remaining_quantity)).remaining_quantity = 0 := by
              simp [Order.fill, hq]
            simp [executeMarketSellLoop, h0, hfull,
              executeMarketSellLoop_zero_rem n _ _ _ _ hz, hz]

theorem executeMarketBuyLoop_locs (fuel : ℕ) :
    ∀ (o : Order) (asks : List (Price × Level)) (locs : LocMap) (tid : ℕ),
    ((executeMarketBuyLoop fuel o asks locs tid).locations).Sublist locs := by
  induction fuel with
  | zero => intro o asks locs tid; exact List.Sublist.refl _
  | succ n ih =>
    intro o asks locs tid
    by_cases h0 : o.remaining_quantity = 0
    · simp [executeMarketBuyLoop, h0]
    · cases asks with
      | nil => simp [executeMarketBuyLoop, h0]
      | cons pl rest =>
        obtain ⟨p, lvl⟩ := pl
        cases lvl with
        | nil => simpa [executeMarketBuyLoop, h0] using ih o rest locs tid
        | cons best lvlRest =>
          by_cases hfull : (best.fill (min o.remaining_quantity best.remaining_quantity)).isFullyFilled
          · have hsub := (ih (o.fill (min o.remaining_quantity best.remaining_quantity))
              (if lvlRest.isEmpty then rest else (p, lvlRest) :: rest)
              (locErase best.id locs) (tid + 1)).trans (List.filter_sublist _)
            simpa [executeMarketBuyLoop, h0, hfull] using hsub
          · simpa [executeMarketBuyLoop, h0, hfull] using
              ih (o.fill (min o.remaining_quantity best.remaining_quantity))
                ((p, best.fill (min o.remaining_quantity best.remaining_quantity) :: lvlRest) :: rest)
                locs (tid + 1)

theorem executeMarketSellLoop_locs (fuel : ℕ) :
    ∀ (o : Order) (bids : List (Price × Level)) (locs : LocMap) (tid : ℕ),
    ((executeMarketSellLoop fuel o bids locs tid).locations).Sublist locs := by
  induction fuel with
  | zero => intro o bids locs tid; exact List.Sublist.refl _
  | succ n ih =>
    intro o bids locs tid
    by_cases h0 : o.remaining_quantity = 0
    · simp [executeMarketSellLoop, h0]
    · cases bids with
      | nil => simp [executeMarketSellLoop, h0]
      | cons pl rest =>
        obtain ⟨p, lvl⟩ := pl
        cases lvl with
        | nil => simpa [executeMarketSellLoop, h0] using ih o rest locs tid
        | cons best lvlRest =>
          by_cases hfull : (best.fill (min o.remaining_quantity best.remaining_quantity)).isFullyFilled
          · have hsub := (ih (o.fill (min o.remaining_quantity best.remaining_quantity))
              (if lvlRest.isEmpty then rest else (p, lvlRest) :: rest)
              (locErase best.id locs) (tid + 1)).trans (List.filter_sublist _)
            simpa [executeMarketSellLoop, h0, hfull] using hsub
          · simpa [executeMarketSellLoop, h0, hfull] using
              ih (o.fill (min o.remaining_quantity best.remaining_quantity))
                ((p, best.fill (min o.remaining_quantity best.remaining_quantity) :: lvlRest) :: rest)
                locs (tid + 1)

/-- C5: a MARKET order matches against the opposite side until its remaining
quantity is 0 or that side is empty (the disjunction below, a loop
postcondition), it is never inserted into the book (its own side is untouched
and the location index only shrinks, so the order is never registered), and
against an empty opposite side `addOrder` returns no trades and the book
unchanged. -/
theorem C5_market_orders_never_rest :
    (∀ (b : OrderBook) (o : Order),
      o.type = OrderType.MARKET → o.side = OrderSide.BUY →
      (b.addOrder o).2.bids = b.bids ∧
      ((b.addOrder o).2.order_locations).Sublist b.order_locations ∧
      ((b.executeMarketOrder o).2.1.remaining_quantity = 0 ∨
        (b.executeMarketOrder o).2.2.asks = []) ∧
      (b.asks = [] → b.addOrder o = ([], b))) ∧
    (∀ (b : OrderBook) (o : Order),
      o.type = OrderType.MARKET → o.side = OrderSide.SELL →
      (b.addOrder o).2.asks = b.asks ∧
      ((b.addOrder o).2.order_locations).Sublist b.order_locations ∧
      ((b.executeMarketOrder o).2.1.remaining_quantity = 0 ∨
        (b.executeMarketOrder o).2.2.bids = []) ∧
      (b.bids = [] → b.addOrder o = ([], b))) := by
  constructor
  · intro b o ht hs
    have hm : o.isMarketOrder = true := by simp [Order.isMarketOrder, ht]
    have hb : o.isBuyOrder = true := by simp [Order.isBuyOrder, hs]
    obtain ⟨bb, ba, bl, bt⟩ := b
    refine ⟨?_, ?_, ?_, ?_⟩
    · simp [OrderBook.addOrder, OrderBook.executeMarketOrder, hm, hb]
    · simpa [OrderBook.addOrder, OrderBook.executeMarketOrder, hm, hb] using
        executeMarketBuyLoop_locs (levelSize ba + 1) o ba bl bt
    · simpa [OrderBook.executeMarketOrder, hb] using
        executeMarketBuyLoop_post (levelSize ba + 1) o ba bl bt (Nat.lt_succ_self _)
    · intro hempty
      simp only [OrderBook.asks] at hempty
      subst hempty
      simp [OrderBook.addOrder, OrderBook.executeMarketOrder, hm, hb,
        executeMarketBuyLoop_nil, levelSize]
  · intro b o ht hs
    have hm : o.isMarketOrder = true := by simp [Order.isMarketOrder, ht]
    have hb : o.isBuyOrder = false := by simp [Order.isBuyOrder, hs]
    obtain ⟨bb, ba, bl, bt⟩ := b
    refine ⟨?_, ?_, ?_, ?_⟩
    · simp [OrderBook.addOrder, OrderBook.executeMarketOrder, hm, hb]
    · simpa [OrderBook.addOrder, OrderBook.executeMarketOrder, hm, hb] using
        executeMarketSellLoop_locs (levelSize bb + 1) o bb bl bt
    · simpa [OrderBook.executeMarketOrder, hb] using
        executeMarketSellLoop_post (levelSize bb + 1) o bb bl bt (Nat.lt_succ_self _)
    · intro hempty
      simp only [OrderBook.bids] at hempty
      subst hempty
      simp [OrderBook.addOrder, OrderBook.executeMarketOrder, hm, hb,
        executeMarketSellLoop_nil, levelSize]

/-- Witness for C5 at a concrete book (one resting ask on symbol `C`): a
market buy that over-sweeps the ask side, and a market sell against the empty
bid side. -/
theorem C5_witness :
    ((bookC5.addOrder orderC5buy).2.bids = bookC5.bids ∧
      ((bookC5.addOrder orderC5buy).2.order_locations).Sublist bookC5.order_locations ∧
      ((bookC5.executeMarketOrder orderC5buy).2.1.remaining_quantity = 0 ∨
        (bookC5.executeMarketOrder orderC5buy).2.2.asks = []) ∧
      (bookC5.asks = [] → bookC5.addOrder orderC5buy = ([], bookC5))) ∧
    ((bookC5.addOrder orderC5sell).2.asks = bookC5.asks ∧
      ((bookC5.addOrder orderC5sell).2.order_locations).Sublist bookC5.order_locations ∧
      ((bookC5.executeMarketOrder orderC5sell).2.1.remaining_quantity = 0 ∨
        (bookC5.executeMarketOrder orderC5sell).2.2.bids = []) ∧
      (bookC5.bids = [] → bookC5.addOrder orderC5sell = ([], bookC5))) :=
  ⟨C5_market_orders_never_rest.1 bookC5 orderC5buy rfl rfl,
    C5_market_orders_never_rest.2 bookC5 orderC5sell rfl rfl⟩

/-! ### Trades execute at the passive order's price -/

theorem sideOrders_nil : sideOrders [] = [] := rfl

theorem sideOrders_cons (p : Price) (lvl : Level) (rest : List (Price × Level)) :
    sideOrders ((p, lvl) :: rest) = lvl ++ sideOrders rest := by
  simp [sideOrders]

theorem Order.fill_id (o : Order) (q : ℕ) : (o.fill q).id = o.id := rfl

theorem Order.fill_price (o : Order) (q : ℕ) : (o.fill q).price = o.price := rfl

theorem Order.fill_side (o : Order) (q : ℕ) : (o.fill q).side = o.side := rfl

theorem Order.fill_type (o : Order) (q : ℕ) : (o.fill q).type = o.type := rfl

theorem Order.fill_symbol (o : Order) (q : ℕ) : (o.fill q).symbol = o.symbol := rfl

theorem Order.fill_remaining (o : Order) (q : ℕ) :
    (o.fill q).remaining_quantity = o.remaining_quantity - q := rfl

theorem mem_sideOrders_of_if (p : Price) (best : Order) (lvlRest : Level)
    (rest : List (Price × Level)) (r : Order)
    (hr : r ∈ sideOrders (if lvlRest.isEmpty then rest else (p, lvlRest) :: rest)) :
    r ∈ sideOrders ((p, best :: lvlRest) :: rest) := by
  rw [sideOrders_cons]
  by_cases he : lvlRest.isEmpty
  · rw [if_pos he] at hr
    exact List.mem_append_right _ hr
  · rw [if_neg he, sideOrders_cons] at hr
    rcases List.mem_append.1 hr with h | h
    · exact List.mem_append_left _ (List.mem_cons_of_mem _ h)
    · exact List.mem_append_right _ h

theorem matchLimitBuyLoop_passive (fuel : ℕ) :
    ∀ (o : Order) (asks : List (Price × Level)) (locs : LocMap) (tid : ℕ)
      (t : Trade), t ∈ (matchLimitBuyLoop fuel o asks locs tid).trades →
    ∃ r ∈ sideOrders asks, t.sell_order_id = r.id ∧ t.execution_price = r.price := by
  induction fuel with
  | zero =>
    intro o asks locs tid t ht
    simp [matchLimitBuyLoop] at ht
  | succ n ih =>
    intro o asks locs tid t ht
    by_cases h0 : o.remaining_quantity = 0
    · rw [matchLimitBuyLoop_zero_rem _ _ _ _ _ h0] at ht
      simp at ht
    · cases asks with
      | nil =>
        rw [matchLimitBuyLoop_nil] at ht
        simp at ht
      | cons pl rest =>
        obtain ⟨p, lvl⟩ := pl
        cases lvl with
        | nil =>
          rw [matchLimitBuyLoop_empty_level n o p rest locs tid h0] at ht
          obtain ⟨r, hr, h1, h2⟩ := ih o rest locs tid t ht
          exact ⟨r, by rw [sideOrders_cons]; exact List.mem_append_right _ hr, h1, h2⟩
        | cons best lvlRest =>
          by_cases hcm : o.canMatchWith best
          case neg =>
            rw [matchLimitBuyLoop_break n o best p lvlRest rest locs tid h0
              (by simpa using hcm)] at ht
            simp at ht
          case pos =>
            by_cases hfull : (best.fill (min o.remaining_quantity best.remaining_quantity)).isFullyFilled
            · rw [matchLimitBuyLoop_step_full n o best p lvlRest rest locs tid h0 hcm hfull] at ht
              replace ht : t = createTrade o best (determineExecutionPrice o best)
                  (min o.remaining_quantity best.remaining_quantity) (tid + 1) ∨
                  t ∈ (matchLimitBuyLoop n (o.fill (min o.remaining_quantity best.remaining_quantity))
                    (if lvlRest.isEmpty then rest else (p, lvlRest) :: rest)
                    (locErase best.id locs) (tid + 1)).trades := by simpa using ht
              rcases ht with rfl | ht
              · exact ⟨best, by rw [sideOrders_cons]; exact List.mem_append_left _ (List.mem_cons_self _ _),
                  rfl, rfl⟩
              · obtain ⟨r, hr, h1, h2⟩ := ih _ _ _ _ t ht
                exact ⟨r, mem_sideOrders_of_if p best lvlRest rest r hr, h1, h2⟩
            · rw [matchLimitBuyLoop_step_part n o best p lvlRest rest locs tid h0 hcm hfull] at ht
              replace ht : t = createTrade o best (determineExecutionPrice o best)
                  (min o.remaining_quantity best.remaining_quantity) (tid + 1) ∨
                  t ∈ (matchLimitBuyLoop n (o.fill (min o.remaining_quantity best.remaining_quantity))
                    ((p, best.fill (min o.remaining_quantity best.remaining_quantity) :: lvlRest) :: rest)
                    locs (tid + 1)).trades := by simpa using ht
              rcases ht with rfl | ht
              · exact ⟨best, by rw [sideOrders_cons]; exact List.mem_append_left _ (List.mem_cons_self _ _),
                  rfl, rfl⟩
              · obtain ⟨r2, hr2, h1, h2⟩ := ih _ _ _ _ t ht
                rw [sideOrders_cons] at hr2
                rcases List.mem_append.1 hr2 with h | h
                · rcases List.mem_cons.1 h with rfl | h
                  · exact ⟨best, by rw [sideOrders_cons]; exact List.mem_append_left _ (List.mem_cons_self _ _),
                      h1, h2⟩
                  · exact ⟨r2, by rw [sideOrders_cons]; exact List.mem_append_left _ (List.mem_cons_of_mem _ h),
                      h1, h2⟩
                · exact ⟨r2, by rw [sideOrders_cons]; exact List.mem_append_right _ h, h1, h2⟩

theorem matchLimitSellLoop_passive (fuel : ℕ) :
    ∀ (o : Order) (bids : List (Price × Level)) (locs : LocMap) (tid : ℕ)
      (t : Trade), t ∈ (matchLimitSellLoop fuel o bids locs tid).trades →
    ∃ r ∈ sideOrders bids, t.buy_order_id = r.id ∧ t.execution_price = r.price := by
  induction fuel with
  | zero =>
    intro o bids locs tid t ht
    simp [matchLimitSellLoop] at ht
  | succ n ih =>
    intro o bids locs tid t ht
    by_cases h0 : o.remaining_quantity = 0
    · rw [matchLimitSellLoop_zero_rem _ _ _ _ _ h0] at ht
      simp at ht
    · cases bids with
      | nil =>
        rw [matchLimitSellLoop_nil] at ht
        simp at ht
      | cons pl rest =>
        obtain ⟨p, lvl⟩ := pl
        cases lvl with
        | nil =>
          rw [matchLimitSellLoop_empty_level n o p rest locs tid h0] at ht
          obtain ⟨r, hr, h1, h2⟩ := ih o rest locs tid t ht
          exact ⟨r, by rw [sideOrders_cons]; exact List.mem_append_right _ hr, h1, h2⟩
        | cons best lvlRest =>
          by_cases hcm : o.canMatchWith best
          case neg =>
            rw [matchLimitSellLoop_break n o best p lvlRest rest locs tid h0
              (by simpa using hcm)] at ht
            simp at ht
          case pos =>
            by_cases hfull : (best.fill (min o.remaining_quantity best.remaining_quantity)).isFullyFilled
            · rw [matchLimitSellLoop_step_full n o best p lvlRest rest locs tid h0 hcm hfull] at ht
              replace ht : t = createTrade best o (determineExecutionPrice o best)
                  (min o.remaining_quantity best.remaining_quantity) (tid + 1) ∨
                  t ∈ (matchLimitSellLoop n (o.fill (min o.remaining_quantity best.remaining_quantity))
                    (if lvlRest.isEmpty then rest else (p, lvlRest) :: rest)
                    (locErase best.id locs) (tid + 1)).trades := by simpa using ht
              rcases ht with rfl | ht
              · exact ⟨best, by rw [sideOrders_cons]; exact List.mem_append_left _ (List.mem_cons_self _ _),
                  rfl, rfl⟩
              · obtain ⟨r, hr, h1, h2⟩ := ih _ _ _ _ t ht
                exact ⟨r, mem_sideOrders_of_if p best lvlRest rest r hr, h1, h2⟩
            · rw [matchLimitSellLoop_step_part n o best p lvlRest rest locs tid h0 hcm hfull] at ht
              replace ht : t = createTrade best o (determineExecutionPrice o best)
                  (min o.remaining_quantity best.remaining_quantity) (tid + 1) ∨
                  t ∈ (matchLimitSellLoop n (o.fill (min o.remaining_quantity best.remaining_quantity))
                    ((p, best.fill (min o.remaining_quantity best.remaining_quantity) :: lvlRest) :: rest)
                    locs (tid + 1)).trades := by simpa using ht
              rcases ht with rfl | ht
              · exact ⟨best, by rw [sideOrders_cons]; exact List.mem_append_left _ (List.mem_cons_self _ _),
                  rfl, rfl⟩
              · obtain ⟨r2, hr2, h1, h2⟩ := ih _ _ _ _ t ht
                rw [sideOrders_cons] at hr2
                rcases List.mem_append.1 hr2 with h | h
                · rcases List.mem_cons.1 h with rfl | h
                  · exact ⟨best, by rw [sideOrders_cons]; exact List.mem_append_left _ (List.mem_cons_self _ _),
                      h1, h2⟩
                  · exact ⟨r2, by rw [sideOrders_cons]; exact List.mem_append_left _ (List.mem_cons_of_mem _ h),
                      h1, h2⟩
                · exact ⟨r2, by rw [sideOrders_cons]; exact List.mem_append_right _ h, h1, h2⟩

theorem executeMarketBuyLoop_passive (fuel : ℕ) :
    ∀ (o : Order) (asks : List (Price × Level)) (locs : LocMap) (tid : ℕ)
      (t : Trade), t ∈ (executeMarketBuyLoop fuel o asks locs tid).trades →
    ∃ r ∈ sideOrders asks, t.sell_order_id = r.id ∧ t.execution_price = r.price := by
  induction fuel with
  | zero =>
    intro o asks locs tid t ht
    simp [executeMarketBuyLoop] at ht
  | succ n ih =>
    intro o asks locs tid t ht
    by_cases h0 : o.remaining_quantity = 0
    · rw [executeMarketBuyLoop_zero_rem _ _ _ _ _ h0] at ht
      simp at ht
    · cases asks with
      | nil =>
        rw [executeMarketBuyLoop_nil] at ht
        simp at ht
      | cons pl rest =>
        obtain ⟨p, lvl⟩ := pl
        cases lvl with
        | nil =>
          rw [executeMarketBuyLoop_empty_level n o p rest locs tid h0] at ht
          obtain ⟨r, hr, h1, h2⟩ := ih o rest locs tid t ht
          exact ⟨r, by rw [sideOrders_cons]; exact List.mem_append_right _ hr, h1, h2⟩
        | cons best lvlRest =>
          by_cases hfull : (best.fill (min o.remaining_quantity best.remaining_quantity)).isFullyFilled
          · rw [executeMarketBuyLoop_step_full n o best p lvlRest rest locs tid h0 hfull] at ht
            replace ht : t = createTrade o best (determineExecutionPrice o best)
                (min o.remaining_quantity best.remaining_quantity) (tid + 1) ∨
                t ∈ (executeMarketBuyLoop n (o.fill (min o.remaining_quantity best.remaining_quantity))
                  (if lvlRest.isEmpty then rest else (p, lvlRest) :: rest)
                  (locErase best.id locs) (tid + 1)).trades := by simpa using ht
            rcases ht with rfl | ht
            · exact ⟨best, by rw [sideOrders_cons]; exact List.mem_append_left _ (List.mem_cons_self _ _),
                rfl, rfl⟩
            · obtain ⟨r, hr, h1, h2⟩ := ih _ _ _ _ t ht
              exact ⟨r, mem_sideOrders_of_if p best lvlRest rest r hr, h1, h2⟩
          · rw [executeMarketBuyLoop_step_part n o best p lvlRest rest locs tid h0 hfull] at ht
            replace ht : t = createTrade o best (determineExecutionPrice o best)
                (min o.remaining_quantity best.remaining_quantity) (tid + 1) ∨
                t ∈ (executeMarketBuyLoop n (o.fill (min o.remaining_quantity best.remaining_quantity))
                  ((p, best.fill (min o.remaining_quantity best.remaining_quantity) :: lvlRest) :: rest)
                  locs (tid + 1)).trades := by simpa using ht
            rcases ht with rfl | ht
            · exact ⟨best, by rw [sideOrders_cons]; exact List.mem_append_left _ (List.mem_cons_self _ _),
                rfl, rfl⟩
            · obtain ⟨r2, hr2, h1, h2⟩ := ih _ _ _ _ t ht
              rw [sideOrders_cons] at hr2
              rcases List.mem_append.1 hr2 with h | h
              · rcases List.mem_cons.1 h with rfl | h
                · exact ⟨best, by rw [sideOrders_cons]; exact List.mem_append_left _ (List.mem_cons_self _ _),
                    h1, h2⟩
                · exact ⟨r2, by rw [sideOrders_cons]; exact List.mem_append_left _ (List.mem_cons_of_mem _ h),
                    h1, h2⟩
              · exact ⟨r2, by rw [sideOrders_cons]; exact List.mem_append_right _ h, h1, h2⟩

theorem executeMarketSellLoop_passive (fuel : ℕ) :
    ∀ (o : Order) (bids : List (Price × Level)) (locs : LocMap) (tid : ℕ)
      (t : Trade), t ∈ (executeMarketSellLoop fuel o bids locs tid).trades →
    ∃ r ∈ sideOrders bids, t.buy_order_id = r.id ∧ t.execution_price = r.price := by
  induction fuel with
  | zero =>
    intro o bids locs tid t ht
    simp [executeMarketSellLoop] at ht
  | succ n ih =>
    intro o bids locs tid t ht
    by_cases h0 : o.remaining_quantity = 0
    · rw [executeMarketSellLoop_zero_rem _ _ _ _ _ h0] at ht
      simp at ht
    · cases bids with
      | nil =>
        rw [executeMarketSellLoop_nil] at ht
        simp at ht
      | cons pl rest =>
        obtain ⟨p, lvl⟩ := pl
        cases lvl with
        | nil =>
          rw [executeMarketSellLoop_empty_level n o p rest locs tid h0] at ht
          obtain ⟨r, hr, h1, h2⟩ := ih o rest locs tid t ht
          exact ⟨r, by rw [sideOrders_cons]; exact List.mem_append_right _ hr, h1, h2⟩
        | cons best lvlRest =>
          by_cases hfull : (best.fill (min o.remaining_quantity best.remaining_quantity)).isFullyFilled
          · rw [executeMarketSellLoop_step_full n o best p lvlRest rest locs tid h0 hfull] at ht
            replace ht : t = createTrade best o (determineExecutionPrice o best)
                (min o.remaining_quantity best.remaining_quantity) (tid + 1) ∨
                t ∈ (executeMarketSellLoop n (o.fill (min o.remaining_quantity best.remaining_quantity))
                  (if lvlRest.isEmpty then rest else (p, lvlRest) :: rest)
                  (locErase best.id locs) (tid + 1)).trades := by simpa using ht
            rcases ht with rfl | ht
            · exact ⟨best, by rw [sideOrders_cons]; exact List.mem_append_left _ (List.mem_cons_self _ _),
                rfl, rfl⟩
            · obtain ⟨r, hr, h1, h2⟩ := ih _ _ _ _ t ht
              exact ⟨r, mem_sideOrders_of_if p best lvlRest rest r hr, h1, h2⟩
          · rw [executeMarketSellLoop_step_part n o best p lvlRest rest locs tid h0 hfull] at ht
            replace ht : t = createTrade best o (determineExecutionPrice o best)
                (min o.remaining_quantity best.remaining_quantity) (tid + 1) ∨
                t ∈ (executeMarketSellLoop n (o.fill (min o.remaining_quantity best.remaining_quantity))
                  ((p, best.fill (min o.remaining_quantity best.remaining_quantity) :: lvlRest) :: rest)
                  locs (tid + 1)).trades := by simpa using ht
            rcases ht with rfl | ht
            · exact ⟨best, by rw [sideOrders_cons]; exact List.mem_append_left _ (List.mem_cons_self _ _),
                rfl, rfl⟩
            · obtain ⟨r2, hr2, h1, h2⟩ := ih _ _ _ _ t ht
              rw [sideOrders_cons] at hr2
              rcases List.mem_append.1 hr2 with h | h
              · rcases List.mem_cons.1 h with rfl | h
                · exact ⟨best, by rw [sideOrders_cons]; exact List.mem_append_left _ (List.mem_cons_self _ _),
                    h1, h2⟩
                · exact ⟨r2, by rw [sideOrders_cons]; exact List.mem_append_left _ (List.mem_cons_of_mem _ h),
                    h1, h2⟩
              · exact ⟨r2, by rw [sideOrders_cons]; exact List.mem_append_right _ h, h1, h2⟩

/-- C2: every trade emitted by `addOrder` — market or limit, buy or sell —
executes at the price of a passive (resting) order of the pre-add book whose
id is the one the trade records for the passive party.  All four trade
creation sites call `determineExecutionPrice(aggressive, passive)`, which
returns `passive.getPrice()`; the aggressive order's own price or kind never
enters the execution price. -/
theorem C2_execution_at_passive_price :
    ∀ (b : OrderBook) (o : Order) (t : Trade), t ∈ (b.addOrder o).1 →
    ∃ r ∈ b.oppositeOrders o.side,
      t.passiveOrderId o.side = r.id ∧ t.execution_price = r.price := by
  intro b o t ht
  by_cases hm : o.isMarketOrder
  · cases hside : o.side with
    | BUY =>
      have hb : o.isBuyOrder = true := by simp [Order.isBuyOrder, hside]
      replace ht : t ∈ (executeMarketBuyLoop (levelSize b.asks + 1) o b.asks
          b.order_locations b.next_trade_id).trades := by
        simpa [OrderBook.addOrder, OrderBook.executeMarketOrder, hm, hb] using ht
      obtain ⟨r, hr, h1, h2⟩ := executeMarketBuyLoop_passive _ o b.asks
        b.order_locations b.next_trade_id t ht
      exact ⟨r, hr, h1, h2⟩
    | SELL =>
      have hb : o.isBuyOrder = false := by simp [Order.isBuyOrder, hside]
      replace ht : t ∈ (executeMarketSellLoop (levelSize b.bids + 1) o b.bids
          b.order_locations b.next_trade_id).trades := by
        simpa [OrderBook.addOrder, OrderBook.executeMarketOrder, hm, hb] using ht
      obtain ⟨r, hr, h1, h2⟩ := executeMarketSellLoop_passive _ o b.bids
        b.order_locations b.next_trade_id t ht
      exact ⟨r, hr, h1, h2⟩
  · by_cases hl : o.isLimitOrder
    · have hts : t ∈ (b.matchLimitOrder o).1 := by
        by_cases hff : (b.matchLimitOrder o).2.1.isFullyFilled <;>
          simpa [OrderBook.addOrder, hm, hl, hff] using ht
      cases hside : o.side with
      | BUY =>
        have hb : o.isBuyOrder = true := by simp [Order.isBuyOrder, hside]
        replace hts : t ∈ (matchLimitBuyLoop (levelSize b.asks + 1) o b.asks
            b.order_locations b.next_trade_id).trades := by
          simpa [OrderBook.matchLimitOrder, hb] using hts
        obtain ⟨r, hr, h1, h2⟩ := matchLimitBuyLoop_passive _ o b.asks
          b.order_locations b.next_trade_id t hts
        exact ⟨r, hr, h1, h2⟩
      | SELL =>
        have hb : o.isBuyOrder = false := by simp [Order.isBuyOrder, hside]
        replace hts : t ∈ (matchLimitSellLoop (levelSize b.bids + 1) o b.bids
            b.order_locations b.next_trade_id).trades := by
          simpa [OrderBook.matchLimitOrder, hb] using hts
        obtain ⟨r, hr, h1, h2⟩ := matchLimitSellLoop_passive _ o b.bids
          b.order_locations b.next_trade_id t hts
        exact ⟨r, hr, h1, h2⟩
    · exfalso
      cases htype : o.type <;>
        simp [Order.isMarketOrder, Order.isLimitOrder, htype] at hm hl

/-- Witness for C2: an aggressive limit buy at 101 against a resting ask at
100 trades at the passive price 100. -/
theorem C2_witness :
    tradeC2 ∈ (bookC2.addOrder orderC2).1 ∧
    ∃ r ∈ bookC2.oppositeOrders orderC2.side,
      tradeC2.passiveOrderId orderC2.side = r.id ∧
        tradeC2.execution_price = r.price :=
  ⟨by decide, C2_execution_at_passive_price bookC2 orderC2 tradeC2 (by decide)⟩

/-! ### Trade-id monotonicity -/

theorem matchLimitBuyLoop_tids (fuel : ℕ) :
    ∀ (o : Order) (asks : List (Price × Level)) (locs : LocMap) (tid : ℕ),
    tid ≤ (matchLimitBuyLoop fuel o asks locs tid).next_tid ∧
    List.Pairwise (· < ·)
      ((matchLimitBuyLoop fuel o asks locs tid).trades.map Trade.trade_id) ∧
    ∀ t ∈ (matchLimitBuyLoop fuel o asks locs tid).trades,
      tid < t.trade_id ∧ t.trade_id ≤ (matchLimitBuyLoop fuel o asks locs tid).next_tid := by
  induction fuel with
  | zero =>
    intro o asks locs tid
    exact ⟨le_refl _, by simp [matchLimitBuyLoop], by simp [matchLimitBuyLoop]⟩
  | succ n ih =>
    intro o asks locs tid
    by_cases h0 : o.remaining_quantity = 0
    · rw [matchLimitBuyLoop_zero_rem _ _ _ _ _ h0]
      exact ⟨le_refl _, by simp, by simp⟩
    · cases asks with
      | nil =>
        rw [matchLimitBuyLoop_nil]
        exact ⟨le_refl _, by simp, by simp⟩
      | cons pl rest =>
        obtain ⟨p, lvl⟩ := pl
        cases lvl with
        | nil =>
          rw [matchLimitBuyLoop_empty_level n o p rest locs tid h0]
          exact ih o rest locs tid
        | cons best lvlRest =>
          by_cases hcm : o.canMatchWith best
          case neg =>
            rw [matchLimitBuyLoop_break n o best p lvlRest rest locs tid h0
              (by simpa using hcm)]
            exact ⟨le_refl _, by simp, by simp⟩
          case pos =>
            by_cases hfull : (best.fill (min o.remaining_quantity best.remaining_quantity)).isFullyFilled
            · rw [matchLimitBuyLoop_step_full n o best p lvlRest rest locs tid h0 hcm hfull]
              obtain ⟨ih1, ih2, ih3⟩ := ih (o.fill (min o.remaining_quantity best.remaining_quantity))
                (if lvlRest.isEmpty then rest else (p, lvlRest) :: rest)
                (locErase best.id locs) (tid + 1)
              refine ⟨le_trans (Nat.le_succ tid) ih1, ?_, ?_⟩
              · simp only [List.map_cons]
                refine List.pairwise_cons.mpr ⟨?_, ih2⟩
                intro y hy
                obtain ⟨t, htmem, rfl⟩ := List.mem_map.1 hy
                exact (ih3 t htmem).1
              · intro t htmem
                rcases List.mem_cons.1 htmem with rfl | htm
                · exact ⟨Nat.lt_succ_self tid, ih1⟩
                · obtain ⟨a1, a2⟩ := ih3 t htm
                  exact ⟨lt_trans (Nat.lt_succ_self tid) a1, a2⟩
            · rw [matchLimitBuyLoop_step_part n o best p lvlRest rest locs tid h0 hcm hfull]
              obtain ⟨ih1, ih2, ih3⟩ := ih (o.fill (min o.remaining_quantity best.remaining_quantity))
                ((p, best.fill (min o.remaining_quantity best.remaining_quantity) :: lvlRest) :: rest)
                locs (tid + 1)
              refine ⟨le_trans (Nat.le_succ tid) ih1, ?_, ?_⟩
              · simp only [List.map_cons]
                refine List.pairwise_cons.mpr ⟨?_, ih2⟩
                intro y hy
                obtain ⟨t, htmem, rfl⟩ := List.mem_map.1 hy
                exact (ih3 t htmem).1
              · intro t htmem
                rcases List.mem_cons.1 htmem with rfl | htm
                · exact ⟨Nat.lt_succ_self tid, ih1⟩
                · obtain ⟨a1, a2⟩ := ih3 t htm
                  exact ⟨lt_trans (Nat.lt_succ_self tid) a1, a2⟩

theorem matchLimitSellLoop_tids (fuel : ℕ) :
    ∀ (o : Order) (bids : List (Price × Level)) (locs : LocMap) (tid : ℕ),
    tid ≤ (matchLimitSellLoop fuel o bids locs tid).next_tid ∧
    List.Pairwise (· < ·)
      ((matchLimitSellLoop fuel o bids locs tid).trades.map Trade.trade_id) ∧
    ∀ t ∈ (matchLimitSellLoop fuel o bids locs tid).trades,
      tid < t.trade_id ∧ t.trade_id ≤ (matchLimitSellLoop fuel o bids locs tid).next_tid := by
  induction fuel with
  | zero =>
    intro o bids locs tid
    exact ⟨le_refl _, by simp [matchLimitSellLoop], by simp [matchLimitSellLoop]⟩
  | succ n ih =>
    intro o bids locs tid
    by_cases h0 : o.remaining_quantity = 0
    · rw [matchLimitSellLoop_zero_rem _ _ _ _ _ h0]
      exact ⟨le_refl _, by simp, by simp⟩
    · cases bids with
      | nil =>
        rw [matchLimitSellLoop_nil]
        exact ⟨le_refl _, by simp, by simp⟩
      | cons pl rest =>
        obtain ⟨p, lvl⟩ := pl
        cases lvl with
        | nil =>
          rw [matchLimitSellLoop_empty_level n o p rest locs tid h0]
          exact ih o rest locs tid
        | cons best lvlRest =>
          by_cases hcm : o.canMatchWith best
          case neg =>
            rw [matchLimitSellLoop_break n o best p lvlRest rest locs tid h0
              (by simpa using hcm)]
            exact ⟨le_refl _, by simp, by simp⟩
          case pos =>
            by_cases hfull : (best.fill (min o.remaining_quantity best.remaining_quantity)).isFullyFilled
            · rw [matchLimitSellLoop_step_full n o best p lvlRest rest locs tid h0 hcm hfull]
              obtain ⟨ih1, ih2, ih3⟩ := ih (o.fill (min o.remaining_quantity best.remaining_quantity))
                (if lvlRest.isEmpty then rest else (p, lvlRest) :: rest)
                (locErase best.id locs) (tid + 1)
              refine ⟨le_trans (Nat.le_succ tid) ih1, ?_, ?_⟩
              · simp only [List.map_cons]
                refine List.pairwise_cons.mpr ⟨?_, ih2⟩
                intro y hy
                obtain ⟨t, htmem, rfl⟩ := List.mem_map.1 hy
                exact (ih3 t htmem).1
              · intro t htmem
                rcases List.mem_cons.1 htmem with rfl | htm
                · exact ⟨Nat.lt_succ_self tid, ih1⟩
                · obtain ⟨a1, a2⟩ := ih3 t htm
                  exact ⟨lt_trans (Nat.lt_succ_self tid) a1, a2⟩
            · rw [matchLimitSellLoop_step_part n o best p lvlRest rest locs tid h0 hcm hfull]
              obtain ⟨ih1, ih2, ih3⟩ := ih (o.fill (min o.remaining_quantity best.remaining_quantity))
                ((p, best.fill (min o.remaining_quantity best.remaining_quantity) :: lvlRest) :: rest)
                locs (tid + 1)
              refine ⟨le_trans (Nat.le_succ tid) ih1, ?_, ?_⟩
              · simp only [List.map_cons]
                refine List.pairwise_cons.mpr ⟨?_, ih2⟩
                intro y hy
                obtain ⟨t, htmem, rfl⟩ := List.mem_map.1 hy
                exact (ih3 t htmem).1
              · intro t htmem
                rcases List.mem_cons.1 htmem with rfl | htm
                · exact ⟨Nat.lt_succ_self tid, ih1⟩
                · obtain ⟨a1, a2⟩ := ih3 t htm
                  exact ⟨lt_trans (Nat.lt_succ_self tid) a1, a2⟩


theorem executeMarketBuyLoop_tids (fuel : ℕ) :
    ∀ (o : Order) (asks : List (Price × Level)) (locs : LocMap) (tid : ℕ),
    tid ≤ (executeMarketBuyLoop fuel o asks locs tid).next_tid ∧
    List.Pairwise (· < ·)
      ((executeMarketBuyLoop fuel o asks locs tid).trades.map Trade.trade_id) ∧
    ∀ t ∈ (executeMarketBuyLoop fuel o asks locs tid).trades,
      tid < t.trade_id ∧ t.trade_id ≤ (executeMarketBuyLoop fuel o asks locs tid).next_tid := by
  induction fuel with
  | zero =>
    intro o asks locs tid
    exact ⟨le_refl _, by simp [executeMarketBuyLoop], by simp [executeMarketBuyLoop]⟩
  | succ n ih =>
    intro o asks locs tid
    by_cases h0 : o.remaining_quantity = 0
    · rw [executeMarketBuyLoop_zero_rem _ _ _ _ _ h0]
      exact ⟨le_refl _, by simp, by simp⟩
    · cases asks with
      | nil =>
        rw [executeMarketBuyLoop_nil]
        exact ⟨le_refl _, by simp, by simp⟩
      | cons pl rest =>
        obtain ⟨p, lvl⟩ := pl
        cases lvl with
        | nil =>
          rw [executeMarketBuyLoop_empty_level n o p rest locs tid h0]
          exact ih o rest locs tid
        | cons best lvlRest =>
          by_cases hfull : (best.fill (min o.remaining_quantity best.remaining_quantity)).isFullyFilled
          · rw [executeMarketBuyLoop_step_full n o best p lvlRest rest locs tid h0 hfull]
            obtain ⟨ih1, ih2, ih3⟩ := ih (o.fill (min o.remaining_quantity best.remaining_quantity))
              (if lvlRest.isEmpty then rest else (p, lvlRest) :: rest)
              (locErase best.id locs) (tid + 1)
            refine ⟨le_trans (Nat.le_succ tid) ih1, ?_, ?_⟩
            · simp only [List.map_cons]
              refine List.pairwise_cons.mpr ⟨?_, ih2⟩
              intro y hy
              obtain ⟨t, htmem, rfl⟩ := List.mem_map.1 hy
              exact (ih3 t htmem).1
            · intro t htmem
              rcases List.mem_cons.1 htmem with rfl | htm
              · exact ⟨Nat.lt_succ_self tid, ih1⟩
              · obtain ⟨a1, a2⟩ := ih3 t htm
                exact ⟨lt_trans (Nat.lt_succ_self tid) a1, a2⟩
          · rw [executeMarketBuyLoop_step_part n o best p lvlRest rest locs tid h0 hfull]
            obtain ⟨ih1, ih2, ih3⟩ := ih (o.fill (min o.remaining_quantity best.remaining_quantity))
              ((p, best.fill (min o.remaining_quantity best.remaining_quantity) :: lvlRest) :: rest)
              locs (tid + 1)
            refine ⟨le_trans (Nat.le_succ tid) ih1, ?_, ?_⟩
            · simp only [List.map_cons]
              refine List.pairwise_cons.mpr ⟨?_, ih2⟩
              intro y hy
              obtain ⟨t, htmem, rfl⟩ := List.mem_map.1 hy
              exact (ih3 t htmem).1
            · intro t htmem
              rcases List.mem_cons.1 htmem with rfl | htm
              · exact ⟨Nat.lt_succ_self tid, ih1⟩
              · obtain ⟨a1, a2⟩ := ih3 t htm
                exact ⟨lt_trans (Nat.lt_succ_self tid) a1, a2⟩


theorem executeMarketSellLoop_tids (fuel : ℕ) :
    ∀ (o : Order) (bids : List (Price × Level)) (locs : LocMap) (tid : ℕ),
    tid ≤ (executeMarketSellLoop fuel o bids locs tid).next_tid ∧
    List.Pairwise (· < ·)
      ((executeMarketSellLoop fuel o bids locs tid).trades.map Trade.trade_id) ∧
    ∀ t ∈ (executeMarketSellLoop fuel o bids locs tid).trades,
      tid < t.trade_id ∧ t.trade_id ≤ (executeMarketSellLoop fuel o bids locs tid).next_tid := by
  induction fuel with
  | zero =>
    intro o bids locs tid
    exact ⟨le_refl _, by simp [executeMarketSellLoop], by simp [executeMarketSellLoop]⟩
  | succ n ih =>
    intro o bids locs tid
    by_cases h0 : o.remaining_quantity = 0
    · rw [executeMarketSellLoop_zero_rem _ _ _ _ _ h0]
      exact ⟨le_refl _, by simp, by simp⟩
    · cases bids with
      | nil =>
        rw [executeMarketSellLoop_nil]
        exact ⟨le_refl _, by simp, by simp⟩
      | cons pl rest =>
        obtain ⟨p, lvl⟩ := pl
        cases lvl with
        | nil =>
          rw [executeMarketSellLoop_empty_level n o p rest locs tid h0]
          exact ih o rest locs tid
        | cons best lvlRest =>
          by_cases hfull : (best.fill (min o.remaining_quantity best.remaining_quantity)).isFullyFilled
          · rw [executeMarketSellLoop_step_full n o best p lvlRest rest locs tid h0 hfull]
            obtain ⟨ih1, ih2, ih3⟩ := ih (o.fill (min o.remaining_quantity best.remaining_quantity))
              (if lvlRest.isEmpty then rest else (p, lvlRest) :: rest)
              (locErase best.id locs) (tid + 1)
            refine ⟨le_trans (Nat.le_succ tid) ih1, ?_, ?_⟩
            · simp only [List.map_cons]
              refine List.pairwise_cons.mpr ⟨?_, ih2⟩
              intro y hy
              obtain ⟨t, htmem, rfl⟩ := List.mem_map.1 hy
              exact (ih3 t htmem).1
            · intro t htmem
              rcases List.mem_cons.1 htmem with rfl | htm
              · exact ⟨Nat.lt_succ_self tid, ih1⟩
              · obtain ⟨a1, a2⟩ := ih3 t htm
                exact ⟨lt_trans (Nat.lt_succ_self tid) a1, a2⟩
          · rw [executeMarketSellLoop_step_part n o best p lvlRest rest locs tid h0 hfull]
            obtain ⟨ih1, ih2, ih3⟩ := ih (o.fill (min o.remaining_quantity best.remaining_quantity))
              ((p, best.fill (min o.remaining_quantity best.remaining_quantity) :: lvlRest) :: rest)
              locs (tid + 1)
            refine ⟨le_trans (Nat.le_succ tid) ih1, ?_, ?_⟩
            · simp only [List.map_cons]
              refine List.pairwise_cons.mpr ⟨?_, ih2⟩
              intro y hy
              obtain ⟨t, htmem, rfl⟩ := List.mem_map.1 hy
              exact (ih3 t htmem).1
            · intro t htmem
              rcases List.mem_cons.1 htmem with rfl | htm
              · exact ⟨Nat.lt_succ_self tid, ih1⟩
              · obtain ⟨a1, a2⟩ := ih3 t htm
                exact ⟨lt_trans (Nat.lt_succ_self tid) a1, a2⟩

theorem OrderBook.addToBook_next_trade_id (b : OrderBook) (o : Order) :
    (b.addToBook o).next_trade_id = b.next_trade_id := by
  by_cases h : o.isBuyOrder <;> simp [OrderBook.addToBook, h]

theorem addOrder_tids (b : OrderBook) (o : Order) :
    b.next_trade_id ≤ (b.addOrder o).2.next_trade_id ∧
    List.Pairwise (· < ·) ((b.addOrder o).1.map Trade.trade_id) ∧
    ∀ t ∈ (b.addOrder o).1,
      b.next_trade_id < t.trade_id ∧ t.trade_id ≤ (b.addOrder o).2.next_trade_id := by
  by_cases hm : o.isMarketOrder
  · cases hside : o.side with
    | BUY =>
      have hb : o.isBuyOrder = true := by simp [Order.isBuyOrder, hside]
      have hfst : (b.addOrder o).1 = (executeMarketBuyLoop (levelSize b.asks + 1) o b.asks
          b.order_locations b.next_trade_id).trades := by
        simp [OrderBook.addOrder, OrderBook.executeMarketOrder, hm, hb]
      have hsnd : (b.addOrder o).2.next_trade_id = (executeMarketBuyLoop (levelSize b.asks + 1)
          o b.asks b.order_locations b.next_trade_id).next_tid := by
        simp [OrderBook.addOrder, OrderBook.executeMarketOrder, hm, hb]
      rw [hfst, hsnd]
      exact executeMarketBuyLoop_tids _ o b.asks b.order_locations b.next_trade_id
    | SELL =>
      have hb : o.isBuyOrder = false := by simp [Order.isBuyOrder, hside]
      have hfst : (b.addOrder o).1 = (executeMarketSellLoop (levelSize b.bids + 1) o b.bids
          b.order_locations b.next_trade_id).trades := by
        simp [OrderBook.addOrder, OrderBook.executeMarketOrder, hm, hb]
      have hsnd : (b.addOrder o).2.next_trade_id = (executeMarketSellLoop (levelSize b.bids + 1)
          o b.bids b.order_locations b.next_trade_id).next_tid := by
        simp [OrderBook.addOrder, OrderBook.executeMarketOrder, hm, hb]
      rw [hfst, hsnd]
      exact executeMarketSellLoop_tids _ o b.bids b.order_locations b.next_trade_id
  · by_cases hl : o.isLimitOrder
    · cases hside : o.side with
      | BUY =>
        have hb : o.isBuyOrder = true := by simp [Order.isBuyOrder, hside]
        have hfst : (b.addOrder o).1 = (matchLimitBuyLoop (levelSize b.asks + 1) o b.asks
            b.order_locations b.next_trade_id).trades := by
          by_cases hff : (matchLimitBuyLoop (levelSize b.asks + 1) o b.asks
              b.order_locations b.next_trade_id).order.isFullyFilled <;>
            simp [OrderBook.addOrder, OrderBook.matchLimitOrder, hm, hl, hb, hff]
        have hsnd : (b.addOrder o).2.next_trade_id = (matchLimitBuyLoop (levelSize b.asks + 1)
            o b.asks b.order_locations b.next_trade_id).next_tid := by
          by_cases hff : (matchLimitBuyLoop (levelSize b.asks + 1) o b.asks
              b.order_locations b.next_trade_id).order.isFullyFilled <;>
            simp [OrderBook.addOrder, OrderBook.matchLimitOrder, hm, hl, hb, hff,
              OrderBook.addToBook_next_trade_id]
        rw [hfst, hsnd]
        exact matchLimitBuyLoop_tids _ o b.asks b.order_locations b.next_trade_id
      | SELL =>
        have hb : o.isBuyOrder = false := by simp [Order.isBuyOrder, hside]
        have hfst : (b.addOrder o).1 = (matchLimitSellLoop (levelSize b.bids + 1) o b.bids
            b.order_locations b.next_trade_id).trades := by
          by_cases hff : (matchLimitSellLoop (levelSize b.bids + 1) o b.bids
              b.order_locations b.next_trade_id).order.isFullyFilled <;>
            simp [OrderBook.addOrder, OrderBook.matchLimitOrder, hm, hl, hb, hff]
        have hsnd : (b.addOrder o).2.next_trade_id = (matchLimitSellLoop (levelSize b.bids + 1)
            o b.bids b.order_locations b.next_trade_id).next_tid := by
          by_cases hff : (matchLimitSellLoop (levelSize b.bids + 1) o b.bids
              b.order_locations b.next_trade_id).order.isFullyFilled <;>
            simp [OrderBook.addOrder, OrderBook.matchLimitOrder, hm, hl, hb, hff,
              OrderBook.addToBook_next_trade_id]
        rw [hfst, hsnd]
        exact matchLimitSellLoop_tids _ o b.bids b.order_locations b.next_trade_id
    · have : (b.addOrder o).1 = [] ∧ (b.addOrder o).2 = b := by
        simp [OrderBook.addOrder, hm, hl]
      rw [this.1, this.2]
      exact ⟨le_refl _, by simp, by simp⟩

theorem cancelOrder_next_trade_id (b : OrderBook) (i : ℕ) :
    (b.cancelOrder i).2.next_trade_id = b.next_trade_id := by
  have hrm : ∀ (p : Price) (sd : OrderSide),
      (b.removeFromPriceLevel p sd i).2.next_trade_id = b.next_trade_id := by
    intro p sd
    cases sd with
    | BUY =>
      unfold OrderBook.removeFromPriceLevel
      cases hlr : levelRemove p i b.bids <;> rfl
    | SELL =>
      unfold OrderBook.removeFromPriceLevel
      cases hlr : levelRemove p i b.asks <;> rfl
  unfold OrderBook.cancelOrder
  cases h : locFind i b.order_locations with
  | none => rfl
  | some ps => simpa using hrm ps.1 ps.2

theorem runOps_tids (ops : List BookOp) :
    ∀ b : OrderBook, (∀ op ∈ ops, op ≠ BookOp.clear) →
    b.next_trade_id ≤ (b.runOps ops).2.next_trade_id ∧
    List.Pairwise (· < ·) ((b.runOps ops).1.map Trade.trade_id) ∧
    ∀ t ∈ (b.runOps ops).1,
      b.next_trade_id < t.trade_id ∧ t.trade_id ≤ (b.runOps ops).2.next_trade_id := by
  induction ops with
  | nil =>
    intro b _
    exact ⟨le_refl _, by simp [OrderBook.runOps], by simp [OrderBook.runOps]⟩
  | cons op ops ih =>
    intro b h
    have hop := h op (List.mem_cons_self _ _)
    have hrest : ∀ x ∈ ops, x ≠ BookOp.clear := fun x hx => h x (List.mem_cons_of_mem _ hx)
    cases op with
    | add o =>
      obtain ⟨a1, a2, a3⟩ := addOrder_tids b o
      obtain ⟨r1, r2, r3⟩ := ih (b.addOrder o).2 hrest
      have hrun : b.runOps (BookOp.add o :: ops) =
          ((b.addOrder o).1 ++ ((b.addOrder o).2.runOps ops).1,
            ((b.addOrder o).2.runOps ops).2) := by
        simp [OrderBook.runOps, OrderBook.applyOp]
      rw [hrun]
      refine ⟨le_trans a1 r1, ?_, ?_⟩
      · rw [List.map_append]
        refine (List.pairwise_append).mpr ⟨a2, r2, ?_⟩
        intro x hx y hy
        obtain ⟨t1, ht1, rfl⟩ := List.mem_map.1 hx
        obtain ⟨t2, ht2, rfl⟩ := List.mem_map.1 hy
        exact lt_of_le_of_lt (a3 t1 ht1).2 (r3 t2 ht2).1
      · intro t htm
        rcases List.mem_append.1 htm with h1 | h1
        · obtain ⟨c1, c2⟩ := a3 t h1
          exact ⟨c1, le_trans c2 r1⟩
        · obtain ⟨c1, c2⟩ := r3 t h1
          exact ⟨lt_of_le_of_lt a1 c1, c2⟩
    | cancel i =>
      obtain ⟨r1, r2, r3⟩ := ih (b.cancelOrder i).2 hrest
      have hrun : b.runOps (BookOp.cancel i :: ops) =
          (((b.cancelOrder i).2.runOps ops).1, ((b.cancelOrder i).2.runOps ops).2) := by
        simp [OrderBook.runOps, OrderBook.applyOp]
      rw [hrun]
      rw [cancelOrder_next_trade_id b i] at r1 r3
      exact ⟨r1, r2, r3⟩
    | clear => exact absurd rfl hop

/-- C7 (amended): along any sequence of `add` and `cancel` operations on one
book — no `clear` — the `trade_id` values of the emitted trades are strictly
increasing in emission order.  (`clear` resets `next_trade_id_` to 0, so a
sequence containing `clear` violates the claim as frozen; see the
counterexample.) -/
theorem C7_trade_ids_strictly_increasing (b : OrderBook) (ops : List BookOp)
    (h : ∀ op ∈ ops, op ≠ BookOp.clear) :
    List.Chain' (· < ·) ((b.runOps ops).1.map Trade.trade_id) :=
  (List.chain'_iff_pairwise).mpr (runOps_tids ops b h).2.1

/-- Counterexample to C7 as frozen: a crossing pair, `clear`, then another
crossing pair emits trade ids `[1, 1]` — not strictly increasing — because
`OrderBook::clear` resets `next_trade_id_` to 0. -/
theorem C7_counterexample :
    (emptyBook.runOps opsC7bad).1.map Trade.trade_id = [1, 1] ∧
    ¬ List.Chain' (· < ·) ((emptyBook.runOps opsC7bad).1.map Trade.trade_id) := by
  constructor
  · decide
  · intro hch
    rw [show (emptyBook.runOps opsC7bad).1.map Trade.trade_id = [1, 1] from by decide] at hch
    exact absurd (List.chain'_cons.mp hch).1 (lt_irrefl 1)

/-- Witness for C7 at a concrete clear-free sequence emitting ids `[1, 2]`. -/
theorem C7_witness :
    (∀ op ∈ opsC7good, op ≠ BookOp.clear) ∧
    List.Chain' (· < ·) ((emptyBook.runOps opsC7good).1.map Trade.trade_id) ∧
    (emptyBook.runOps opsC7good).1.map Trade.trade_id = [1, 2] :=
  ⟨by decide, C7_trade_ids_strictly_increasing emptyBook opsC7good (by decide), by decide⟩

/-! ### ℕ conservation -/

theorem tradesQty_nil : tradesQty [] = 0 := rfl

theorem tradesQty_cons (t : Trade) (ts : List Trade) :
    tradesQty (t :: ts) = t.quantity + tradesQty ts := by
  simp [tradesQty]

theorem sellFills_nil (i : ℕ) : sellFills i [] = 0 := rfl

theorem sellFills_cons (i : ℕ) (t : Trade) (ts : List Trade) :
    sellFills i (t :: ts) =
      (if t.sell_order_id = i then t.quantity else 0) + sellFills i ts := by
  by_cases h : t.sell_order_id = i <;> simp [sellFills, List.filter_cons, h]

theorem buyFills_nil (i : ℕ) : buyFills i [] = 0 := rfl

theorem buyFills_cons (i : ℕ) (t : Trade) (ts : List Trade) :
    buyFills i (t :: ts) =
      (if t.buy_order_id = i then t.quantity else 0) + buyFills i ts := by
  by_cases h : t.buy_order_id = i <;> simp [buyFills, List.filter_cons, h]

theorem idLvl_nil (i : ℕ) : idLvl i [] = 0 := rfl

theorem idLvl_cons (i : ℕ) (o : Order) (lvl : Level) :
    idLvl i (o :: lvl) =
      (if o.id = i then o.remaining_quantity else 0) + idLvl i lvl := by
  by_cases h : o.id = i <;> simp [idLvl, List.filter_cons, h]

theorem idRemaining_nil (i : ℕ) : idRemaining i [] = 0 := rfl

theorem idRemaining_cons (i : ℕ) (p : Price) (lvl : Level)
    (rest : List (Price × Level)) :
    idRemaining i ((p, lvl) :: rest) = idLvl i lvl + idRemaining i rest := by
  simp [idRemaining]

theorem matchLimitBuyLoop_aggr (fuel : ℕ) :
    ∀ (o : Order) (asks : List (Price × Level)) (locs : LocMap) (tid : ℕ),
    tradesQty (matchLimitBuyLoop fuel o asks locs tid).trades +
      (matchLimitBuyLoop fuel o asks locs tid).order.remaining_quantity =
      o.remaining_quantity ∧
    ∀ t ∈ (matchLimitBuyLoop fuel o asks locs tid).trades, t.buy_order_id = o.id := by
  induction fuel with
  | zero =>
    intro o asks locs tid
    exact ⟨by simp [matchLimitBuyLoop, tradesQty_nil], by simp [matchLimitBuyLoop]⟩
  | succ n ih =>
    intro o asks locs tid
    by_cases h0 : o.remaining_quantity = 0
    · rw [matchLimitBuyLoop_zero_rem _ _ _ _ _ h0]
      exact ⟨by simp [tradesQty_nil], by simp⟩
    · cases asks with
      | nil =>
        rw [matchLimitBuyLoop_nil]
        exact ⟨by simp [tradesQty_nil], by simp⟩
      | cons pl rest =>
        obtain ⟨p, lvl⟩ := pl
        cases lvl with
        | nil =>
          rw [matchLimitBuyLoop_empty_level n o p rest locs tid h0]
          exact ih o rest locs tid
        | cons best lvlRest =>
          by_cases hcm : o.canMatchWith best
          case neg =>
            rw [matchLimitBuyLoop_break n o best p lvlRest rest locs tid h0
              (by simpa using hcm)]
            exact ⟨by simp [tradesQty_nil], by simp⟩
          case pos =>
            have hqle : min o.remaining_quantity best.remaining_quantity ≤ o.remaining_quantity :=
              min_le_left _ _
            by_cases hfull : (best.fill (min o.remaining_quantity best.remaining_quantity)).isFullyFilled
            · rw [matchLimitBuyLoop_step_full n o best p lvlRest rest locs tid h0 hcm hfull]
              obtain ⟨ih1, ih2⟩ := ih (o.fill (min o.remaining_quantity best.remaining_quantity))
                (if lvlRest.isEmpty then rest else (p, lvlRest) :: rest)
                (locErase best.id locs) (tid + 1)
              constructor
              · rw [tradesQty_cons]
                rw [Order.fill_remaining] at ih1
                simp only [createTrade]
                omega
              · intro t htm
                rcases List.mem_cons.1 htm with rfl | htm
                · rfl
                · exact ih2 t htm
            · rw [matchLimitBuyLoop_step_part n o best p lvlRest rest locs tid h0 hcm hfull]
              obtain ⟨ih1, ih2⟩ := ih (o.fill (min o.remaining_quantity best.remaining_quantity))
                ((p, best.fill (min o.remaining_quantity best.remaining_quantity) :: lvlRest) :: rest)
                locs (tid + 1)
              constructor
              · rw [tradesQty_cons]
                rw [Order.fill_remaining] at ih1
                simp only [createTrade]
                omega
              · intro t htm
                rcases List.mem_cons.1 htm with rfl | htm
                · rfl
                · exact ih2 t htm

theorem matchLimitSellLoop_aggr (fuel : ℕ) :
    ∀ (o : Order) (bids : List (Price × Level)) (locs : LocMap) (tid : ℕ),
    tradesQty (matchLimitSellLoop fuel o bids locs tid).trades +
      (matchLimitSellLoop fuel o bids locs tid).order.remaining_quantity =
      o.remaining_quantity ∧
    ∀ t ∈ (matchLimitSellLoop fuel o bids locs tid).trades, t.sell_order_id = o.id := by
  induction fuel with
  | zero =>
    intro o bids locs tid
    exact ⟨by simp [matchLimitSellLoop, tradesQty_nil], by simp [matchLimitSellLoop]⟩
  | succ n ih =>
    intro o bids locs tid
    by_cases h0 : o.remaining_quantity = 0
    · rw [matchLimitSellLoop_zero_rem _ _ _ _ _ h0]
      exact ⟨by simp [tradesQty_nil], by simp⟩
    · cases bids with
      | nil =>
        rw [matchLimitSellLoop_nil]
        exact ⟨by simp [tradesQty_nil], by simp⟩
      | cons pl rest =>
        obtain ⟨p, lvl⟩ := pl
        cases lvl with
        | nil =>
          rw [matchLimitSellLoop_empty_level n o p rest locs tid h0]
          exact ih o rest locs tid
        | cons best lvlRest =>
          by_cases hcm : o.canMatchWith best
          case neg =>
            rw [matchLimitSellLoop_break n o best p lvlRest rest locs tid h0
              (by simpa using hcm)]
            exact ⟨by simp [tradesQty_nil], by simp⟩
          case pos =>
            have hqle : min o.remaining_quantity best.remaining_quantity ≤ o.remaining_quantity :=
              min_le_left _ _
            by_cases hfull : (best.fill (min o.remaining_quantity best.remaining_quantity)).isFullyFilled
            · rw [matchLimitSellLoop_step_full n o best p lvlRest rest locs tid h0 hcm hfull]
              obtain ⟨ih1, ih2⟩ := ih (o.fill (min o.remaining_quantity best.remaining_quantity))
                (if lvlRest.isEmpty then rest else (p, lvlRest) :: rest)
                (locErase best.id locs) (tid + 1)
              constructor
              · rw [tradesQty_cons]
                rw [Order.fill_remaining] at ih1
                simp only [createTrade]
                omega
              · intro t htm
                rcases List.mem_cons.1 htm with rfl | htm
                · rfl
                · exact ih2 t htm
            · rw [matchLimitSellLoop_step_part n o best p lvlRest rest locs tid h0 hcm hfull]
              obtain ⟨ih1, ih2⟩ := ih (o.fill (min o.remaining_quantity best.remaining_quantity))
                ((p, best.fill (min o.remaining_quantity best.remaining_quantity) :: lvlRest) :: rest)
                locs (tid + 1)
              constructor
              · rw [tradesQty_cons]
                rw [Order.fill_remaining] at ih1
                simp only [createTrade]
                omega
              · intro t htm
                rcases List.mem_cons.1 htm with rfl | htm
                · rfl
                · exact ih2 t htm


theorem executeMarketBuyLoop_aggr (fuel : ℕ) :
    ∀ (o : Order) (asks : List (Price × Level)) (locs : LocMap) (tid : ℕ),
    tradesQty (executeMarketBuyLoop fuel o asks locs tid).trades +
      (executeMarketBuyLoop fuel o asks locs tid).order.remaining_quantity =
      o.remaining_quantity ∧
    ∀ t ∈ (executeMarketBuyLoop fuel o asks locs tid).trades, t.buy_order_id = o.id := by
  induction fuel with
  | zero =>
    intro o asks locs tid
    exact ⟨by simp [executeMarketBuyLoop, tradesQty_nil], by simp [executeMarketBuyLoop]⟩
  | succ n ih =>
    intro o asks locs tid
    by_cases h0 : o.remaining_quantity = 0
    · rw [executeMarketBuyLoop_zero_rem _ _ _ _ _ h0]
      exact ⟨by simp [tradesQty_nil], by simp⟩
    · cases asks with
      | nil =>
        rw [executeMarketBuyLoop_nil]
        exact ⟨by simp [tradesQty_nil], by simp⟩
      | cons pl rest =>
        obtain ⟨p, lvl⟩ := pl
        cases lvl with
        | nil =>
          rw [executeMarketBuyLoop_empty_level n o p rest locs tid h0]
          exact ih o rest locs tid
        | cons best lvlRest =>
          have hqle : min o.remaining_quantity best.remaining_quantity ≤ o.remaining_quantity :=
            min_le_left _ _
          by_cases hfull : (best.fill (min o.remaining_quantity best.remaining_quantity)).isFullyFilled
          · rw [executeMarketBuyLoop_step_full n o best p lvlRest rest locs tid h0 hfull]
            obtain ⟨ih1, ih2⟩ := ih (o.fill (min o.remaining_quantity best.remaining_quantity))
              (if lvlRest.isEmpty then rest else (p, lvlRest) :: rest)
              (locErase best.id locs) (tid + 1)
            constructor
            · rw [tradesQty_cons]
              rw [Order.fill_remaining] at ih1
              simp only [createTrade]
              omega
            · intro t htm
              rcases List.mem_cons.1 htm with rfl | htm
              · rfl
              · exact ih2 t htm
          · rw [executeMarketBuyLoop_step_part n o best p lvlRest rest locs tid h0 hfull]
            obtain ⟨ih1, ih2⟩ := ih (o.fill (min o.remaining_quantity best.remaining_quantity))
              ((p, best.fill (min o.remaining_quantity best.remaining_quantity) :: lvlRest) :: rest)
              locs (tid + 1)
            constructor
            · rw [tradesQty_cons]
              rw [Order.fill_remaining] at ih1
              simp only [createTrade]
              omega
            · intro t htm
              rcases List.mem_cons.1 htm with rfl | htm
              · rfl
              · exact ih2 t htm


theorem executeMarketSellLoop_aggr (fuel : ℕ) :
    ∀ (o : Order) (bids : List (Price × Level)) (locs : LocMap) (tid : ℕ),
    tradesQty (executeMarketSellLoop fuel o bids locs tid).trades +
      (executeMarketSellLoop fuel o bids locs tid).order.remaining_quantity =
      o.remaining_quantity ∧
    ∀ t ∈ (executeMarketSellLoop fuel o bids locs tid).trades, t.sell_order_id = o.id := by
  induction fuel with
  | zero =>
    intro o bids locs tid
    exact ⟨by simp [executeMarketSellLoop, tradesQty_nil], by simp [executeMarketSellLoop]⟩
  | succ n ih =>
    intro o bids locs tid
    by_cases h0 : o.remaining_quantity = 0
    · rw [executeMarketSellLoop_zero_rem _ _ _ _ _ h0]
      exact ⟨by simp [tradesQty_nil], by simp⟩
    · cases bids with
      | nil =>
        rw [executeMarketSellLoop_nil]
        exact ⟨by simp [tradesQty_nil], by simp⟩
      | cons pl rest =>
        obtain ⟨p, lvl⟩ := pl
        cases lvl with
        | nil =>
          rw [executeMarketSellLoop_empty_level n o p rest locs tid h0]
          exact ih o rest locs tid
        | cons best lvlRest =>
          have hqle : min o.remaining_quantity best.remaining_quantity ≤ o.remaining_quantity :=
            min_le_left _ _
          by_cases hfull : (best.fill (min o.remaining_quantity best.remaining_quantity)).isFullyFilled
          · rw [executeMarketSellLoop_step_full n o best p lvlRest rest locs tid h0 hfull]
            obtain ⟨ih1, ih2⟩ := ih (o.fill (min o.remaining_quantity best.remaining_quantity))
              (if lvlRest.isEmpty then rest else (p, lvlRest) :: rest)
              (locErase best.id locs) (tid + 1)
            constructor
            · rw [tradesQty_cons]
              rw [Order.fill_remaining] at ih1
              simp only [createTrade]
              omega
            · intro t htm
              rcases List.mem_cons.1 htm with rfl | htm
              · rfl
              · exact ih2 t htm
          · rw [executeMarketSellLoop_step_part n o best p lvlRest rest locs tid h0 hfull]
            obtain ⟨ih1, ih2⟩ := ih (o.fill (min o.remaining_quantity best.remaining_quantity))
              ((p, best.fill (min o.remaining_quantity best.remaining_quantity) :: lvlRest) :: rest)
              locs (tid + 1)
            constructor
            · rw [tradesQty_cons]
              rw [Order.fill_remaining] at ih1
              simp only [createTrade]
              omega
            · intro t htm
              rcases List.mem_cons.1 htm with rfl | htm
              · rfl
              · exact ih2 t htm

theorem idRemaining_if_isEmpty (i : ℕ) (p : Price) (lvlRest : Level)
    (rest : List (Price × Level)) :
    idRemaining i (if lvlRest.isEmpty then rest else (p, lvlRest) :: rest) =
      idLvl i lvlRest + idRemaining i rest := by
  by_cases he : lvlRest.isEmpty
  · rw [if_pos he, List.isEmpty_iff.mp he]
    simp [idLvl_nil]
  · rw [if_neg he, idRemaining_cons]

theorem matchLimitBuyLoop_passive_cons (fuel : ℕ) :
    ∀ (o : Order) (asks : List (Price × Level)) (locs : LocMap) (tid : ℕ)
      (i : ℕ),
    sellFills i (matchLimitBuyLoop fuel o asks locs tid).trades +
      idRemaining i (matchLimitBuyLoop fuel o asks locs tid).opposite =
      idRemaining i asks := by
  induction fuel with
  | zero =>
    intro o asks locs tid i
    simp [matchLimitBuyLoop, sellFills_nil]
  | succ n ih =>
    intro o asks locs tid i
    by_cases h0 : o.remaining_quantity = 0
    · rw [matchLimitBuyLoop_zero_rem _ _ _ _ _ h0]
      simp [sellFills_nil]
    · cases asks with
      | nil =>
        rw [matchLimitBuyLoop_nil]
        simp [sellFills_nil]
      | cons pl rest =>
        obtain ⟨p, lvl⟩ := pl
        cases lvl with
        | nil =>
          rw [matchLimitBuyLoop_empty_level n o p rest locs tid h0, idRemaining_cons,
            idLvl_nil]
          simpa using ih o rest locs tid i
        | cons best lvlRest =>
          by_cases hcm : o.canMatchWith best
          case neg =>
            rw [matchLimitBuyLoop_break n o best p lvlRest rest locs tid h0
              (by simpa using hcm)]
            simp [sellFills_nil]
          case pos =>
            have hmr : min o.remaining_quantity best.remaining_quantity ≤
                best.remaining_quantity := min_le_right _ _
            by_cases hfull : (best.fill (min o.remaining_quantity best.remaining_quantity)).isFullyFilled
            · rw [matchLimitBuyLoop_step_full n o best p lvlRest rest locs tid h0 hcm hfull]
              have hsub : best.remaining_quantity -
                  min o.remaining_quantity best.remaining_quantity = 0 := by
                simpa [Order.isFullyFilled, Order.fill] using hfull
              have ihs := ih (o.fill (min o.remaining_quantity best.remaining_quantity))
                (if lvlRest.isEmpty then rest else (p, lvlRest) :: rest)
                (locErase best.id locs) (tid + 1) i
              rw [idRemaining_if_isEmpty] at ihs
              simp only [sellFills_cons, createTrade, idRemaining_cons, idLvl_cons]
              set q := min o.remaining_quantity best.remaining_quantity with hq
              clear_value q
              clear hq
              by_cases hbi : best.id = i
              · rw [if_pos hbi, if_pos hbi]
                omega
              · rw [if_neg hbi, if_neg hbi]
                omega
            · rw [matchLimitBuyLoop_step_part n o best p lvlRest rest locs tid h0 hcm hfull]
              have ihs := ih (o.fill (min o.remaining_quantity best.remaining_quantity))
                ((p, best.fill (min o.remaining_quantity best.remaining_quantity) :: lvlRest) :: rest)
                locs (tid + 1) i
              rw [idRemaining_cons, idLvl_cons, Order.fill_id, Order.fill_remaining] at ihs
              simp only [sellFills_cons, createTrade, idRemaining_cons, idLvl_cons]
              set q := min o.remaining_quantity best.remaining_quantity with hq
              clear_value q
              clear hq
              by_cases hbi : best.id = i
              · rw [if_pos hbi] at ihs
                rw [if_pos hbi, if_pos hbi]
                omega
              · rw [if_neg hbi] at ihs
                rw [if_neg hbi, if_neg hbi]
                omega

theorem matchLimitSellLoop_passive_cons (fuel : ℕ) :
    ∀ (o : Order) (bids : List (Price × Level)) (locs : LocMap) (tid : ℕ)
      (i : ℕ),
    buyFills i (matchLimitSellLoop fuel o bids locs tid).trades +
      idRemaining i (matchLimitSellLoop fuel o bids locs tid).opposite =
      idRemaining i bids := by
  induction fuel with
  | zero =>
    intro o bids locs tid i
    simp [matchLimitSellLoop, buyFills_nil]
  | succ n ih =>
    intro o bids locs tid i
    by_cases h0 : o.remaining_quantity = 0
    · rw [matchLimitSellLoop_zero_rem _ _ _ _ _ h0]
      simp [buyFills_nil]
    · cases bids with
      | nil =>
        rw [matchLimitSellLoop_nil]
        simp [buyFills_nil]
      | cons pl rest =>
        obtain ⟨p, lvl⟩ := pl
        cases lvl with
        | nil =>
          rw [matchLimitSellLoop_empty_level n o p rest locs tid h0, idRemaining_cons,
            idLvl_nil]
          simpa using ih o rest locs tid i
        | cons best lvlRest =>
          by_cases hcm : o.canMatchWith best
          case neg =>
            rw [matchLimitSellLoop_break n o best p lvlRest rest locs tid h0
              (by simpa using hcm)]
            simp [buyFills_nil]
          case pos =>
            have hmr : min o.remaining_quantity best.remaining_quantity ≤
                best.remaining_quantity := min_le_right _ _
            by_cases hfull : (best.fill (min o.remaining_quantity best.remaining_quantity)).isFullyFilled
            · rw [matchLimitSellLoop_step_full n o best p lvlRest rest locs tid h0 hcm hfull]
              have hsub : best.remaining_quantity -
                  min o.remaining_quantity best.remaining_quantity = 0 := by
                simpa [Order.isFullyFilled, Order.fill] using hfull
              have ihs := ih (o.fill (min o.remaining_quantity best.remaining_quantity))
                (if lvlRest.isEmpty then rest else (p, lvlRest) :: rest)
                (locErase best.id locs) (tid + 1) i
              rw [idRemaining_if_isEmpty] at ihs
              simp only [buyFills_cons, createTrade, idRemaining_cons, idLvl_cons]
              set q := min o.remaining_quantity best.remaining_quantity with hq
              clear_value q
              clear hq
              by_cases hbi : best.id = i
              · rw [if_pos hbi, if_pos hbi]
                omega
              · rw [if_neg hbi, if_neg hbi]
                omega
            · rw [matchLimitSellLoop_step_part n o best p lvlRest rest locs tid h0 hcm hfull]
              have ihs := ih (o.fill (min o.remaining_quantity best.remaining_quantity))
                ((p, best.fill (min o.remaining_quantity best.remaining_quantity) :: lvlRest) :: rest)
                locs (tid + 1) i
              rw [idRemaining_cons, idLvl_cons, Order.fill_id, Order.fill_remaining] at ihs
              simp only [buyFills_cons, createTrade, idRemaining_cons, idLvl_cons]
              set q := min o.remaining_quantity best.remaining_quantity with hq
              clear_value q
              clear hq
              by_cases hbi : best.id = i
              · rw [if_pos hbi] at ihs
                rw [if_pos hbi, if_pos hbi]
                omega
              · rw [if_neg hbi] at ihs
                rw [if_neg hbi, if_neg hbi]
                omega


theorem executeMarketBuyLoop_passive_cons (fuel : ℕ) :
    ∀ (o : Order) (asks : List (Price × Level)) (locs : LocMap) (tid : ℕ)
      (i : ℕ),
    sellFills i (executeMarketBuyLoop fuel o asks locs tid).trades +
      idRemaining i (executeMarketBuyLoop fuel o asks locs tid).opposite =
      idRemaining i asks := by
  induction fuel with
  | zero =>
    intro o asks locs tid i
    simp [executeMarketBuyLoop, sellFills_nil]
  | succ n ih =>
    intro o asks locs tid i
    by_cases h0 : o.remaining_quantity = 0
    · rw [executeMarketBuyLoop_zero_rem _ _ _ _ _ h0]
      simp [sellFills_nil]
    · cases asks with
      | nil =>
        rw [executeMarketBuyLoop_nil]
        simp [sellFills_nil]
      | cons pl rest =>
        obtain ⟨p, lvl⟩ := pl
        cases lvl with
        | nil =>
          rw [executeMarketBuyLoop_empty_level n o p rest locs tid h0, idRemaining_cons,
            idLvl_nil]
          simpa using ih o rest locs tid i
        | cons best lvlRest =>
          have hmr : min o.remaining_quantity best.remaining_quantity ≤
              best.remaining_quantity := min_le_right _ _
          by_cases hfull : (best.fill (min o.remaining_quantity best.remaining_quantity)).isFullyFilled
          · rw [executeMarketBuyLoop_step_full n o best p lvlRest rest locs tid h0 hfull]
            have hsub : best.remaining_quantity -
                min o.remaining_quantity best.remaining_quantity = 0 := by
              simpa [Order.isFullyFilled, Order.fill] using hfull
            have ihs := ih (o.fill (min o.remaining_quantity best.remaining_quantity))
              (if lvlRest.isEmpty then rest else (p, lvlRest) :: rest)
              (locErase best.id locs) (tid + 1) i
            rw [idRemaining_if_isEmpty] at ihs
            simp only [sellFills_cons, createTrade, idRemaining_cons, idLvl_cons]
            set q := min o.remaining_quantity best.remaining_quantity with hq
            clear_value q
            clear hq
            by_cases hbi : best.id = i
            · rw [if_pos hbi, if_pos hbi]
              omega
            · rw [if_neg hbi, if_neg hbi]
              omega
          · rw [executeMarketBuyLoop_step_part n o best p lvlRest rest locs tid h0 hfull]
            have ihs := ih (o.fill (min o.remaining_quantity best.remaining_quantity))
              ((p, best.fill (min o.remaining_quantity best.remaining_quantity) :: lvlRest) :: rest)
              locs (tid + 1) i
            rw [idRemaining_cons, idLvl_cons, Order.fill_id, Order.fill_remaining] at ihs
            simp only [sellFills_cons, createTrade, idRemaining_cons, idLvl_cons]
            set q := min o.remaining_quantity best.remaining_quantity with hq
            clear_value q
            clear hq
            by_cases hbi : best.id = i
            · rw [if_pos hbi] at ihs
              rw [if_pos hbi, if_pos hbi]
              omega
            · rw [if_neg hbi] at ihs
              rw [if_neg hbi, if_neg hbi]
              omega


theorem executeMarketSellLoop_passive_cons (fuel : ℕ) :
    ∀ (o : Order) (bids : List (Price × Level)) (locs : LocMap) (tid : ℕ)
      (i : ℕ),
    buyFills i (executeMarketSellLoop fuel o bids locs tid).trades +
      idRemaining i (executeMarketSellLoop fuel o bids locs tid).opposite =
      idRemaining i bids := by
  induction fuel with
  | zero =>
    intro o bids locs tid i
    simp [executeMarketSellLoop, buyFills_nil]
  | succ n ih =>
    intro o bids locs tid i
    by_cases h0 : o.remaining_quantity = 0
    · rw [executeMarketSellLoop_zero_rem _ _ _ _ _ h0]
      simp [buyFills_nil]
    · cases bids with
      | nil =>
        rw [executeMarketSellLoop_nil]
        simp [buyFills_nil]
      | cons pl rest =>
        obtain ⟨p, lvl⟩ := pl
        cases lvl with
        | nil =>
          rw [executeMarketSellLoop_empty_level n o p rest locs tid h0, idRemaining_cons,
            idLvl_nil]
          simpa using ih o rest locs tid i
        | cons best lvlRest =>
          have hmr : min o.remaining_quantity best.remaining_quantity ≤
              best.remaining_quantity := min_le_right _ _
          by_cases hfull : (best.fill (min o.remaining_quantity best.remaining_quantity)).isFullyFilled
          · rw [executeMarketSellLoop_step_full n o best p lvlRest rest locs tid h0 hfull]
            have hsub : best.remaining_quantity -
                min o.remaining_quantity best.remaining_quantity = 0 := by
              simpa [Order.isFullyFilled, Order.fill] using hfull
            have ihs := ih (o.fill (min o.remaining_quantity best.remaining_quantity))
              (if lvlRest.isEmpty then rest else (p, lvlRest) :: rest)
              (locErase best.id locs) (tid + 1) i
            rw [idRemaining_if_isEmpty] at ihs
            simp only [buyFills_cons, createTrade, idRemaining_cons, idLvl_cons]
            set q := min o.remaining_quantity best.remaining_quantity with hq
            clear_value q
            clear hq
            by_cases hbi : best.id = i
            · rw [if_pos hbi, if_pos hbi]
              omega
            · rw [if_neg hbi, if_neg hbi]
              omega
          · rw [executeMarketSellLoop_step_part n o best p lvlRest rest locs tid h0 hfull]
            have ihs := ih (o.fill (min o.remaining_quantity best.remaining_quantity))
              ((p, best.fill (min o.remaining_quantity best.remaining_quantity) :: lvlRest) :: rest)
              locs (tid + 1) i
            rw [idRemaining_cons, idLvl_cons, Order.fill_id, Order.fill_remaining] at ihs
            simp only [buyFills_cons, createTrade, idRemaining_cons, idLvl_cons]
            set q := min o.remaining_quantity best.remaining_quantity with hq
            clear_value q
            clear hq
            by_cases hbi : best.id = i
            · rw [if_pos hbi] at ihs
              rw [if_pos hbi, if_pos hbi]
              omega
            · rw [if_neg hbi] at ihs
              rw [if_neg hbi, if_neg hbi]
              omega

theorem matchLimitBuyLoop_first (n : ℕ) (o best : Order) (p : Price)
    (lvlRest : Level) (rest : List (Price × Level)) (locs : LocMap) (tid : ℕ)
    (h0 : ¬ o.remaining_quantity = 0) (hcm : o.canMatchWith best = true) :
    (matchLimitBuyLoop (n + 1) o ((p, best :: lvlRest) :: rest) locs tid).trades.head? =
      some (createTrade o best (determineExecutionPrice o best)
        (min o.remaining_quantity best.remaining_quantity) (tid + 1)) := by
  by_cases hfull : (best.fill (min o.remaining_quantity best.remaining_quantity)).isFullyFilled
  · rw [matchLimitBuyLoop_step_full n o best p lvlRest rest locs tid h0 hcm hfull]
    rfl
  · rw [matchLimitBuyLoop_step_part n o best p lvlRest rest locs tid h0 hcm hfull]
    rfl

theorem matchLimitSellLoop_first (n : ℕ) (o best : Order) (p : Price)
    (lvlRest : Level) (rest : List (Price × Level)) (locs : LocMap) (tid : ℕ)
    (h0 : ¬ o.remaining_quantity = 0) (hcm : o.canMatchWith best = true) :
    (matchLimitSellLoop (n + 1) o ((p, best :: lvlRest) :: rest) locs tid).trades.head? =
      some (createTrade best o (determineExecutionPrice o best)
        (min o.remaining_quantity best.remaining_quantity) (tid + 1)) := by
  by_cases hfull : (best.fill (min o.remaining_quantity best.remaining_quantity)).isFullyFilled
  · rw [matchLimitSellLoop_step_full n o best p lvlRest rest locs tid h0 hcm hfull]
    rfl
  · rw [matchLimitSellLoop_step_part n o best p lvlRest rest locs tid h0 hcm hfull]
    rfl

theorem matchLimitBuyLoop_order_fields (fuel : ℕ) :
    ∀ (o : Order) (asks : List (Price × Level)) (locs : LocMap) (tid : ℕ),
    (matchLimitBuyLoop fuel o asks locs tid).order.id = o.id ∧
    (matchLimitBuyLoop fuel o asks locs tid).order.symbol = o.symbol ∧
    (matchLimitBuyLoop fuel o asks locs tid).order.side = o.side ∧
    (matchLimitBuyLoop fuel o asks locs tid).order.type = o.type ∧
    (matchLimitBuyLoop fuel o asks locs tid).order.price = o.price ∧
    (matchLimitBuyLoop fuel o asks locs tid).order.quantity = o.quantity := by
  induction fuel with
  | zero =>
    intro o asks locs tid
    exact ⟨rfl, rfl, rfl, rfl, rfl, rfl⟩
  | succ n ih =>
    intro o asks locs tid
    by_cases h0 : o.remaining_quantity = 0
    · rw [matchLimitBuyLoop_zero_rem _ _ _ _ _ h0]
      exact ⟨rfl, rfl, rfl, rfl, rfl, rfl⟩
    · cases asks with
      | nil =>
        rw [matchLimitBuyLoop_nil]
        exact ⟨rfl, rfl, rfl, rfl, rfl, rfl⟩
      | cons pl rest =>
        obtain ⟨p, lvl⟩ := pl
        cases lvl with
        | nil =>
          rw [matchLimitBuyLoop_empty_level n o p rest locs tid h0]
          exact ih o rest locs tid
        | cons best lvlRest =>
          by_cases hcm : o.canMatchWith best
          case neg =>
            rw [matchLimitBuyLoop_break n o best p lvlRest rest locs tid h0
              (by simpa using hcm)]
            exact ⟨rfl, rfl, rfl, rfl, rfl, rfl⟩
          case pos =>
            by_cases hfull : (best.fill (min o.remaining_quantity best.remaining_quantity)).isFullyFilled
            · rw [matchLimitBuyLoop_step_full n o best p lvlRest rest locs tid h0 hcm hfull]
              exact ih (o.fill (min o.remaining_quantity best.remaining_quantity))
                (if lvlRest.isEmpty then rest else (p, lvlRest) :: rest)
                (locErase best.id locs) (tid + 1)
            · rw [matchLimitBuyLoop_step_part n o best p lvlRest rest locs tid h0 hcm hfull]
              exact ih (o.fill (min o.remaining_quantity best.remaining_quantity))
                ((p, best.fill (min o.remaining_quantity best.remaining_quantity) :: lvlRest) :: rest)
                locs (tid + 1)

theorem matchLimitSellLoop_order_fields (fuel : ℕ) :
    ∀ (o : Order) (bids : List (Price × Level)) (locs : LocMap) (tid : ℕ),
    (matchLimitSellLoop fuel o bids locs tid).order.id = o.id ∧
    (matchLimitSellLoop fuel o bids locs tid).order.symbol = o.symbol ∧
    (matchLimitSellLoop fuel o bids locs tid).order.side = o.side ∧
    (matchLimitSellLoop fuel o bids locs tid).order.type = o.type ∧
    (matchLimitSellLoop fuel o bids locs tid).order.price = o.price ∧
    (matchLimitSellLoop fuel o bids locs tid).order.quantity = o.quantity := by
  induction fuel with
  | zero =>
    intro o bids locs tid
    exact ⟨rfl, rfl, rfl, rfl, rfl, rfl⟩
  | succ n ih =>
    intro o bids locs tid
    by_cases h0 : o.remaining_quantity = 0
    · rw [matchLimitSellLoop_zero_rem _ _ _ _ _ h0]
      exact ⟨rfl, rfl, rfl, rfl, rfl, rfl⟩
    · cases bids with
      | nil =>
        rw [matchLimitSellLoop_nil]
        exact ⟨rfl, rfl, rfl, rfl, rfl, rfl⟩
      | cons pl rest =>
        obtain ⟨p, lvl⟩ := pl
        cases lvl with
        | nil =>
          rw [matchLimitSellLoop_empty_level n o p rest locs tid h0]
          exact ih o rest locs tid
        | cons best lvlRest =>
          by_cases hcm : o.canMatchWith best
          case neg =>
            rw [matchLimitSellLoop_break n o best p lvlRest rest locs tid h0
              (by simpa using hcm)]
            exact ⟨rfl, rfl, rfl, rfl, rfl, rfl⟩
          case pos =>
            by_cases hfull : (best.fill (min o.remaining_quantity best.remaining_quantity)).isFullyFilled
            · rw [matchLimitSellLoop_step_full n o best p lvlRest rest locs tid h0 hcm hfull]
              exact ih (o.fill (min o.remaining_quantity best.remaining_quantity))
                (if lvlRest.isEmpty then rest else (p, lvlRest) :: rest)
                (locErase best.id locs) (tid + 1)
            · rw [matchLimitSellLoop_step_part n o best p lvlRest rest locs tid h0 hcm hfull]
              exact ih (o.fill (min o.remaining_quantity best.remaining_quantity))
                ((p, best.fill (min o.remaining_quantity best.remaining_quantity) :: lvlRest) :: rest)
                locs (tid + 1)

theorem addToBook_asks_of_buy (b : OrderBook) (o : Order)
    (hb : o.isBuyOrder = true) : (b.addToBook o).asks = b.asks := by
  simp [OrderBook.addToBook, hb]

theorem addToBook_bids_of_sell (b : OrderBook) (o : Order)
    (hb : o.isBuyOrder = false) : (b.addToBook o).bids = b.bids := by
  simp [OrderBook.addToBook, hb]

/-- C4: quantity conservation.
Part 1 (incoming order): for a fresh order (`remaining == quantity`), the
total quantity of the trades the matching loops emit plus the order's final
remaining equals its initial quantity, and every such trade references the
order's id on its side.
Parts 2-3 (resting orders): for every id `i`, the quantity filled against `i`
on the passive side by one `addOrder` plus the remaining quantity still
resting under `i` afterwards equals the quantity resting under `i` before —
so each match decrements the passive order by exactly the traded quantity.
Parts 4-5: the first match of a limit order fills by exactly
`min(incoming.remaining, resting.remaining)` (head of the best opposite
level, which also fixes the trade's price and id); by induction the same holds
at every later match of the loop, whose state is again of this shape. -/
theorem C4_quantity_conservation :
    (∀ (b : OrderBook) (o : Order), o.remaining_quantity = o.quantity →
      tradesQty (b.matchLimitOrder o).1 +
          (b.matchLimitOrder o).2.1.remaining_quantity = o.quantity ∧
      tradesQty (b.executeMarketOrder o).1 +
          (b.executeMarketOrder o).2.1.remaining_quantity = o.quantity ∧
      (∀ t ∈ (b.matchLimitOrder o).1, t.aggressorOrderId o.side = o.id) ∧
      (∀ t ∈ (b.executeMarketOrder o).1, t.aggressorOrderId o.side = o.id)) ∧
    (∀ (b : OrderBook) (o : Order) (i : ℕ), o.side = OrderSide.BUY →
      sellFills i (b.addOrder o).1 + idRemaining i (b.addOrder o).2.asks =
        idRemaining i b.asks) ∧
    (∀ (b : OrderBook) (o : Order) (i : ℕ), o.side = OrderSide.SELL →
      buyFills i (b.addOrder o).1 + idRemaining i (b.addOrder o).2.bids =
        idRemaining i b.bids) ∧
    (∀ (b : OrderBook) (o best : Order) (p : Price) (lvlRest : Level)
        (rest : List (Price × Level)),
      o.side = OrderSide.BUY → ¬ o.remaining_quantity = 0 →
      b.asks = (p, best :: lvlRest) :: rest → o.canMatchWith best = true →
      ((b.matchLimitOrder o).1).head? =
        some (createTrade o best (determineExecutionPrice o best)
          (min o.remaining_quantity best.remaining_quantity) (b.next_trade_id + 1))) ∧
    (∀ (b : OrderBook) (o best : Order) (p : Price) (lvlRest : Level)
        (rest : List (Price × Level)),
      o.side = OrderSide.SELL → ¬ o.remaining_quantity = 0 →
      b.bids = (p, best :: lvlRest) :: rest → o.canMatchWith best = true →
      ((b.matchLimitOrder o).1).head? =
        some (createTrade best o (determineExecutionPrice o best)
          (min o.remaining_quantity best.remaining_quantity) (b.next_trade_id + 1))) := by
  refine ⟨?_, ?_, ?_, ?_, ?_⟩
  · intro b o hro
    cases hside : o.side with
    | BUY =>
      have hb : o.isBuyOrder = true := by simp [Order.isBuyOrder, hside]
      have e1 : (b.matchLimitOrder o).1 = (matchLimitBuyLoop (levelSize b.asks + 1) o b.asks
          b.order_locations b.next_trade_id).trades := by
        simp [OrderBook.matchLimitOrder, hb]
      have e2 : (b.matchLimitOrder o).2.1 = (matchLimitBuyLoop (levelSize b.asks + 1) o b.asks
          b.order_locations b.next_trade_id).order := by
        simp [OrderBook.matchLimitOrder, hb]
      have e3 : (b.executeMarketOrder o).1 = (executeMarketBuyLoop (levelSize b.asks + 1) o b.asks
          b.order_locations b.next_trade_id).trades := by
        simp [OrderBook.executeMarketOrder, hb]
      have e4 : (b.executeMarketOrder o).2.1 = (executeMarketBuyLoop (levelSize b.asks + 1) o b.asks
          b.order_locations b.next_trade_id).order := by
        simp [OrderBook.executeMarketOrder, hb]
      rw [e1, e2, e3, e4, ← hro]
      obtain ⟨l1, l2⟩ := matchLimitBuyLoop_aggr (levelSize b.asks + 1) o b.asks
        b.order_locations b.next_trade_id
      obtain ⟨m1, m2⟩ := executeMarketBuyLoop_aggr (levelSize b.asks + 1) o b.asks
        b.order_locations b.next_trade_id
      exact ⟨l1, m1, fun t ht => l2 t ht, fun t ht => m2 t ht⟩
    | SELL =>
      have hb : o.isBuyOrder = false := by simp [Order.isBuyOrder, hside]
      have e1 : (b.matchLimitOrder o).1 = (matchLimitSellLoop (levelSize b.bids + 1) o b.bids
          b.order_locations b.next_trade_id).trades := by
        simp [OrderBook.matchLimitOrder, hb]
      have e2 : (b.matchLimitOrder o).2.1 = (matchLimitSellLoop (levelSize b.bids + 1) o b.bids
          b.order_locations b.next_trade_id).order := by
        simp [OrderBook.matchLimitOrder, hb]
      have e3 : (b.executeMarketOrder o).1 = (executeMarketSellLoop (levelSize b.bids + 1) o b.bids
          b.order_locations b.next_trade_id).trades := by
        simp [OrderBook.executeMarketOrder, hb]
      have e4 : (b.executeMarketOrder o).2.1 = (executeMarketSellLoop (levelSize b.bids + 1) o b.bids
          b.order_locations b.next_trade_id).order := by
        simp [OrderBook.executeMarketOrder, hb]
      rw [e1, e2, e3, e4, ← hro]
      obtain ⟨l1, l2⟩ := matchLimitSellLoop_aggr (levelSize b.bids + 1) o b.bids
        b.order_locations b.next_trade_id
      obtain ⟨m1, m2⟩ := executeMarketSellLoop_aggr (levelSize b.bids + 1) o b.bids
        b.order_locations b.next_trade_id
      exact ⟨l1, m1, fun t ht => l2 t ht, fun t ht => m2 t ht⟩
  · intro b o i hside
    have hb : o.isBuyOrder = true := by simp [Order.isBuyOrder, hside]
    by_cases hm : o.isMarketOrder
    · have hfst : (b.addOrder o).1 = (executeMarketBuyLoop (levelSize b.asks + 1) o b.asks
          b.order_locations b.next_trade_id).trades := by
        simp [OrderBook.addOrder, OrderBook.executeMarketOrder, hm, hb]
      have hasks : (b.addOrder o).2.asks = (executeMarketBuyLoop (levelSize b.asks + 1) o b.asks
          b.order_locations b.next_trade_id).opposite := by
        simp [OrderBook.addOrder, OrderBook.executeMarketOrder, hm, hb]
      rw [hfst, hasks]
      exact executeMarketBuyLoop_passive_cons _ o b.asks b.order_locations b.next_trade_id i
    · have hl : o.isLimitOrder = true := by
        cases htype : o.type <;>
          simp [Order.isMarketOrder, Order.isLimitOrder, htype] at hm ⊢
      have hsideord : (matchLimitBuyLoop (levelSize b.asks + 1) o b.asks
          b.order_locations b.next_trade_id).order.isBuyOrder = true := by
        have := (matchLimitBuyLoop_order_fields (levelSize b.asks + 1) o b.asks
          b.order_locations b.next_trade_id).2.2.1
        simp [Order.isBuyOrder, this, hside]
      have hfst : (b.addOrder o).1 = (matchLimitBuyLoop (levelSize b.asks + 1) o b.asks
          b.order_locations b.next_trade_id).trades := by
        by_cases hff : (matchLimitBuyLoop (levelSize b.asks + 1) o b.asks
            b.order_locations b.next_trade_id).order.isFullyFilled <;>
          simp [OrderBook.addOrder, OrderBook.matchLimitOrder, hm, hl, hb, hff]
      have hasks : (b.addOrder o).2.asks = (matchLimitBuyLoop (levelSize b.asks + 1) o b.asks
          b.order_locations b.next_trade_id).opposite := by
        by_cases hff : (matchLimitBuyLoop (levelSize b.asks + 1) o b.asks
            b.order_locations b.next_trade_id).order.isFullyFilled <;>
          simp [OrderBook.addOrder, OrderBook.matchLimitOrder, hm, hl, hb, hff,
            addToBook_asks_of_buy _ _ hsideord]
      rw [hfst, hasks]
      exact matchLimitBuyLoop_passive_cons _ o b.asks b.order_locations b.next_trade_id i
  · intro b o i hside
    have hb : o.isBuyOrder = false := by simp [Order.isBuyOrder, hside]
    by_cases hm : o.isMarketOrder
    · have hfst : (b.addOrder o).1 = (executeMarketSellLoop (levelSize b.bids + 1) o b.bids
          b.order_locations b.next_trade_id).trades := by
        simp [OrderBook.addOrder, OrderBook.executeMarketOrder, hm, hb]
      have hbids : (b.addOrder o).2.bids = (executeMarketSellLoop (levelSize b.bids + 1) o b.bids
          b.order_locations b.next_trade_id).opposite := by
        simp [OrderBook.addOrder, OrderBook.executeMarketOrder, hm, hb]
      rw [hfst, hbids]
      exact executeMarketSellLoop_passive_cons _ o b.bids b.order_locations b.next_trade_id i
    · have hl : o.isLimitOrder = true := by
        cases htype : o.type <;>
          simp [Order.isMarketOrder, Order.isLimitOrder, htype] at hm ⊢
      have hsideord : (matchLimitSellLoop (levelSize b.bids + 1) o b.bids
          b.order_locations b.next_trade_id).order.isBuyOrder = false := by
        have := (matchLimitSellLoop_order_fields (levelSize b.bids + 1) o b.bids
          b.order_locations b.next_trade_id).2.2.1
        simp [Order.isBuyOrder, this, hside]
      have hfst : (b.addOrder o).1 = (matchLimitSellLoop (levelSize b.bids + 1) o b.bids
          b.order_locations b.next_trade_id).trades := by
        by_cases hff : (matchLimitSellLoop (levelSize b.bids + 1) o b.bids
            b.order_locations b.next_trade_id).order.isFullyFilled <;>
          simp [OrderBook.addOrder, OrderBook.matchLimitOrder, hm, hl, hb, hff]
      have hbids : (b.addOrder o).2.bids = (matchLimitSellLoop (levelSize b.bids + 1) o b.bids
          b.order_locations b.next_trade_id).opposite := by
        by_cases hff : (matchLimitSellLoop (levelSize b.bids + 1) o b.bids
            b.order_locations b.next_trade_id).order.isFullyFilled <;>
          simp [OrderBook.addOrder, OrderBook.matchLimitOrder, hm, hl, hb, hff,
            addToBook_bids_of_sell _ _ hsideord]
      rw [hfst, hbids]
      exact matchLimitSellLoop_passive_cons _ o b.bids b.order_locations b.next_trade_id i
  · intro b o best p lvlRest rest hside h0 hshape hcm
    have hb : o.isBuyOrder = true := by simp [Order.isBuyOrder, hside]
    have e1 : (b.matchLimitOrder o).1 = (matchLimitBuyLoop (levelSize b.asks + 1) o b.asks
        b.order_locations b.next_trade_id).trades := by
      simp [OrderBook.matchLimitOrder, hb]
    rw [e1, hshape]
    exact matchLimitBuyLoop_first _ o best p lvlRest rest _ _ h0 hcm
  · intro b o best p lvlRest rest hside h0 hshape hcm
    have hb : o.isBuyOrder = false := by simp [Order.isBuyOrder, hside]
    have e1 : (b.matchLimitOrder o).1 = (matchLimitSellLoop (levelSize b.bids + 1) o b.bids
        b.order_locations b.next_trade_id).trades := by
      simp [OrderBook.matchLimitOrder, hb]
    rw [e1, hshape]
    exact matchLimitSellLoop_first _ o best p lvlRest rest _ _ h0 hcm

/-- Witness for C4 at a concrete book (ask id 7 at 100 x5, bid id 3 at 90 x4):
conservation for an incoming crossing buy, passive conservation for both
resting ids, and the min-fill first trades on both sides. -/
theorem C4_witness :
    (tradesQty (bookC4.matchLimitOrder orderC4buy).1 +
        (bookC4.matchLimitOrder orderC4buy).2.1.remaining_quantity = orderC4buy.quantity ∧
      tradesQty (bookC4.executeMarketOrder orderC4buy).1 +
        (bookC4.executeMarketOrder orderC4buy).2.1.remaining_quantity = orderC4buy.quantity ∧
      (∀ t ∈ (bookC4.matchLimitOrder orderC4buy).1,
        t.aggressorOrderId orderC4buy.side = orderC4buy.id) ∧
      (∀ t ∈ (bookC4.executeMarketOrder orderC4buy).1,
        t.aggressorOrderId orderC4buy.side = orderC4buy.id)) ∧
    (sellFills 7 (bookC4.addOrder orderC4buy).1 +
        idRemaining 7 (bookC4.addOrder orderC4buy).2.asks = idRemaining 7 bookC4.asks) ∧
    (buyFills 3 (bookC4.addOrder orderC4sell).1 +
        idRemaining 3 (bookC4.addOrder orderC4sell).2.bids = idRemaining 3 bookC4.bids) ∧
    ((bookC4.matchLimitOrder orderC4buy).1).head? =
      some (createTrade orderC4buy restingC4ask
        (determineExecutionPrice orderC4buy restingC4ask)
        (min orderC4buy.remaining_quantity restingC4ask.remaining_quantity)
        (bookC4.next_trade_id + 1)) ∧
    ((bookC4.matchLimitOrder orderC4sell).1).head? =
      some (createTrade restingC4bid orderC4sell
        (determineExecutionPrice orderC4sell restingC4bid)
        (min orderC4sell.remaining_quantity restingC4bid.remaining_quantity)
        (bookC4.next_trade_id + 1)) :=
  ⟨C4_quantity_conservation.1 bookC4 orderC4buy rfl,
    C4_quantity_conservation.2.1 bookC4 orderC4buy 7 rfl,
    C4_quantity_conservation.2.2.1 bookC4 orderC4sell 3 rfl,
    C4_quantity_conservation.2.2.2.1 bookC4 orderC4buy restingC4ask 100 [] [] rfl
      (by decide) (by decide) (by decide),
    C4_quantity_conservation.2.2.2.2 bookC4 orderC4sell restingC4bid 90 [] [] rfl
      (by decide) (by decide) (by decide)⟩

/-! ### FIFO: head consumption and tail insertion -/

theorem executeMarketBuyLoop_first (n : ℕ) (o best : Order) (p : Price)
    (lvlRest : Level) (rest : List (Price × Level)) (locs : LocMap) (tid : ℕ)
    (h0 : ¬ o.remaining_quantity = 0) :
    (executeMarketBuyLoop (n + 1) o ((p, best :: lvlRest) :: rest) locs tid).trades.head? =
      some (createTrade o best (determineExecutionPrice o best)
        (min o.remaining_quantity best.remaining_quantity) (tid + 1)) := by
  by_cases hfull : (best.fill (min o.remaining_quantity best.remaining_quantity)).isFullyFilled
  · rw [executeMarketBuyLoop_step_full n o best p lvlRest rest locs tid h0 hfull]
    rfl
  · rw [executeMarketBuyLoop_step_part n o best p lvlRest rest locs tid h0 hfull]
    rfl

theorem executeMarketSellLoop_first (n : ℕ) (o best : Order) (p : Price)
    (lvlRest : Level) (rest : List (Price × Level)) (locs : LocMap) (tid : ℕ)
    (h0 : ¬ o.remaining_quantity = 0) :
    (executeMarketSellLoop (n + 1) o ((p, best :: lvlRest) :: rest) locs tid).trades.head? =
      some (createTrade best o (determineExecutionPrice o best)
        (min o.remaining_quantity best.remaining_quantity) (tid + 1)) := by
  by_cases hfull : (best.fill (min o.remaining_quantity best.remaining_quantity)).isFullyFilled
  · rw [executeMarketSellLoop_step_full n o best p lvlRest rest locs tid h0 hfull]
    rfl
  · rw [executeMarketSellLoop_step_part n o best p lvlRest rest locs tid h0 hfull]
    rfl

theorem levelOf_nil (p : Price) : levelOf p [] = [] := rfl

theorem levelOf_cons (p q : Price) (lvl : Level) (rest : List (Price × Level)) :
    levelOf p ((q, lvl) :: rest) = if q = p then lvl else levelOf p rest := by
  by_cases h : q = p
  · simp [levelOf, List.find?_cons_of_pos, h]
  · simp [levelOf, List.find?_cons_of_neg, h]

theorem levelOf_eq_nil_of_ne (p : Price) (ls : List (Price × Level))
    (h : ∀ k ∈ ls.map Prod.fst, ¬ k = p) : levelOf p ls = [] := by
  induction ls with
  | nil => rfl
  | cons e rest ih =>
    obtain ⟨q, lvl⟩ := e
    rw [levelOf_cons, if_neg (h q (by simp))]
    exact ih (fun k hk => h k (by simp [hk]))

theorem head_min_of_sorted_asc (p : Price) (ks : List Price)
    (hs : List.Chain' (· < ·) (p :: ks)) : ∀ k ∈ p :: ks, p ≤ k := by
  intro k hk
  rcases List.mem_cons.1 hk with rfl | hk
  · exact le_refl _
  · exact le_of_lt ((List.pairwise_cons.1 (List.chain'_iff_pairwise.mp hs)).1 k hk)

theorem head_max_of_sorted_desc (p : Price) (ks : List Price)
    (hs : List.Chain' (· > ·) (p :: ks)) : ∀ k ∈ p :: ks, k ≤ p := by
  intro k hk
  rcases List.mem_cons.1 hk with rfl | hk
  · exact le_refl _
  · exact le_of_lt ((List.pairwise_cons.1 (List.chain'_iff_pairwise.mp hs)).1 k hk)

theorem levelOf_bidsInsert (p : Price) (o : Order) :
    ∀ (ls : List (Price × Level)), List.Chain' (· > ·) (ls.map Prod.fst) →
    levelOf p (bidsInsert p o ls) = levelOf p ls ++ [o] := by
  intro ls
  induction ls with
  | nil =>
    intro _
    simp [bidsInsert, levelOf_cons, levelOf_nil]
  | cons e rest ih =>
    intro hs
    obtain ⟨q, lvl⟩ := e
    rw [List.map_cons] at hs
    by_cases hpq : p = q
    · subst hpq
      simp [bidsInsert, levelOf_cons]
    · by_cases hgt : p > q
      · have hnone : levelOf p rest = [] := by
          apply levelOf_eq_nil_of_ne
          intro k hk hkp
          subst hkp
          have hqk := (List.pairwise_cons.1 (List.chain'_iff_pairwise.mp hs)).1 k hk
          exact absurd (lt_trans hqk hgt) (lt_irrefl _)
        simp only [bidsInsert, if_neg hpq, if_pos hgt]
        rw [levelOf_cons, if_pos rfl, levelOf_cons, if_neg (fun h => hpq h.symm), hnone]
        rfl
      · simp only [bidsInsert, if_neg hpq, if_neg hgt]
        rw [levelOf_cons, if_neg (fun h => hpq h.symm),
          levelOf_cons, if_neg (fun h => hpq h.symm)]
        exact ih (List.chain'_cons'.mp hs).2

theorem levelOf_asksInsert (p : Price) (o : Order) :
    ∀ (ls : List (Price × Level)), List.Chain' (· < ·) (ls.map Prod.fst) →
    levelOf p (asksInsert p o ls) = levelOf p ls ++ [o] := by
  intro ls
  induction ls with
  | nil =>
    intro _
    simp [asksInsert, levelOf_cons, levelOf_nil]
  | cons e rest ih =>
    intro hs
    obtain ⟨q, lvl⟩ := e
    rw [List.map_cons] at hs
    by_cases hpq : p = q
    · subst hpq
      simp [asksInsert, levelOf_cons]
    · by_cases hlt : p < q
      · have hnone : levelOf p rest = [] := by
          apply levelOf_eq_nil_of_ne
          intro k hk hkp
          subst hkp
          have hqk := (List.pairwise_cons.1 (List.chain'_iff_pairwise.mp hs)).1 k hk
          exact absurd (lt_trans hlt hqk) (lt_irrefl _)
        simp only [asksInsert, if_neg hpq, if_pos hlt]
        rw [levelOf_cons, if_pos rfl, levelOf_cons, if_neg (fun h => hpq h.symm), hnone]
        rfl
      · simp only [asksInsert, if_neg hpq, if_neg hlt]
        rw [levelOf_cons, if_neg (fun h => hpq h.symm),
          levelOf_cons, if_neg (fun h => hpq h.symm)]
        exact ih (List.chain'_cons'.mp hs).2

theorem keysOf_cons (p : Price) (lvl : Level) (rest : List (Price × Level)) :
    keysOf ((p, lvl) :: rest) = p :: keysOf rest := rfl

/-- C6: price-time priority, as the code implements it.
Head consumption (parts 1-2): when the opposite side's first level — the best
one, since its key bounds every key of the sorted side, as the first conjunct
states — has queue `best :: lvlRest`, the first trade of a limit match (when
`best` crosses) and of a market execution consumes exactly `best`, the head
of that queue, for `min` of the two remainders.  By induction every later
match of the loop is again of this shape, so every matching step consumes a
queue head at the then-best level.
Tail insertion (parts 3-4): a limit remainder that rests is appended at the
tail of the queue at its own price.  Together these give strict FIFO within a
price level: earlier arrivals sit closer to the head and are consumed first;
there is no pro-rata allocation. -/
theorem C6_fifo_price_time_priority :
    (∀ (b : OrderBook) (o best : Order) (p : Price) (lvlRest : Level)
        (rest : List (Price × Level)),
      o.side = OrderSide.BUY → ¬ o.remaining_quantity = 0 →
      b.asks = (p, best :: lvlRest) :: rest →
      List.Chain' (· < ·) (keysOf b.asks) →
      (∀ k ∈ keysOf b.asks, p ≤ k) ∧
      (o.canMatchWith best = true →
        ((b.matchLimitOrder o).1).head? = some (createTrade o best
          (determineExecutionPrice o best)
          (min o.remaining_quantity best.remaining_quantity) (b.next_trade_id + 1))) ∧
      ((b.executeMarketOrder o).1).head? = some (createTrade o best
        (determineExecutionPrice o best)
        (min o.remaining_quantity best.remaining_quantity) (b.next_trade_id + 1))) ∧
    (∀ (b : OrderBook) (o best : Order) (p : Price) (lvlRest : Level)
        (rest : List (Price × Level)),
      o.side = OrderSide.SELL → ¬ o.remaining_quantity = 0 →
      b.bids = (p, best :: lvlRest) :: rest →
      List.Chain' (· > ·) (keysOf b.bids) →
      (∀ k ∈ keysOf b.bids, k ≤ p) ∧
      (o.canMatchWith best = true →
        ((b.matchLimitOrder o).1).head? = some (createTrade best o
          (determineExecutionPrice o best)
          (min o.remaining_quantity best.remaining_quantity) (b.next_trade_id + 1))) ∧
      ((b.executeMarketOrder o).1).head? = some (createTrade best o
        (determineExecutionPrice o best)
        (min o.remaining_quantity best.remaining_quantity) (b.next_trade_id + 1))) ∧
    (∀ (b : OrderBook) (o : Order),
      o.side = OrderSide.BUY → o.type = OrderType.LIMIT →
      (b.matchLimitOrder o).2.1.isFullyFilled = false →
      List.Chain' (· > ·) (keysOf b.bids) →
      levelOf o.price (b.addOrder o).2.bids =
        levelOf o.price b.bids ++ [(b.matchLimitOrder o).2.1]) ∧
    (∀ (b : OrderBook) (o : Order),
      o.side = OrderSide.SELL → o.type = OrderType.LIMIT →
      (b.matchLimitOrder o).2.1.isFullyFilled = false →
      List.Chain' (· < ·) (keysOf b.asks) →
      levelOf o.price (b.addOrder o).2.asks =
        levelOf o.price b.asks ++ [(b.matchLimitOrder o).2.1]) := by
  refine ⟨?_, ?_, ?_, ?_⟩
  · intro b o best p lvlRest rest hside h0 hshape hsorted
    have hb : o.isBuyOrder = true := by simp [Order.isBuyOrder, hside]
    rw [hshape, keysOf_cons] at hsorted
    refine ⟨?_, ?_, ?_⟩
    · rw [hshape, keysOf_cons]
      exact head_min_of_sorted_asc p _ hsorted
    · intro hcm
      have e1 : (b.matchLimitOrder o).1 = (matchLimitBuyLoop (levelSize b.asks + 1) o b.asks
          b.order_locations b.next_trade_id).trades := by
        simp [OrderBook.matchLimitOrder, hb]
      rw [e1, hshape]
      exact matchLimitBuyLoop_first _ o best p lvlRest rest _ _ h0 hcm
    · have e3 : (b.executeMarketOrder o).1 = (executeMarketBuyLoop (levelSize b.asks + 1) o b.asks
          b.order_locations b.next_trade_id).trades := by
        simp [OrderBook.executeMarketOrder, hb]
      rw [e3, hshape]
      exact executeMarketBuyLoop_first _ o best p lvlRest rest _ _ h0
  · intro b o best p lvlRest rest hside h0 hshape hsorted
    have hb : o.isBuyOrder = false := by simp [Order.isBuyOrder, hside]
    rw [hshape, keysOf_cons] at hsorted
    refine ⟨?_, ?_, ?_⟩
    · rw [hshape, keysOf_cons]
      exact head_max_of_sorted_desc p _ hsorted
    · intro hcm
      have e1 : (b.matchLimitOrder o).1 = (matchLimitSellLoop (levelSize b.bids + 1) o b.bids
          b.order_locations b.next_trade_id).trades := by
        simp [OrderBook.matchLimitOrder, hb]
      rw [e1, hshape]
      exact matchLimitSellLoop_first _ o best p lvlRest rest _ _ h0 hcm
    · have e3 : (b.executeMarketOrder o).1 = (executeMarketSellLoop (levelSize b.bids + 1) o b.bids
          b.order_locations b.next_trade_id).trades := by
        simp [OrderBook.executeMarketOrder, hb]
      rw [e3, hshape]
      exact executeMarketSellLoop_first _ o best p lvlRest rest _ _ h0
  · intro b o hside htype hnff hsorted
    have hb : o.isBuyOrder = true := by simp [Order.isBuyOrder, hside]
    have hm : o.isMarketOrder = false := by simp [Order.isMarketOrder, htype]
    have hl : o.isLimitOrder = true := by simp [Order.isLimitOrder, htype]
    have hadd : (b.addOrder o).2 =
        ((b.matchLimitOrder o).2.2).addToBook ((b.matchLimitOrder o).2.1) := by
      simp [OrderBook.addOrder, hm, hl, hnff]
    have e2 : (b.matchLimitOrder o).2.1 = (matchLimitBuyLoop (levelSize b.asks + 1) o b.asks
        b.order_locations b.next_trade_id).order := by
      simp [OrderBook.matchLimitOrder, hb]
    have ebids : (b.matchLimitOrder o).2.2.bids = b.bids := by
      simp [OrderBook.matchLimitOrder, hb]
    have hsd : ((b.matchLimitOrder o).2.1).side = OrderSide.BUY := by
      rw [e2, (matchLimitBuyLoop_order_fields (levelSize b.asks + 1) o b.asks
        b.order_locations b.next_trade_id).2.2.1, hside]
    have hpr : ((b.matchLimitOrder o).2.1).price = o.price := by
      rw [e2]
      exact (matchLimitBuyLoop_order_fields (levelSize b.asks + 1) o b.asks
        b.order_locations b.next_trade_id).2.2.2.2.1
    have hbord : ((b.matchLimitOrder o).2.1).isBuyOrder = true := by
      simp [Order.isBuyOrder, hsd]
    have hins : (((b.matchLimitOrder o).2.2).addToBook ((b.matchLimitOrder o).2.1)).bids =
        bidsInsert ((b.matchLimitOrder o).2.1).price ((b.matchLimitOrder o).2.1) b.bids := by
      simp [OrderBook.addToBook, hbord, ebids]
    rw [hadd, hins, hpr]
    exact levelOf_bidsInsert o.price _ b.bids hsorted
  · intro b o hside htype hnff hsorted
    have hb : o.isBuyOrder = false := by simp [Order.isBuyOrder, hside]
    have hm : o.isMarketOrder = false := by simp [Order.isMarketOrder, htype]
    have hl : o.isLimitOrder = true := by simp [Order.isLimitOrder, htype]
    have hadd : (b.addOrder o).2 =
        ((b.matchLimitOrder o).2.2).addToBook ((b.matchLimitOrder o).2.1) := by
      simp [OrderBook.addOrder, hm, hl, hnff]
    have e2 : (b.matchLimitOrder o).2.1 = (matchLimitSellLoop (levelSize b.bids + 1) o b.bids
        b.order_locations b.next_trade_id).order := by
      simp [OrderBook.matchLimitOrder, hb]
    have easks : (b.matchLimitOrder o).2.2.asks = b.asks := by
      simp [OrderBook.matchLimitOrder, hb]
    have hsd : ((b.matchLimitOrder o).2.1).side = OrderSide.SELL := by
      rw [e2, (matchLimitSellLoop_order_fields (levelSize b.bids + 1) o b.bids
        b.order_locations b.next_trade_id).2.2.1, hside]
    have hpr : ((b.matchLimitOrder o).2.1).price = o.price := by
      rw [e2]
      exact (matchLimitSellLoop_order_fields (levelSize b.bids + 1) o b.bids
        b.order_locations b.next_trade_id).2.2.2.2.1
    have hbord : ((b.matchLimitOrder o).2.1).isBuyOrder = false := by
      simp [Order.isBuyOrder, hsd]
    have hins : (((b.matchLimitOrder o).2.2).addToBook ((b.matchLimitOrder o).2.1)).asks =
        asksInsert ((b.matchLimitOrder o).2.1).price ((b.matchLimitOrder o).2.1) b.asks := by
      simp [OrderBook.addToBook, hbord, easks]
    rw [hadd, hins, hpr]
    exact levelOf_asksInsert o.price _ b.asks hsorted

/-- Witness for C6 on a concrete book with two asks queued at one level:
the crossing buy's first trade consumes the earlier arrival (the queue
head), and a non-crossing buy is appended at the tail of the existing
bid queue at its price. -/
theorem C6_witness :
    ((bookC6.matchLimitOrder orderC6buy).1).head? = some (createTrade orderC6buy restingC6a
      (determineExecutionPrice orderC6buy restingC6a)
      (min orderC6buy.remaining_quantity restingC6a.remaining_quantity)
      (bookC6.next_trade_id + 1)) ∧
    levelOf orderC6rest.price (bookC6.addOrder orderC6rest).2.bids =
      levelOf orderC6rest.price bookC6.bids ++ [(bookC6.matchLimitOrder orderC6rest).2.1] := by
  constructor
  · exact (C6_fifo_price_time_priority.1 bookC6 orderC6buy restingC6a 100 [restingC6b] []
      rfl (by decide) rfl
      (by rw [show keysOf bookC6.asks = [(100 : ℚ)] from rfl]; simp)).2.1 rfl
  · exact C6_fifo_price_time_priority.2.2.1 bookC6 orderC6rest rfl rfl rfl
      (by rw [show keysOf bookC6.bids = [(90 : ℚ)] from rfl]; simp)

/-! ### Opposite-side preservation: the matching loops only consume levels
from the front and fill the head order, so the surviving price keys form a
sublist of the original ones and any fill-invariant per-order property of a
level is preserved. -/

theorem matchLimitBuyLoop_opp (P : Price → Order → Prop)
    (hP : ∀ (p : Price) (x : Order) (q : ℕ), P p x → P p (x.fill q)) (fuel : ℕ) :
    ∀ (o : Order) (asks : List (Price × Level)) (locs : LocMap) (tid : ℕ),
    (∀ pl ∈ asks, ∀ x ∈ pl.2, P pl.1 x) →
    (keysOf (matchLimitBuyLoop fuel o asks locs tid).opposite).Sublist (keysOf asks) ∧
    (∀ pl ∈ (matchLimitBuyLoop fuel o asks locs tid).opposite, ∀ x ∈ pl.2, P pl.1 x) := by
  induction fuel with
  | zero =>
    intro o asks locs tid hA
    exact ⟨List.Sublist.refl _, hA⟩
  | succ n ih =>
    intro o asks locs tid hA
    by_cases h0 : o.remaining_quantity = 0
    · rw [matchLimitBuyLoop_zero_rem _ _ _ _ _ h0]
      exact ⟨List.Sublist.refl _, hA⟩
    · cases asks with
      | nil =>
        rw [matchLimitBuyLoop_nil]
        exact ⟨List.Sublist.refl _, hA⟩
      | cons pl rest =>
        obtain ⟨p, lvl⟩ := pl
        cases lvl with
        | nil =>
          rw [matchLimitBuyLoop_empty_level n o p rest locs tid h0]
          obtain ⟨hs, hp⟩ := ih o rest locs tid
            (fun pl2 hpl2 => hA pl2 (List.mem_cons_of_mem _ hpl2))
          exact ⟨List.Sublist.cons _ hs, hp⟩
        | cons best lvlRest =>
          have hhead : ∀ x ∈ best :: lvlRest, P p x :=
            hA (p, best :: lvlRest) (List.mem_cons_self _ _)
          by_cases hcm : o.canMatchWith best
          case neg =>
            rw [matchLimitBuyLoop_break n o best p lvlRest rest locs tid h0
              (by simpa using hcm)]
            exact ⟨List.Sublist.refl _, hA⟩
          case pos =>
            by_cases hfull : (best.fill (min o.remaining_quantity best.remaining_quantity)).isFullyFilled
            · rw [matchLimitBuyLoop_step_full n o best p lvlRest rest locs tid h0 hcm hfull]
              have hA2 : ∀ pl2 ∈ (if lvlRest.isEmpty then rest else (p, lvlRest) :: rest),
                  ∀ x ∈ pl2.2, P pl2.1 x := by
                cases lvlRest with
                | nil => exact fun pl2 hpl2 => hA pl2 (List.mem_cons_of_mem _ hpl2)
                | cons b2 l2 =>
                  intro pl2 hpl2
                  rcases List.mem_cons.mp hpl2 with h | h
                  · subst h
                    intro x hx
                    exact hhead x (List.mem_cons_of_mem _ hx)
                  · exact hA pl2 (List.mem_cons_of_mem _ h)
              obtain ⟨hs, hp⟩ := ih (o.fill (min o.remaining_quantity best.remaining_quantity))
                (if lvlRest.isEmpty then rest else (p, lvlRest) :: rest)
                (locErase best.id locs) (tid + 1) hA2
              refine ⟨?_, hp⟩
              have hs2 : (keysOf (if lvlRest.isEmpty then rest else (p, lvlRest) :: rest)).Sublist
                  (keysOf ((p, best :: lvlRest) :: rest)) := by
                cases lvlRest with
                | nil => exact List.Sublist.cons _ (List.Sublist.refl _)
                | cons b2 l2 => exact List.Sublist.refl _
              exact hs.trans hs2
            · rw [matchLimitBuyLoop_step_part n o best p lvlRest rest locs tid h0 hcm hfull]
              have hA2 : ∀ pl2 ∈ ((p, best.fill (min o.remaining_quantity best.remaining_quantity) :: lvlRest) :: rest),
                  ∀ x ∈ pl2.2, P pl2.1 x := by
                intro pl2 hpl2
                rcases List.mem_cons.mp hpl2 with h | h
                · subst h
                  intro x hx
                  rcases List.mem_cons.mp hx with h2 | h2
                  · rw [h2]
                    exact hP p best _ (hhead best (List.mem_cons_self _ _))
                  · exact hhead x (List.mem_cons_of_mem _ h2)
                · exact hA pl2 (List.mem_cons_of_mem _ h)
              obtain ⟨hs, hp⟩ := ih (o.fill (min o.remaining_quantity best.remaining_quantity))
                ((p, best.fill (min o.remaining_quantity best.remaining_quantity) :: lvlRest) :: rest)
                locs (tid + 1) hA2
              exact ⟨hs, hp⟩

theorem matchLimitSellLoop_opp (P : Price → Order → Prop)
    (hP : ∀ (p : Price) (x : Order) (q : ℕ), P p x → P p (x.fill q)) (fuel : ℕ) :
    ∀ (o : Order) (bids : List (Price × Level)) (locs : LocMap) (tid : ℕ),
    (∀ pl ∈ bids, ∀ x ∈ pl.2, P pl.1 x) →
    (keysOf (matchLimitSellLoop fuel o bids locs tid).opposite).Sublist (keysOf bids) ∧
    (∀ pl ∈ (matchLimitSellLoop fuel o bids locs tid).opposite, ∀ x ∈ pl.2, P pl.1 x) := by
  induction fuel with
  | zero =>
    intro o bids locs tid hA
    exact ⟨List.Sublist.refl _, hA⟩
  | succ n ih =>
    intro o bids locs tid hA
    by_cases h0 : o.remaining_quantity = 0
    · rw [matchLimitSellLoop_zero_rem _ _ _ _ _ h0]
      exact ⟨List.Sublist.refl _, hA⟩
    · cases bids with
      | nil =>
        rw [matchLimitSellLoop_nil]
        exact ⟨List.Sublist.refl _, hA⟩
      | cons pl rest =>
        obtain ⟨p, lvl⟩ := pl
        cases lvl with
        | nil =>
          rw [matchLimitSellLoop_empty_level n o p rest locs tid h0]
          obtain ⟨hs, hp⟩ := ih o rest locs tid
            (fun pl2 hpl2 => hA pl2 (List.mem_cons_of_mem _ hpl2))
          exact ⟨List.Sublist.cons _ hs, hp⟩
        | cons best lvlRest =>
          have hhead : ∀ x ∈ best :: lvlRest, P p x :=
            hA (p, best :: lvlRest) (List.mem_cons_self _ _)
          by_cases hcm : o.canMatchWith best
          case neg =>
            rw [matchLimitSellLoop_break n o best p lvlRest rest locs tid h0
              (by simpa using hcm)]
            exact ⟨List.Sublist.refl _, hA⟩
          case pos =>
            by_cases hfull : (best.fill (min o.remaining_quantity best.remaining_quantity)).isFullyFilled
            · rw [matchLimitSellLoop_step_full n o best p lvlRest rest locs tid h0 hcm hfull]
              have hA2 : ∀ pl2 ∈ (if lvlRest.isEmpty then rest else (p, lvlRest) :: rest),
                  ∀ x ∈ pl2.2, P pl2.1 x := by
                cases lvlRest with
                | nil => exact fun pl2 hpl2 => hA pl2 (List.mem_cons_of_mem _ hpl2)
                | cons b2 l2 =>
                  intro pl2 hpl2
                  rcases List.mem_cons.mp hpl2 with h | h
                  · subst h
                    intro x hx
                    exact hhead x (List.mem_cons_of_mem _ hx)
                  · exact hA pl2 (List.mem_cons_of_mem _ h)
              obtain ⟨hs, hp⟩ := ih (o.fill (min o.remaining_quantity best.remaining_quantity))
                (if lvlRest.isEmpty then rest else (p, lvlRest) :: rest)
                (locErase best.id locs) (tid + 1) hA2
              refine ⟨?_, hp⟩
              have hs2 : (keysOf (if lvlRest.isEmpty then rest else (p, lvlRest) :: rest)).Sublist
                  (keysOf ((p, best :: lvlRest) :: rest)) := by
                cases lvlRest with
                | nil => exact List.Sublist.cons _ (List.Sublist.refl _)
                | cons b2 l2 => exact List.Sublist.refl _
              exact hs.trans hs2
            · rw [matchLimitSellLoop_step_part n o best p lvlRest rest locs tid h0 hcm hfull]
              have hA2 : ∀ pl2 ∈ ((p, best.fill (min o.remaining_quantity best.remaining_quantity) :: lvlRest) :: rest),
                  ∀ x ∈ pl2.2, P pl2.1 x := by
                intro pl2 hpl2
                rcases List.mem_cons.mp hpl2 with h | h
                · subst h
                  intro x hx
                  rcases List.mem_cons.mp hx with h2 | h2
                  · rw [h2]
                    exact hP p best _ (hhead best (List.mem_cons_self _ _))
                  · exact hhead x (List.mem_cons_of_mem _ h2)
                · exact hA pl2 (List.mem_cons_of_mem _ h)
              obtain ⟨hs, hp⟩ := ih (o.fill (min o.remaining_quantity best.remaining_quantity))
                ((p, best.fill (min o.remaining_quantity best.remaining_quantity) :: lvlRest) :: rest)
                locs (tid + 1) hA2
              exact ⟨hs, hp⟩

theorem executeMarketBuyLoop_opp (P : Price → Order → Prop)
    (hP : ∀ (p : Price) (x : Order) (q : ℕ), P p x → P p (x.fill q)) (fuel : ℕ) :
    ∀ (o : Order) (asks : List (Price × Level)) (locs : LocMap) (tid : ℕ),
    (∀ pl ∈ asks, ∀ x ∈ pl.2, P pl.1 x) →
    (keysOf (executeMarketBuyLoop fuel o asks locs tid).opposite).Sublist (keysOf asks) ∧
    (∀ pl ∈ (executeMarketBuyLoop fuel o asks locs tid).opposite, ∀ x ∈ pl.2, P pl.1 x) := by
  induction fuel with
  | zero =>
    intro o asks locs tid hA
    exact ⟨List.Sublist.refl _, hA⟩
  | succ n ih =>
    intro o asks locs tid hA
    by_cases h0 : o.remaining_quantity = 0
    · rw [executeMarketBuyLoop_zero_rem _ _ _ _ _ h0]
      exact ⟨List.Sublist.refl _, hA⟩
    · cases asks with
      | nil =>
        rw [executeMarketBuyLoop_nil]
        exact ⟨List.Sublist.refl _, hA⟩
      | cons pl rest =>
        obtain ⟨p, lvl⟩ := pl
        cases lvl with
        | nil =>
          rw [executeMarketBuyLoop_empty_level n o p rest locs tid h0]
          obtain ⟨hs, hp⟩ := ih o rest locs tid
            (fun pl2 hpl2 => hA pl2 (List.mem_cons_of_mem _ hpl2))
          exact ⟨List.Sublist.cons _ hs, hp⟩
        | cons best lvlRest =>
          have hhead : ∀ x ∈ best :: lvlRest, P p x :=
            hA (p, best :: lvlRest) (List.mem_cons_self _ _)
          by_cases hfull : (best.fill (min o.remaining_quantity best.remaining_quantity)).isFullyFilled
          · rw [executeMarketBuyLoop_step_full n o best p lvlRest rest locs tid h0 hfull]
            have hA2 : ∀ pl2 ∈ (if lvlRest.isEmpty then rest else (p, lvlRest) :: rest),
                ∀ x ∈ pl2.2, P pl2.1 x := by
              cases lvlRest with
              | nil => exact fun pl2 hpl2 => hA pl2 (List.mem_cons_of_mem _ hpl2)
              | cons b2 l2 =>
                intro pl2 hpl2
                rcases List.mem_cons.mp hpl2 with h | h
                · subst h
                  intro x hx
                  exact hhead x (List.mem_cons_of_mem _ hx)
                · exact hA pl2 (List.mem_cons_of_mem _ h)
            obtain ⟨hs, hp⟩ := ih (o.fill (min o.remaining_quantity best.remaining_quantity))
              (if lvlRest.isEmpty then rest else (p, lvlRest) :: rest)
              (locErase best.id locs) (tid + 1) hA2
            refine ⟨?_, hp⟩
            have hs2 : (keysOf (if lvlRest.isEmpty then rest else (p, lvlRest) :: rest)).Sublist
                (keysOf ((p, best :: lvlRest) :: rest)) := by
              cases lvlRest with
              | nil => exact List.Sublist.cons _ (List.Sublist.refl _)
              | cons b2 l2 => exact List.Sublist.refl _
            exact hs.trans hs2
          · rw [executeMarketBuyLoop_step_part n o best p lvlRest rest locs tid h0 hfull]
            have hA2 : ∀ pl2 ∈ ((p, best.fill (min o.remaining_quantity best.remaining_quantity) :: lvlRest) :: rest),
                ∀ x ∈ pl2.2, P pl2.1 x := by
              intro pl2 hpl2
              rcases List.mem_cons.mp hpl2 with h | h
              · subst h
                intro x hx
                rcases List.mem_cons.mp hx with h2 | h2
                · rw [h2]
                  exact hP p best _ (hhead best (List.mem_cons_self _ _))
                · exact hhead x (List.mem_cons_of_mem _ h2)
              · exact hA pl2 (List.mem_cons_of_mem _ h)
            obtain ⟨hs, hp⟩ := ih (o.fill (min o.remaining_quantity best.remaining_quantity))
              ((p, best.fill (min o.remaining_quantity best.remaining_quantity) :: lvlRest) :: rest)
              locs (tid + 1) hA2
            exact ⟨hs, hp⟩

theorem executeMarketSellLoop_opp (P : Price → Order → Prop)
    (hP : ∀ (p : Price) (x : Order) (q : ℕ), P p x → P p (x.fill q)) (fuel : ℕ) :
    ∀ (o : Order) (bids : List (Price × Level)) (locs : LocMap) (tid : ℕ),
    (∀ pl ∈ bids, ∀ x ∈ pl.2, P pl.1 x) →
    (keysOf (executeMarketSellLoop fuel o bids locs tid).opposite).Sublist (keysOf bids) ∧
    (∀ pl ∈ (executeMarketSellLoop fuel o bids locs tid).opposite, ∀ x ∈ pl.2, P pl.1 x) := by
  induction fuel with
  | zero =>
    intro o bids locs tid hA
    exact ⟨List.Sublist.refl _, hA⟩
  | succ n ih =>
    intro o bids locs tid hA
    by_cases h0 : o.remaining_quantity = 0
    · rw [executeMarketSellLoop_zero_rem _ _ _ _ _ h0]
      exact ⟨List.Sublist.refl _, hA⟩
    · cases bids with
      | nil =>
        rw [executeMarketSellLoop_nil]
        exact ⟨List.Sublist.refl _, hA⟩
      | cons pl rest =>
        obtain ⟨p, lvl⟩ := pl
        cases lvl with
        | nil =>
          rw [executeMarketSellLoop_empty_level n o p rest locs tid h0]
          obtain ⟨hs, hp⟩ := ih o rest locs tid
            (fun pl2 hpl2 => hA pl2 (List.mem_cons_of_mem _ hpl2))
          exact ⟨List.Sublist.cons _ hs, hp⟩
        | cons best lvlRest =>
          have hhead : ∀ x ∈ best :: lvlRest, P p x :=
            hA (p, best :: lvlRest) (List.mem_cons_self _ _)
          by_cases hfull : (best.fill (min o.remaining_quantity best.remaining_quantity)).isFullyFilled
          · rw [executeMarketSellLoop_step_full n o best p lvlRest rest locs tid h0 hfull]
            have hA2 : ∀ pl2 ∈ (if lvlRest.isEmpty then rest else (p, lvlRest) :: rest),
                ∀ x ∈ pl2.2, P pl2.1 x := by
              cases lvlRest with
              | nil => exact fun pl2 hpl2 => hA pl2 (List.mem_cons_of_mem _ hpl2)
              | cons b2 l2 =>
                intro pl2 hpl2
                rcases List.mem_cons.mp hpl2 with h | h
                · subst h
                  intro x hx
                  exact hhead x (List.mem_cons_of_mem _ hx)
                · exact hA pl2 (List.mem_cons_of_mem _ h)
            obtain ⟨hs, hp⟩ := ih (o.fill (min o.remaining_quantity best.remaining_quantity))
              (if lvlRest.isEmpty then rest else (p, lvlRest) :: rest)
              (locErase best.id locs) (tid + 1) hA2
            refine ⟨?_, hp⟩
            have hs2 : (keysOf (if lvlRest.isEmpty then rest else (p, lvlRest) :: rest)).Sublist
                (keysOf ((p, best :: lvlRest) :: rest)) := by
              cases lvlRest with
              | nil => exact List.Sublist.cons _ (List.Sublist.refl _)
              | cons b2 l2 => exact List.Sublist.refl _
            exact hs.trans hs2
          · rw [executeMarketSellLoop_step_part n o best p lvlRest rest locs tid h0 hfull]
            have hA2 : ∀ pl2 ∈ ((p, best.fill (min o.remaining_quantity best.remaining_quantity) :: lvlRest) :: rest),
                ∀ x ∈ pl2.2, P pl2.1 x := by
              intro pl2 hpl2
              rcases List.mem_cons.mp hpl2 with h | h
              · subst h
                intro x hx
                rcases List.mem_cons.mp hx with h2 | h2
                · rw [h2]
                  exact hP p best _ (hhead best (List.mem_cons_self _ _))
                · exact hhead x (List.mem_cons_of_mem _ h2)
              · exact hA pl2 (List.mem_cons_of_mem _ h)
            obtain ⟨hs, hp⟩ := ih (o.fill (min o.remaining_quantity best.remaining_quantity))
              ((p, best.fill (min o.remaining_quantity best.remaining_quantity) :: lvlRest) :: rest)
              locs (tid + 1) hA2
            exact ⟨hs, hp⟩

/-! ### Limit-loop exit characterization: with enough fuel the loop ends
with the incoming order exhausted, the opposite side empty, or a break at a
head order the remainder cannot match. -/

theorem matchLimitBuyLoop_post (fuel : ℕ) :
    ∀ (o : Order) (asks : List (Price × Level)) (locs : LocMap) (tid : ℕ),
    levelSize asks < fuel →
    (matchLimitBuyLoop fuel o asks locs tid).order.remaining_quantity = 0 ∨
    (matchLimitBuyLoop fuel o asks locs tid).opposite = [] ∨
    ∃ p best lvlRest rest,
      (matchLimitBuyLoop fuel o asks locs tid).opposite = (p, best :: lvlRest) :: rest ∧
      (matchLimitBuyLoop fuel o asks locs tid).order.canMatchWith best = false := by
  induction fuel with
  | zero => intro o asks locs tid h; exact absurd h (Nat.not_lt_zero _)
  | succ n ih =>
    intro o asks locs tid h
    by_cases h0 : o.remaining_quantity = 0
    · left
      rw [matchLimitBuyLoop_zero_rem _ _ _ _ _ h0]
      exact h0
    · cases asks with
      | nil =>
        right; left
        rw [matchLimitBuyLoop_nil]
      | cons pl rest =>
        obtain ⟨p, lvl⟩ := pl
        cases lvl with
        | nil =>
          rw [matchLimitBuyLoop_empty_level n o p rest locs tid h0]
          exact ih o rest locs tid (by simp [levelSize] at h ⊢; omega)
        | cons best lvlRest =>
          by_cases hcm : o.canMatchWith best
          case neg =>
            rw [matchLimitBuyLoop_break n o best p lvlRest rest locs tid h0
              (by simpa using hcm)]
            right; right
            exact ⟨p, best, lvlRest, rest, rfl, by simpa using hcm⟩
          case pos =>
            by_cases hfull : (best.fill (min o.remaining_quantity best.remaining_quantity)).isFullyFilled
            · rw [matchLimitBuyLoop_step_full n o best p lvlRest rest locs tid h0 hcm hfull]
              have hsz : levelSize (if lvlRest.isEmpty then rest else (p, lvlRest) :: rest) < n := by
                cases lvlRest <;> simp [levelSize] at h ⊢ <;> omega
              exact ih (o.fill (min o.remaining_quantity best.remaining_quantity))
                (if lvlRest.isEmpty then rest else (p, lvlRest) :: rest)
                (locErase best.id locs) (tid + 1) hsz
            · left
              have hf2 : ¬(best.remaining_quantity -
                  min o.remaining_quantity best.remaining_quantity = 0) := by
                simpa [Order.isFullyFilled, Order.fill] using hfull
              have hq : min o.remaining_quantity best.remaining_quantity = o.remaining_quantity := by
                rcases min_cases o.remaining_quantity best.remaining_quantity with h1 | h1
                · exact h1.1
                · exact absurd (by rw [h1.1]; exact Nat.sub_self _) hf2
              have hz : (o.fill (min o.remaining_quantity best.remaining_quantity)).remaining_quantity = 0 := by
                simp [Order.fill, hq]
              rw [matchLimitBuyLoop_step_part n o best p lvlRest rest locs tid h0 hcm hfull,
                matchLimitBuyLoop_zero_rem _ _ _ _ _ hz]
              exact hz

theorem matchLimitSellLoop_post (fuel : ℕ) :
    ∀ (o : Order) (bids : List (Price × Level)) (locs : LocMap) (tid : ℕ),
    levelSize bids < fuel →
    (matchLimitSellLoop fuel o bids locs tid).order.remaining_quantity = 0 ∨
    (matchLimitSellLoop fuel o bids locs tid).opposite = [] ∨
    ∃ p best lvlRest rest,
      (matchLimitSellLoop fuel o bids locs tid).opposite = (p, best :: lvlRest) :: rest ∧
      (matchLimitSellLoop fuel o bids locs tid).order.canMatchWith best = false := by
  induction fuel with
  | zero => intro o bids locs tid h; exact absurd h (Nat.not_lt_zero _)
  | succ n ih =>
    intro o bids locs tid h
    by_cases h0 : o.remaining_quantity = 0
    · left
      rw [matchLimitSellLoop_zero_rem _ _ _ _ _ h0]
      exact h0
    · cases bids with
      | nil =>
        right; left
        rw [matchLimitSellLoop_nil]
      | cons pl rest =>
        obtain ⟨p, lvl⟩ := pl
        cases lvl with
        | nil =>
          rw [matchLimitSellLoop_empty_level n o p rest locs tid h0]
          exact ih o rest locs tid (by simp [levelSize] at h ⊢; omega)
        | cons best lvlRest =>
          by_cases hcm : o.canMatchWith best
          case neg =>
            rw [matchLimitSellLoop_break n o best p lvlRest rest locs tid h0
              (by simpa using hcm)]
            right; right
            exact ⟨p, best, lvlRest, rest, rfl, by simpa using hcm⟩
          case pos =>
            by_cases hfull : (best.fill (min o.remaining_quantity best.remaining_quantity)).isFullyFilled
            · rw [matchLimitSellLoop_step_full n o best p lvlRest rest locs tid h0 hcm hfull]
              have hsz : levelSize (if lvlRest.isEmpty then rest else (p, lvlRest) :: rest) < n := by
                cases lvlRest <;> simp [levelSize] at h ⊢ <;> omega
              exact ih (o.fill (min o.remaining_quantity best.remaining_quantity))
                (if lvlRest.isEmpty then rest else (p, lvlRest) :: rest)
                (locErase best.id locs) (tid + 1) hsz
            · left
              have hf2 : ¬(best.remaining_quantity -
                  min o.remaining_quantity best.remaining_quantity = 0) := by
                simpa [Order.isFullyFilled, Order.fill] using hfull
              have hq : min o.remaining_quantity best.remaining_quantity = o.remaining_quantity := by
                rcases min_cases o.remaining_quantity best.remaining_quantity with h1 | h1
                · exact h1.1
                · exact absurd (by rw [h1.1]; exact Nat.sub_self _) hf2
              have hz : (o.fill (min o.remaining_quantity best.remaining_quantity)).remaining_quantity = 0 := by
                simp [Order.fill, hq]
              rw [matchLimitSellLoop_step_part n o best p lvlRest rest locs tid h0 hcm hfull,
                matchLimitSellLoop_zero_rem _ _ _ _ _ hz]
              exact hz

/-! ### Insertion and removal on one side's sorted level list -/

theorem bidsInsert_keys (p : Price) (o : Order) :
    ∀ ls : List (Price × Level),
    (List.Pairwise (· > ·) (keysOf ls) →
      List.Pairwise (· > ·) (keysOf (bidsInsert p o ls))) ∧
    (∀ k ∈ keysOf (bidsInsert p o ls), k = p ∨ k ∈ keysOf ls) := by
  intro ls
  induction ls with
  | nil =>
    constructor
    · intro _
      simp [bidsInsert, keysOf]
    · intro k hk
      simp [bidsInsert, keysOf] at hk
      exact Or.inl hk
  | cons hd tl ih =>
    obtain ⟨q, lvl⟩ := hd
    by_cases h1 : p = q
    · subst h1
      have he : bidsInsert p o ((p, lvl) :: tl) = (p, lvl ++ [o]) :: tl := by
        simp [bidsInsert]
      rw [he]
      exact ⟨fun hs => hs, fun k hk => Or.inr hk⟩
    · by_cases h2 : p > q
      · have he : bidsInsert p o ((q, lvl) :: tl) = (p, [o]) :: (q, lvl) :: tl := by
          simp [bidsInsert, h1, h2]
        rw [he]
        constructor
        · intro hs
          rw [keysOf_cons, keysOf_cons]
          rw [keysOf_cons] at hs
          refine List.pairwise_cons.mpr ⟨?_, hs⟩
          intro k hk
          rcases List.mem_cons.mp hk with h | h
          · rw [h]; exact h2
          · exact gt_trans h2 (List.rel_of_pairwise_cons hs h)
        · intro k hk
          rw [keysOf_cons] at hk
          rcases List.mem_cons.mp hk with h | h
          · exact Or.inl h
          · exact Or.inr h
      · have he : bidsInsert p o ((q, lvl) :: tl) = (q, lvl) :: bidsInsert p o tl := by
          simp [bidsInsert, h1, h2]
        rw [he]
        constructor
        · intro hs
          rw [keysOf_cons] at hs ⊢
          rw [List.pairwise_cons] at hs
          refine List.pairwise_cons.mpr ⟨?_, ih.1 hs.2⟩
          intro k hk
          rcases ih.2 k hk with h | h
          · rw [h]
            exact lt_of_le_of_ne (not_lt.mp h2) h1
          · exact hs.1 k h
        · intro k hk
          rw [keysOf_cons] at hk
          rcases List.mem_cons.mp hk with h | h
          · right; rw [keysOf_cons]; exact List.mem_cons.mpr (Or.inl h)
          · rcases ih.2 k h with h3 | h3
            · exact Or.inl h3
            · right; rw [keysOf_cons]; exact List.mem_cons.mpr (Or.inr h3)

theorem asksInsert_keys (p : Price) (o : Order) :
    ∀ ls : List (Price × Level),
    (List.Pairwise (· < ·) (keysOf ls) →
      List.Pairwise (· < ·) (keysOf (asksInsert p o ls))) ∧
    (∀ k ∈ keysOf (asksInsert p o ls), k = p ∨ k ∈ keysOf ls) := by
  intro ls
  induction ls with
  | nil =>
    constructor
    · intro _
      simp [asksInsert, keysOf]
    · intro k hk
      simp [asksInsert, keysOf] at hk
      exact Or.inl hk
  | cons hd tl ih =>
    obtain ⟨q, lvl⟩ := hd
    by_cases h1 : p = q
    · subst h1
      have he : asksInsert p o ((p, lvl) :: tl) = (p, lvl ++ [o]) :: tl := by
        simp [asksInsert]
      rw [he]
      exact ⟨fun hs => hs, fun k hk => Or.inr hk⟩
    · by_cases h2 : p < q
      · have he : asksInsert p o ((q, lvl) :: tl) = (p, [o]) :: (q, lvl) :: tl := by
          simp [asksInsert, h1, h2]
        rw [he]
        constructor
        · intro hs
          rw [keysOf_cons, keysOf_cons]
          rw [keysOf_cons] at hs
          refine List.pairwise_cons.mpr ⟨?_, hs⟩
          intro k hk
          rcases List.mem_cons.mp hk with h | h
          · rw [h]; exact h2
          · exact lt_trans h2 (List.rel_of_pairwise_cons hs h)
        · intro k hk
          rw [keysOf_cons] at hk
          rcases List.mem_cons.mp hk with h | h
          · exact Or.inl h
          · exact Or.inr h
      · have he : asksInsert p o ((q, lvl) :: tl) = (q, lvl) :: asksInsert p o tl := by
          simp [asksInsert, h1, h2]
        rw [he]
        constructor
        · intro hs
          rw [keysOf_cons] at hs ⊢
          rw [List.pairwise_cons] at hs
          refine List.pairwise_cons.mpr ⟨?_, ih.1 hs.2⟩
          intro k hk
          rcases ih.2 k hk with h | h
          · rw [h]
            exact lt_of_le_of_ne (not_lt.mp h2) (fun hc => h1 hc.symm)
          · exact hs.1 k h
        · intro k hk
          rw [keysOf_cons] at hk
          rcases List.mem_cons.mp hk with h | h
          · right; rw [keysOf_cons]; exact List.mem_cons.mpr (Or.inl h)
          · rcases ih.2 k h with h3 | h3
            · exact Or.inl h3
            · right; rw [keysOf_cons]; exact List.mem_cons.mpr (Or.inr h3)

theorem bidsInsert_orders (P : Price → Order → Prop) (p : Price) (o : Order)
    (hPo : P p o) :
    ∀ ls : List (Price × Level),
    (∀ pl ∈ ls, ∀ x ∈ pl.2, P pl.1 x) →
    ∀ pl ∈ bidsInsert p o ls, ∀ x ∈ pl.2, P pl.1 x := by
  intro ls
  induction ls with
  | nil =>
    intro _ pl hpl
    have hp : pl = (p, [o]) := by simpa [bidsInsert] using hpl
    subst hp
    intro x hx
    have hx2 : x = o := by simpa using hx
    rw [hx2]
    exact hPo
  | cons hd tl ih =>
    obtain ⟨q, lvl⟩ := hd
    intro hA pl hpl
    by_cases h1 : p = q
    · subst h1
      rw [show bidsInsert p o ((p, lvl) :: tl) = (p, lvl ++ [o]) :: tl from by
        simp [bidsInsert]] at hpl
      rcases List.mem_cons.mp hpl with h | h
      · subst h
        intro x hx
        rcases List.mem_append.mp hx with h2 | h2
        · exact hA (p, lvl) (List.mem_cons_self _ _) x h2
        · have hx2 : x = o := by simpa using h2
          rw [hx2]
          exact hPo
      · exact hA pl (List.mem_cons_of_mem _ h)
    · by_cases h2 : p > q
      · rw [show bidsInsert p o ((q, lvl) :: tl) = (p, [o]) :: (q, lvl) :: tl from by
          simp [bidsInsert, h1, h2]] at hpl
        rcases List.mem_cons.mp hpl with h | h
        · subst h
          intro x hx
          have hx2 : x = o := by simpa using hx
          rw [hx2]
          exact hPo
        · exact hA pl h
      · rw [show bidsInsert p o ((q, lvl) :: tl) = (q, lvl) :: bidsInsert p o tl from by
          simp [bidsInsert, h1, h2]] at hpl
        rcases List.mem_cons.mp hpl with h | h
        · subst h
          exact hA (q, lvl) (List.mem_cons_self _ _)
        · exact ih (fun pl2 hpl2 => hA pl2 (List.mem_cons_of_mem _ hpl2)) pl h

theorem asksInsert_orders (P : Price → Order → Prop) (p : Price) (o : Order)
    (hPo : P p o) :
    ∀ ls : List (Price × Level),
    (∀ pl ∈ ls, ∀ x ∈ pl.2, P pl.1 x) →
    ∀ pl ∈ asksInsert p o ls, ∀ x ∈ pl.2, P pl.1 x := by
  intro ls
  induction ls with
  | nil =>
    intro _ pl hpl
    have hp : pl = (p, [o]) := by simpa [asksInsert] using hpl
    subst hp
    intro x hx
    have hx2 : x = o := by simpa using hx
    rw [hx2]
    exact hPo
  | cons hd tl ih =>
    obtain ⟨q, lvl⟩ := hd
    intro hA pl hpl
    by_cases h1 : p = q
    · subst h1
      rw [show asksInsert p o ((p, lvl) :: tl) = (p, lvl ++ [o]) :: tl from by
        simp [asksInsert]] at hpl
      rcases List.mem_cons.mp hpl with h | h
      · subst h
        intro x hx
        rcases List.mem_append.mp hx with h2 | h2
        · exact hA (p, lvl) (List.mem_cons_self _ _) x h2
        · have hx2 : x = o := by simpa using h2
          rw [hx2]
          exact hPo
      · exact hA pl (List.mem_cons_of_mem _ h)
    · by_cases h2 : p < q
      · rw [show asksInsert p o ((q, lvl) :: tl) = (p, [o]) :: (q, lvl) :: tl from by
          simp [asksInsert, h1, h2]] at hpl
        rcases List.mem_cons.mp hpl with h | h
        · subst h
          intro x hx
          have hx2 : x = o := by simpa using hx
          rw [hx2]
          exact hPo
        · exact hA pl h
      · rw [show asksInsert p o ((q, lvl) :: tl) = (q, lvl) :: asksInsert p o tl from by
          simp [asksInsert, h1, h2]] at hpl
        rcases List.mem_cons.mp hpl with h | h
        · subst h
          exact hA (q, lvl) (List.mem_cons_self _ _)
        · exact ih (fun pl2 hpl2 => hA pl2 (List.mem_cons_of_mem _ hpl2)) pl h

theorem levelRemove_keys (price : Price) (i : ℕ) :
    ∀ (ls : List (Price × Level)) (fr : Bool × List (Price × Level)),
    levelRemove price i ls = some fr →
    (keysOf fr.2).Sublist (keysOf ls) ∧
    (∀ P : Price → Order → Prop, (∀ pl ∈ ls, ∀ x ∈ pl.2, P pl.1 x) →
      ∀ pl ∈ fr.2, ∀ x ∈ pl.2, P pl.1 x) := by
  intro ls
  induction ls with
  | nil =>
    intro fr h
    exact absurd h (by simp [levelRemove])
  | cons hd tl ih =>
    obtain ⟨q, lvl⟩ := hd
    intro fr h
    by_cases h1 : q = price
    · subst h1
      rw [show levelRemove q i ((q, lvl) :: tl) =
          some (lvl.any (fun x => decide (x.id = i)),
            if (lvl.filter (fun x => !(decide (x.id = i)))).isEmpty then tl
            else (q, lvl.filter (fun x => !(decide (x.id = i)))) :: tl) from by
        simp [levelRemove]] at h
      obtain rfl := Option.some_inj.mp h
      constructor
      · by_cases hk : (lvl.filter (fun x => !(decide (x.id = i)))).isEmpty
        · rw [if_pos hk]
          exact List.Sublist.cons _ (List.Sublist.refl _)
        · rw [if_neg hk]
          exact List.Sublist.refl _
      · intro P hA pl hpl
        by_cases hk : (lvl.filter (fun x => !(decide (x.id = i)))).isEmpty
        · rw [if_pos hk] at hpl
          exact hA pl (List.mem_cons_of_mem _ hpl)
        · rw [if_neg hk] at hpl
          rcases List.mem_cons.mp hpl with hh | hh
          · subst hh
            intro x hx
            exact hA (q, lvl) (List.mem_cons_self _ _) x (List.mem_of_mem_filter hx)
          · exact hA pl (List.mem_cons_of_mem _ hh)
    · rw [show levelRemove price i ((q, lvl) :: tl) =
          (levelRemove price i tl).map (fun fr2 => (fr2.1, (q, lvl) :: fr2.2)) from by
        simp [levelRemove, h1]] at h
      cases hrec : levelRemove price i tl with
      | none =>
        rw [hrec] at h
        exact absurd h (by simp)
      | some fr2 =>
        rw [hrec] at h
        simp only [Option.map_some'] at h
        obtain rfl := Option.some_inj.mp h
        obtain ⟨hs, hp⟩ := ih fr2 hrec
        constructor
        · rw [keysOf_cons, keysOf_cons]
          exact List.Sublist.cons₂ _ hs
        · intro P hA pl hpl
          rcases List.mem_cons.mp hpl with hh | hh
          · subst hh
            exact hA (q, lvl) (List.mem_cons_self _ _)
          · exact hp P (fun pl2 hpl2 => hA pl2 (List.mem_cons_of_mem _ hpl2)) pl hh

/-! ### Well-formedness preservation along the public book interface -/

theorem emptyBook_WF (sym : Symbol) : BookWF sym emptyBook := by
  refine ⟨?_, ?_, ?_, ?_, ?_⟩ <;> simp [emptyBook, keysOf, noCross]

theorem executeMarketOrder_WF (sym : Symbol) (b : OrderBook) (o : Order)
    (hWF : BookWF sym b) : BookWF sym (b.executeMarketOrder o).2.2 := by
  by_cases hbuy : o.isBuyOrder
  · have heq : (b.executeMarketOrder o).2.2 =
        { b with
          asks := (executeMarketBuyLoop (levelSize b.asks + 1) o b.asks
            b.order_locations b.next_trade_id).opposite,
          order_locations := (executeMarketBuyLoop (levelSize b.asks + 1) o b.asks
            b.order_locations b.next_trade_id).locations,
          next_trade_id := (executeMarketBuyLoop (levelSize b.asks + 1) o b.asks
            b.order_locations b.next_trade_id).next_tid } := by
      simp [OrderBook.executeMarketOrder, hbuy]
    rw [heq]
    obtain ⟨hs, hp⟩ := executeMarketBuyLoop_opp
      (fun pk x => x.side = OrderSide.SELL ∧ x.type = OrderType.LIMIT ∧
        x.symbol = sym ∧ x.price = pk)
      (fun pk x q hx => ⟨by rw [Order.fill_side]; exact hx.1,
        by rw [Order.fill_type]; exact hx.2.1,
        by rw [Order.fill_symbol]; exact hx.2.2.1,
        by rw [Order.fill_price]; exact hx.2.2.2⟩)
      (levelSize b.asks + 1) o b.asks b.order_locations b.next_trade_id hWF.askOrders
    exact {
      sortedBids := hWF.sortedBids
      sortedAsks := hWF.sortedAsks.sublist hs
      bidOrders := hWF.bidOrders
      askOrders := hp
      cross := fun pb hb pa ha => hWF.cross pb hb pa (hs.subset ha) }
  · have heq : (b.executeMarketOrder o).2.2 =
        { b with
          bids := (executeMarketSellLoop (levelSize b.bids + 1) o b.bids
            b.order_locations b.next_trade_id).opposite,
          order_locations := (executeMarketSellLoop (levelSize b.bids + 1) o b.bids
            b.order_locations b.next_trade_id).locations,
          next_trade_id := (executeMarketSellLoop (levelSize b.bids + 1) o b.bids
            b.order_locations b.next_trade_id).next_tid } := by
      simp [OrderBook.executeMarketOrder, hbuy]
    rw [heq]
    obtain ⟨hs, hp⟩ := executeMarketSellLoop_opp
      (fun pk x => x.side = OrderSide.BUY ∧ x.type = OrderType.LIMIT ∧
        x.symbol = sym ∧ x.price = pk)
      (fun pk x q hx => ⟨by rw [Order.fill_side]; exact hx.1,
        by rw [Order.fill_type]; exact hx.2.1,
        by rw [Order.fill_symbol]; exact hx.2.2.1,
        by rw [Order.fill_price]; exact hx.2.2.2⟩)
      (levelSize b.bids + 1) o b.bids b.order_locations b.next_trade_id hWF.bidOrders
    exact {
      sortedBids := hWF.sortedBids.sublist hs
      sortedAsks := hWF.sortedAsks
      bidOrders := hp
      askOrders := hWF.askOrders
      cross := fun pb hb pa ha => hWF.cross pb (hs.subset hb) pa ha }

theorem matchLimitOrder_WF (sym : Symbol) (b : OrderBook) (o : Order)
    (hWF : BookWF sym b) : BookWF sym (b.matchLimitOrder o).2.2 := by
  by_cases hbuy : o.isBuyOrder
  · have heq : (b.matchLimitOrder o).2.2 =
        { b with
          asks := (matchLimitBuyLoop (levelSize b.asks + 1) o b.asks
            b.order_locations b.next_trade_id).opposite,
          order_locations := (matchLimitBuyLoop (levelSize b.asks + 1) o b.asks
            b.order_locations b.next_trade_id).locations,
          next_trade_id := (matchLimitBuyLoop (levelSize b.asks + 1) o b.asks
            b.order_locations b.next_trade_id).next_tid } := by
      simp [OrderBook.matchLimitOrder, hbuy]
    rw [heq]
    obtain ⟨hs, hp⟩ := matchLimitBuyLoop_opp
      (fun pk x => x.side = OrderSide.SELL ∧ x.type = OrderType.LIMIT ∧
        x.symbol = sym ∧ x.price = pk)
      (fun pk x q hx => ⟨by rw [Order.fill_side]; exact hx.1,
        by rw [Order.fill_type]; exact hx.2.1,
        by rw [Order.fill_symbol]; exact hx.2.2.1,
        by rw [Order.fill_price]; exact hx.2.2.2⟩)
      (levelSize b.asks + 1) o b.asks b.order_locations b.next_trade_id hWF.askOrders
    exact {
      sortedBids := hWF.sortedBids
      sortedAsks := hWF.sortedAsks.sublist hs
      bidOrders := hWF.bidOrders
      askOrders := hp
      cross := fun pb hb pa ha => hWF.cross pb hb pa (hs.subset ha) }
  · have heq : (b.matchLimitOrder o).2.2 =
        { b with
          bids := (matchLimitSellLoop (levelSize b.bids + 1) o b.bids
            b.order_locations b.next_trade_id).opposite,
          order_locations := (matchLimitSellLoop (levelSize b.bids + 1) o b.bids
            b.order_locations b.next_trade_id).locations,
          next_trade_id := (matchLimitSellLoop (levelSize b.bids + 1) o b.bids
            b.order_locations b.next_trade_id).next_tid } := by
      simp [OrderBook.matchLimitOrder, hbuy]
    rw [heq]
    obtain ⟨hs, hp⟩ := matchLimitSellLoop_opp
      (fun pk x => x.side = OrderSide.BUY ∧ x.type = OrderType.LIMIT ∧
        x.symbol = sym ∧ x.price = pk)
      (fun pk x q hx => ⟨by rw [Order.fill_side]; exact hx.1,
        by rw [Order.fill_type]; exact hx.2.1,
        by rw [Order.fill_symbol]; exact hx.2.2.1,
        by rw [Order.fill_price]; exact hx.2.2.2⟩)
      (levelSize b.bids + 1) o b.bids b.order_locations b.next_trade_id hWF.bidOrders
    exact {
      sortedBids := hWF.sortedBids.sublist hs
      sortedAsks := hWF.sortedAsks
      bidOrders := hp
      askOrders := hWF.askOrders
      cross := fun pb hb pa ha => hWF.cross pb (hs.subset hb) pa ha }

theorem cancelOrder_WF (sym : Symbol) (b : OrderBook) (i : ℕ)
    (hWF : BookWF sym b) : BookWF sym (b.cancelOrder i).2 := by
  cases hloc : locFind i b.order_locations with
  | none =>
    have heq : (b.cancelOrder i).2 = b := by
      simp [OrderBook.cancelOrder, hloc]
    rw [heq]
    exact hWF
  | some ps =>
    have heq : (b.cancelOrder i).2 =
        { (b.removeFromPriceLevel ps.1 ps.2 i).2 with
          order_locations :=
            locErase i (b.removeFromPriceLevel ps.1 ps.2 i).2.order_locations } := by
      simp [OrderBook.cancelOrder, hloc]
    rw [heq]
    have hrm : BookWF sym (b.removeFromPriceLevel ps.1 ps.2 i).2 := by
      cases hside2 : ps.2 with
      | BUY =>
        cases hlr : levelRemove ps.1 i b.bids with
        | none =>
          have heq2 : (b.removeFromPriceLevel ps.1 OrderSide.BUY i).2 = b := by
            simp [OrderBook.removeFromPriceLevel, hlr]
          rw [heq2]
          exact hWF
        | some fr =>
          have heq2 : (b.removeFromPriceLevel ps.1 OrderSide.BUY i).2 =
              { b with bids := fr.2 } := by
            simp [OrderBook.removeFromPriceLevel, hlr]
          rw [heq2]
          obtain ⟨hs, hp⟩ := levelRemove_keys ps.1 i b.bids fr hlr
          exact {
            sortedBids := hWF.sortedBids.sublist hs
            sortedAsks := hWF.sortedAsks
            bidOrders := hp (fun pk x => x.side = OrderSide.BUY ∧
              x.type = OrderType.LIMIT ∧ x.symbol = sym ∧ x.price = pk) hWF.bidOrders
            askOrders := hWF.askOrders
            cross := fun pb hb pa ha => hWF.cross pb (hs.subset hb) pa ha }
      | SELL =>
        cases hlr : levelRemove ps.1 i b.asks with
        | none =>
          have heq2 : (b.removeFromPriceLevel ps.1 OrderSide.SELL i).2 = b := by
            simp [OrderBook.removeFromPriceLevel, hlr]
          rw [heq2]
          exact hWF
        | some fr =>
          have heq2 : (b.removeFromPriceLevel ps.1 OrderSide.SELL i).2 =
              { b with asks := fr.2 } := by
            simp [OrderBook.removeFromPriceLevel, hlr]
          rw [heq2]
          obtain ⟨hs, hp⟩ := levelRemove_keys ps.1 i b.asks fr hlr
          exact {
            sortedBids := hWF.sortedBids
            sortedAsks := hWF.sortedAsks.sublist hs
            bidOrders := hWF.bidOrders
            askOrders := hp (fun pk x => x.side = OrderSide.SELL ∧
              x.type = OrderType.LIMIT ∧ x.symbol = sym ∧ x.price = pk) hWF.askOrders
            cross := fun pb hb pa ha => hWF.cross pb hb pa (hs.subset ha) }
    exact {
      sortedBids := hrm.sortedBids
      sortedAsks := hrm.sortedAsks
      bidOrders := hrm.bidOrders
      askOrders := hrm.askOrders
      cross := hrm.cross }

theorem addOrder_WF (sym : Symbol) (b : OrderBook) (o : Order)
    (hWF : BookWF sym b) (hsym : o.symbol = sym) :
    BookWF sym (b.addOrder o).2 := by
  cases htype : o.type with
  | MARKET =>
    have hm : o.isMarketOrder = true := by simp [Order.isMarketOrder, htype]
    have haddeq : (b.addOrder o).2 = (b.executeMarketOrder o).2.2 := by
      simp [OrderBook.addOrder, hm]
    rw [haddeq]
    exact executeMarketOrder_WF sym b o hWF
  | LIMIT =>
    have hm : o.isMarketOrder = false := by simp [Order.isMarketOrder, htype]
    have hl : o.isLimitOrder = true := by simp [Order.isLimitOrder, htype]
    have hWF2 : BookWF sym (b.matchLimitOrder o).2.2 := matchLimitOrder_WF sym b o hWF
    by_cases hff : (b.matchLimitOrder o).2.1.isFullyFilled
    · have haddeq : (b.addOrder o).2 = (b.matchLimitOrder o).2.2 := by
        simp [OrderBook.addOrder, hm, hl, hff]
      rw [haddeq]
      exact hWF2
    · simp only [Bool.not_eq_true] at hff
      have haddeq : (b.addOrder o).2 =
          ((b.matchLimitOrder o).2.2).addToBook ((b.matchLimitOrder o).2.1) := by
        simp [OrderBook.addOrder, hm, hl, hff]
      cases hside : o.side with
      | BUY =>
        have hbuy : o.isBuyOrder = true := by simp [Order.isBuyOrder, hside]
        have e2 : (b.matchLimitOrder o).2.1 =
            (matchLimitBuyLoop (levelSize b.asks + 1) o b.asks
              b.order_locations b.next_trade_id).order := by
          simp [OrderBook.matchLimitOrder, hbuy]
        have easks : (b.matchLimitOrder o).2.2.asks =
            (matchLimitBuyLoop (levelSize b.asks + 1) o b.asks
              b.order_locations b.next_trade_id).opposite := by
          simp [OrderBook.matchLimitOrder, hbuy]
        have hfld := matchLimitBuyLoop_order_fields (levelSize b.asks + 1) o b.asks
          b.order_locations b.next_trade_id
        have ho2side : (b.matchLimitOrder o).2.1.side = OrderSide.BUY := by
          rw [e2, hfld.2.2.1, hside]
        have ho2type : (b.matchLimitOrder o).2.1.type = OrderType.LIMIT := by
          rw [e2, hfld.2.2.2.1, htype]
        have ho2sym : (b.matchLimitOrder o).2.1.symbol = sym := by
          rw [e2, hfld.2.1, hsym]
        have ho2pr : (b.matchLimitOrder o).2.1.price = o.price := by
          rw [e2]
          exact hfld.2.2.2.2.1
        have ho2buy : (b.matchLimitOrder o).2.1.isBuyOrder = true := by
          simp [Order.isBuyOrder, ho2side]
        have hb3 : ((b.matchLimitOrder o).2.2).addToBook ((b.matchLimitOrder o).2.1) =
            { (b.matchLimitOrder o).2.2 with
              bids := bidsInsert (b.matchLimitOrder o).2.1.price ((b.matchLimitOrder o).2.1)
                (b.matchLimitOrder o).2.2.bids,
              order_locations := locInsert (b.matchLimitOrder o).2.1.id
                ((b.matchLimitOrder o).2.1.price, (b.matchLimitOrder o).2.1.side)
                (b.matchLimitOrder o).2.2.order_locations } := by
          simp [OrderBook.addToBook, ho2buy]
        have hcrossnew : ∀ pa ∈ keysOf ((b.matchLimitOrder o).2.2).asks, o.price < pa := by
          rcases matchLimitBuyLoop_post (levelSize b.asks + 1) o b.asks b.order_locations
            b.next_trade_id (Nat.lt_succ_self _) with hrem | hemp | ⟨pk, best, lr, rs, hop, hcm⟩
          · exfalso
            have htrue : (matchLimitBuyLoop (levelSize b.asks + 1) o b.asks
                b.order_locations b.next_trade_id).order.isFullyFilled = true := by
              simp [Order.isFullyFilled, hrem]
            rw [e2, htrue] at hff
            exact Bool.noConfusion hff
          · intro pa ha
            rw [easks, hemp] at ha
            simp [keysOf] at ha
          · intro pa ha
            have hbestmem : (pk, best :: lr) ∈ ((b.matchLimitOrder o).2.2).asks := by
              rw [easks, hop]
              exact List.mem_cons_self _ _
            have hbest := hWF2.askOrders (pk, best :: lr) hbestmem best (List.mem_cons_self _ _)
            have hsymeq : (matchLimitBuyLoop (levelSize b.asks + 1) o b.asks
                b.order_locations b.next_trade_id).order.symbol = best.symbol := by
              rw [hfld.2.1, hsym, hbest.2.2.1]
            have hsides : (matchLimitBuyLoop (levelSize b.asks + 1) o b.asks
                b.order_locations b.next_trade_id).order.side ≠ best.side := by
              rw [hfld.2.2.1, hside, hbest.1]
              decide
            have hm1 : (matchLimitBuyLoop (levelSize b.asks + 1) o b.asks
                b.order_locations b.next_trade_id).order.isMarketOrder = false := by
              simp [Order.isMarketOrder, hfld.2.2.2.1, htype]
            have hm2 : best.isMarketOrder = false := by
              simp [Order.isMarketOrder, hbest.2.1]
            have hbuy2 : (matchLimitBuyLoop (levelSize b.asks + 1) o b.asks
                b.order_locations b.next_trade_id).order.isBuyOrder = true := by
              simp [Order.isBuyOrder, hfld.2.2.1, hside]
            simp [Order.canMatchWith, hsymeq, hsides, hm1, hm2, hbuy2] at hcm
            have hbp : best.price = pk := hbest.2.2.2
            rw [hfld.2.2.2.2.1, hbp] at hcm
            have hlt : o.price < pk := hcm
            rw [easks, hop, keysOf_cons] at ha
            rcases List.mem_cons.mp ha with hh | hh
            · rw [hh]
              exact hlt
            · have hsorted := hWF2.sortedAsks
              rw [easks, hop, keysOf_cons] at hsorted
              exact lt_trans hlt (List.rel_of_pairwise_cons hsorted hh)
        rw [haddeq, hb3, ho2pr]
        exact {
          sortedBids := (bidsInsert_keys o.price ((b.matchLimitOrder o).2.1)
            ((b.matchLimitOrder o).2.2).bids).1 hWF2.sortedBids
          sortedAsks := hWF2.sortedAsks
          bidOrders := bidsInsert_orders
            (fun pk x => x.side = OrderSide.BUY ∧ x.type = OrderType.LIMIT ∧
              x.symbol = sym ∧ x.price = pk)
            o.price ((b.matchLimitOrder o).2.1) ⟨ho2side, ho2type, ho2sym, ho2pr⟩
            ((b.matchLimitOrder o).2.2).bids hWF2.bidOrders
          askOrders := hWF2.askOrders
          cross := by
            intro pb hb pa ha
            rcases (bidsInsert_keys o.price ((b.matchLimitOrder o).2.1)
              ((b.matchLimitOrder o).2.2).bids).2 pb hb with h | h
            · rw [h]
              exact hcrossnew pa ha
            · exact hWF2.cross pb h pa ha }
      | SELL =>
        have hbuy : o.isBuyOrder = false := by simp [Order.isBuyOrder, hside]
        have e2 : (b.matchLimitOrder o).2.1 =
            (matchLimitSellLoop (levelSize b.bids + 1) o b.bids
              b.order_locations b.next_trade_id).order := by
          simp [OrderBook.matchLimitOrder, hbuy]
        have ebids : (b.matchLimitOrder o).2.2.bids =
            (matchLimitSellLoop (levelSize b.bids + 1) o b.bids
              b.order_locations b.next_trade_id).opposite := by
          simp [OrderBook.matchLimitOrder, hbuy]
        have hfld := matchLimitSellLoop_order_fields (levelSize b.bids + 1) o b.bids
          b.order_locations b.next_trade_id
        have ho2side : (b.matchLimitOrder o).2.1.side = OrderSide.SELL := by
          rw [e2, hfld.2.2.1, hside]
        have ho2type : (b.matchLimitOrder o).2.1.type = OrderType.LIMIT := by
          rw [e2, hfld.2.2.2.1, htype]
        have ho2sym : (b.matchLimitOrder o).2.1.symbol = sym := by
          rw [e2, hfld.2.1, hsym]
        have ho2pr : (b.matchLimitOrder o).2.1.price = o.price := by
          rw [e2]
          exact hfld.2.2.2.2.1
        have ho2buy : (b.matchLimitOrder o).2.1.isBuyOrder = false := by
          simp [Order.isBuyOrder, ho2side]
        have hb3 : ((b.matchLimitOrder o).2.2).addToBook ((b.matchLimitOrder o).2.1) =
            { (b.matchLimitOrder o).2.2 with
              asks := asksInsert (b.matchLimitOrder o).2.1.price ((b.matchLimitOrder o).2.1)
                (b.matchLimitOrder o).2.2.asks,
              order_locations := locInsert (b.matchLimitOrder o).2.1.id
                ((b.matchLimitOrder o).2.1.price, (b.matchLimitOrder o).2.1.side)
                (b.matchLimitOrder o).2.2.order_locations } := by
          simp [OrderBook.addToBook, ho2buy]
        have hcrossnew : ∀ pb ∈ keysOf ((b.matchLimitOrder o).2.2).bids, pb < o.price := by
          rcases matchLimitSellLoop_post (levelSize b.bids + 1) o b.bids b.order_locations
            b.next_trade_id (Nat.lt_succ_self _) with hrem | hemp | ⟨pk, best, lr, rs, hop, hcm⟩
          · exfalso
            have htrue : (matchLimitSellLoop (levelSize b.bids + 1) o b.bids
                b.order_locations b.next_trade_id).order.isFullyFilled = true := by
              simp [Order.isFullyFilled, hrem]
            rw [e2, htrue] at hff
            exact Bool.noConfusion hff
          · intro pb hb
            rw [ebids, hemp] at hb
            simp [keysOf] at hb
          · intro pb hb
            have hbestmem : (pk, best :: lr) ∈ ((b.matchLimitOrder o).2.2).bids := by
              rw [ebids, hop]
              exact List.mem_cons_self _ _
            have hbest := hWF2.bidOrders (pk, best :: lr) hbestmem best (List.mem_cons_self _ _)
            have hsymeq : (matchLimitSellLoop (levelSize b.bids + 1) o b.bids
                b.order_locations b.next_trade_id).order.symbol = best.symbol := by
              rw [hfld.2.1, hsym, hbest.2.2.1]
            have hsides : (matchLimitSellLoop (levelSize b.bids + 1) o b.bids
                b.order_locations b.next_trade_id).order.side ≠ best.side := by
              rw [hfld.2.2.1, hside, hbest.1]
              decide
            have hm1 : (matchLimitSellLoop (levelSize b.bids + 1) o b.bids
                b.order_locations b.next_trade_id).order.isMarketOrder = false := by
              simp [Order.isMarketOrder, hfld.2.2.2.1, htype]
            have hm2 : best.isMarketOrder = false := by
              simp [Order.isMarketOrder, hbest.2.1]
            have hbuy2 : (matchLimitSellLoop (levelSize b.bids + 1) o b.bids
                b.order_locations b.next_trade_id).order.isBuyOrder = false := by
              simp [Order.isBuyOrder, hfld.2.2.1, hside]
            simp [Order.canMatchWith, hsymeq, hsides, hm1, hm2, hbuy2] at hcm
            have hbp : best.price = pk := hbest.2.2.2
            rw [hfld.2.2.2.2.1, hbp] at hcm
            have hlt : pk < o.price := hcm
            rw [ebids, hop, keysOf_cons] at hb
            rcases List.mem_cons.mp hb with hh | hh
            · rw [hh]
              exact hlt
            · have hsorted := hWF2.sortedBids
              rw [ebids, hop, keysOf_cons] at hsorted
              exact lt_trans (List.rel_of_pairwise_cons hsorted hh) hlt
        rw [haddeq, hb3, ho2pr]
        exact {
          sortedBids := hWF2.sortedBids
          sortedAsks := (asksInsert_keys o.price ((b.matchLimitOrder o).2.1)
            ((b.matchLimitOrder o).2.2).asks).1 hWF2.sortedAsks
          bidOrders := hWF2.bidOrders
          askOrders := asksInsert_orders
            (fun pk x => x.side = OrderSide.SELL ∧ x.type = OrderType.LIMIT ∧
              x.symbol = sym ∧ x.price = pk)
            o.price ((b.matchLimitOrder o).2.1) ⟨ho2side, ho2type, ho2sym, ho2pr⟩
            ((b.matchLimitOrder o).2.2).asks hWF2.askOrders
          cross := by
            intro pb hb pa ha
            rcases (asksInsert_keys o.price ((b.matchLimitOrder o).2.1)
              ((b.matchLimitOrder o).2.2).asks).2 pa ha with h | h
            · rw [h]
              exact hcrossnew pb hb
            · exact hWF2.cross pb hb pa h }

theorem Reaches_WF (sym : Symbol) (b : OrderBook) (h : Reaches sym b) :
    BookWF sym b := by
  induction h with
  | empty => exact emptyBook_WF sym
  | add b2 o hr hsym ih => exact addOrder_WF sym b2 o ih hsym
  | cancel b2 i hr ih => exact cancelOrder_WF sym b2 i ih

/-- C3 (amended): for any sequence of `addOrder` and `cancelOrder` calls on
one book in which every added order bears the book's symbol — the discipline
the engine's per-symbol routing provides — the book is never crossed after
any operation returns: every bid price key is strictly below every ask price
key (so when both sides are nonempty, max(bids) < min(asks)).  The original
claim, quantified over arbitrary adds, is refuted by the counterexample: an
order of a different symbol breaks matching (`canMatchWith` checks symbols)
but still rests, and `addOrder` never checks the symbol. -/
theorem C3_book_never_crossed (sym : Symbol) (b : OrderBook)
    (h : Reaches sym b) : noCross b :=
  (Reaches_WF sym b h).cross

/-- C3 counterexample: adding a sell on symbol `X` at 100 and then a buy on
symbol `Y` at 150 to the same book leaves best bid 150 above best ask 100 —
a crossed book reached only through `addOrder` calls. -/
theorem C3_counterexample :
    bookC3bad.getBestBid = some 150 ∧ bookC3bad.getBestAsk = some 100 ∧
    ¬ noCross bookC3bad :=
  ⟨rfl, rfl, by decide⟩

/-- Witness for C3 at a concrete trace: a sell at 100 then a crossing buy at
150 with the same symbol; the buy consumes the ask and its remainder rests,
leaving an uncrossed book. -/
theorem C3_witness : noCross bookC3w :=
  C3_book_never_crossed "X" bookC3w
    (Reaches.add _ orderC3b (Reaches.add _ orderC3a Reaches.empty rfl) rfl)

end MatchingEngine
